import Mathlib

/-!
# SBMtrees / BART tree core: a shallow embedding of `tree.h`, `cpwbart.h`, `treefuns.cpp`

Modelling conventions.

* A C++ `tree` object owns its two children, so a tree (a root node together with
  everything below it) is a value of the inductive type `tree`.  A node whose `l` is
  null is `tree.bot`; a node with children is `tree.node`.  Every node, bottom or
  not, stores `theta`, `v` and `c`, exactly as the C++ class does.
* `double` values are exact rationals (`ℚ`); `size_t` values are naturals, reduced
  modulo `2^64` where the C++ arithmetic can wrap; `int` values are integers, and
  a conversion `size_t → int` is the two's complement wrap `toInt`.
* A pointer to a node of a tree is the list of child steps leading from the root
  to that node (`false` = the `l` child, `true` = the `r` child).
* What a node sees through its parent pointer `p` is its chain of `link`s: for each
  ancestor, nearest first, whether the walk came from its `l` child, and the
  ancestor's `v` and `c`.
* Out-of-range reads of a `std::vector` or of a `double*` are undefined behaviour in
  C++; here they make the function return `none`.
-/

namespace SBMtrees

/-! ## Data model -/

/-- A node of `class tree` together with the subtree it owns. -/
inductive tree where
  | bot (theta : ℚ) (v c : Nat) : tree
  | node (theta : ℚ) (v c : Nat) (l r : tree) : tree
  deriving DecidableEq, Repr

/-- The typedef `xinfo`: `xi[v][c]` is the `c`-th cutpoint of variable `v`. -/
abbrev xinfo := List (List ℚ)

/-- A pointer to a node: the child steps from the root (`false` = `l`, `true` = `r`). -/
abbrev tree_p := List Bool

namespace tree

/-- Member function `gettheta`. -/
def gettheta : tree → ℚ
  | bot theta _ _ => theta
  | node theta _ _ _ _ => theta

/-- Member function `getv`. -/
def getv : tree → Nat
  | bot _ v _ => v
  | node _ v _ _ _ => v

/-- Member function `getc`. -/
def getc : tree → Nat
  | bot _ _ c => c
  | node _ _ c _ _ => c

/-- The test `l == 0`: the node has no children. -/
def isbot : tree → Bool
  | bot _ _ _ => true
  | node _ _ _ _ _ => false

/-- Dereference of a node pointer: the node (with its subtree) reached from the root
by the given child steps, `none` when the steps leave the tree. -/
def sub : tree → tree_p → Option tree
  | t, [] => some t
  | bot _ _ _, _ :: _ => none
  | node _ _ _ l _, false :: p => sub l p
  | node _ _ _ _ r, true :: p => sub r p

/-- Write through a node pointer: the tree in which the node at `p` (with its
subtree) is replaced by `s`; the tree is unchanged when `p` is not a node. -/
def put : tree → tree_p → tree → tree
  | _, [], s => s
  | bot theta v c, _ :: _, _ => bot theta v c
  | node theta v c l r, false :: p, s => node theta v c (put l p s) r
  | node theta v c l r, true :: p, s => node theta v c l (put r p s)

/-- Member function `treesize`: number of nodes. -/
def treesize : tree → Nat
  | bot _ _ _ => 1
  | node _ _ _ l r => 1 + treesize l + treesize r

/-- Member function `nbots`: number of bottom nodes. -/
def nbots : tree → Nat
  | bot _ _ _ => 1
  | node _ _ _ l r => nbots l + nbots r

/-- Member function `isnog`: has children, and neither child has children. -/
def isnog : tree → Bool
  | bot _ _ _ => false
  | node _ _ _ l r => if !l.isbot || !r.isbot then false else true

/-- Member function `nnogs`: number of no-grandchildren nodes. -/
def nnogs : tree → Nat
  | bot _ _ _ => 0
  | node _ _ _ l r => if !l.isbot || !r.isbot then nnogs l + nnogs r else 1

/-- Length of the longest chain of child steps below the node. -/
def height : tree → Nat
  | bot _ _ _ => 0
  | node _ _ _ l r => 1 + max (height l) (height r)

end tree

/-- The read `xi[v][c]`. -/
def xinfo.cut (xi : xinfo) (v c : Nat) : Option ℚ :=
  match xi[v]? with
  | none => none
  | some cuts => cuts[c]?

/-- Every split rule stored at a node with children can be read: `x[v]` exists for a
feature vector of `p` entries and `xi[v][c]` exists. -/
def tree.valid (p : Nat) (xi : xinfo) : tree → Prop
  | tree.bot _ _ _ => True
  | tree.node _ v c l r => v < p ∧ (xi.cut v c).isSome ∧ tree.valid p xi l ∧ tree.valid p xi r

/-- Member function `bn` (find bottom node), called on the node `t` with feature
vector `x`: the pointer, relative to `t`, of the node returned. -/
def tree.bn : tree → List ℚ → xinfo → Option tree_p
  | tree.bot _ _ _, _, _ => some []
  | tree.node _ v c l r, x, xi =>
    match x[v]?, xi.cut v c with
    | some xv, some cut =>
      if xv < cut then (tree.bn l x xi).map (fun q => false :: q)
      else (tree.bn r x xi).map (fun q => true :: q)
    | _, _ => none

/-- The call `bn->gettheta()` on the pointer `b` returned by `bn`. -/
def tree.thetaAt (t : tree) (b : tree_p) : Option ℚ :=
  match t.sub b with
  | some s => some s.gettheta
  | none => none

/-- The leaf value `t.bn(x, xi)->gettheta()`. -/
def tree.route (t : tree) (x : List ℚ) (xi : xinfo) : Option ℚ :=
  match t.bn x xi with
  | some b => t.thetaAt b
  | none => none

/-! ## Integer conversions -/

/-- Conversion of a `size_t` value to `int` (32 bits, two's complement wrap). -/
def toInt (n : Nat) : Int :=
  if n % 2 ^ 32 < 2 ^ 31 then ((n % 2 ^ 32 : Nat) : Int) else ((n % 2 ^ 32 : Nat) : Int) - 2 ^ 32

/-- The `size_t` expression `n - 1`. -/
def pred64 (n : Nat) : Nat := (n + (2 ^ 64 - 1)) % 2 ^ 64

/-- The `size_t` expression `n + 1`. -/
def succ64 (n : Nat) : Nat := (n + 1) % 2 ^ 64

/-! ## Parent chains: `nid`, `depth`, `rg` -/

/-- What a node reads through its parent pointer: the child step `d` that leads from
the parent to the node (`d = false` exactly when `this == p->l`) and the parent's
`v` and `c`. -/
structure link where
  d : Bool
  v : Nat
  c : Nat
  deriving DecidableEq, Repr

/-- The parent chain (nearest ancestor first) of the node at `p` below a node `t`
whose own chain is `up`. -/
def tree.linksFrom : tree → tree_p → List link → List link
  | _, [], up => up
  | tree.bot _ _ _, _ :: _, up => up
  | tree.node _ v c l _, false :: p, up => tree.linksFrom l p (⟨false, v, c⟩ :: up)
  | tree.node _ v c _ r, true :: p, up => tree.linksFrom r p (⟨true, v, c⟩ :: up)

/-- The parent chain of the node at `p` in the tree rooted at `t`. -/
def tree.links (t : tree) (p : tree_p) : List link := t.linksFrom p []

/-- Member function `nid`, on the parent chain of `this` (`size_t` arithmetic). -/
def nid : List link → Nat
  | [] => 1
  | a :: up => if a.d = false then (2 * nid up) % 2 ^ 64 else (2 * nid up + 1) % 2 ^ 64

/-- Member function `depth`, on the parent chain of `this`. -/
def depth : List link → Nat
  | [] => 0
  | _ :: up => (1 + depth up) % 2 ^ 64

/-- Member function `rg(v, &L, &U)`, on the parent chain of `this`; the pair is
`(*L, *U)` before and after the call. -/
def rg (v : Nat) : List link → Int × Int → Int × Int
  | [], LU => LU
  | a :: up, (L, U) =>
    if a.v = v then
      if a.d = false then
        rg v up (L, if toInt a.c ≤ U then toInt (pred64 a.c) else U)
      else
        rg v up (if toInt a.c ≥ L then toInt (succ64 a.c) else L, U)
    else
      rg v up (L, U)

/-! ## `getptr`, `birth`, `death` -/

/-- Member function `getptr(nid)` called on the node `t` whose parent chain is `up`:
the pointer (relative to `t`) of the node found, `none` for the null pointer. -/
def tree.getptr : tree → List link → Nat → Option tree_p
  | tree.bot _ _ _, up, k => if nid up = k then some [] else none
  | tree.node _ v c l r, up, k =>
    if nid up = k then some []
    else
      match tree.getptr l (⟨false, v, c⟩ :: up) k with
      | some lp => some (false :: lp)
      | none =>
        match tree.getptr r (⟨true, v, c⟩ :: up) k with
        | some rp => some (true :: rp)
        | none => none

/-- Member function `birth(nid, v, c, thetal, thetar)` called on the root `t`: the
returned flag and the tree after the call. -/
def tree.birth (t : tree) (k v c : Nat) (thetal thetar : ℚ) : Bool × tree :=
  match t.getptr [] k with
  | none => (false, t)
  | some np =>
    match t.sub np with
    | some (tree.bot theta _ _) =>
      (true, t.put np (tree.node theta v c (tree.bot thetal 0 0) (tree.bot thetar 0 0)))
    | _ => (false, t)

/-- Member function `death(nid, theta)` called on the root `t`: the returned flag and
the tree after the call. -/
def tree.death (t : tree) (k : Nat) (theta : ℚ) : Bool × tree :=
  match t.getptr [] k with
  | none => (false, t)
  | some nb =>
    match t.sub nb with
    | some s => if s.isnog then (true, t.put nb (tree.bot theta 0 0)) else (false, t)
    | none => (false, t)

/-! ## `cp`, `getnogs`, `tonull`, assignment -/

/-- Private member `cp(n, o)`: the node `n` after the call.  Every node below `n` is
made by `new tree` (a node with `theta = 0`, `v = 0`, `c = 0` and no children). -/
def cp : tree → tree → tree
  | tree.node theta v c l r, _ => tree.node theta v c l r
  | tree.bot _ _ _, tree.bot theta v c => tree.bot theta v c
  | tree.bot _ _ _, tree.node theta v c l r =>
    tree.node theta v c (cp (tree.bot 0 0 0) l) (cp (tree.bot 0 0 0) r)

/-- The copy constructor `tree(const tree& n)`. -/
def tree.copy (s : tree) : tree := cp (tree.bot 0 0 0) s

/-- Member function `getnogs(nv)`: the pointers (relative to `this`) appended to `nv`. -/
def tree.getnogs : tree → List tree_p
  | tree.bot _ _ _ => []
  | tree.node _ _ _ l r =>
    if !l.isbot || !r.isbot then
      (if !l.isbot then (tree.getnogs l).map (fun q => false :: q) else [])
        ++ (if !r.isbot then (tree.getnogs r).map (fun q => true :: q) else [])
    else [[]]

/-- The body of the `for` loop of `tonull` for one pointer `q`: the children of the
node at `q` are deleted and its `l`, `r` set to null; `theta`, `v`, `c` stay. -/
def tree.dropkids (t : tree) (q : tree_p) : tree :=
  match t.sub q with
  | some (tree.node theta v c _ _) => t.put q (tree.bot theta v c)
  | _ => t

/-- The `while(ts>1)` loop of `tonull`, run for at most `fuel` passes. -/
def tree.tonullLoop : Nat → tree → Option tree
  | 0, t => if t.treesize > 1 then none else some t
  | fuel + 1, t =>
    if t.treesize > 1 then tree.tonullLoop fuel (t.getnogs.foldl tree.dropkids t)
    else some t

/-- Member function `tonull`: after the loop the node is reset to a single default
node. -/
def tree.tonull (fuel : Nat) (t : tree) : Option tree :=
  match tree.tonullLoop fuel t with
  | some _ => some (tree.bot 0 0 0)
  | none => none

/-- The assignment `lhs = rhs` (`operator=`) for two distinct objects: `tonull`, then
`cp(this, &rhs)`. -/
def tree.assign (fuel : Nat) (lhs rhs : tree) : Option tree :=
  match lhs.tonull fuel with
  | some n => some (cp n rhs)
  | none => none

/-! ## `cansplit`, `getgoodvars` (treefuns.cpp) -/

/-- The `while` loop of `cansplit(n, xi)`; `n` is given by its parent chain, `v` and
`v_found` are the loop variables. -/
def cansplitLoop (n : List link) (xi : xinfo) : Nat → Nat → Bool → Option Bool
  | 0, v, v_found => if !v_found && decide (v < xi.length) then none else some v_found
  | fuel + 1, v, v_found =>
    if !v_found && decide (v < xi.length) then
      match xi[v]? with
      | none => none
      | some cuts =>
        let LU := rg v n (0, toInt (pred64 cuts.length))
        cansplitLoop n xi fuel (v + 1) (if LU.2 ≥ LU.1 then true else v_found)
    else some v_found

/-- Function `cansplit(n, xi)`. -/
def cansplit (n : List link) (xi : xinfo) : Option Bool :=
  cansplitLoop n xi xi.length 0 false

/-- The `for` loop of `getgoodvars(n, xi, goodvars)`. -/
def getgoodvarsLoop (n : List link) (xi : xinfo) : Nat → Nat → List Nat → Option (List Nat)
  | 0, v, goodvars => if v ≠ xi.length then none else some goodvars
  | fuel + 1, v, goodvars =>
    if v ≠ xi.length then
      match xi[v]? with
      | none => none
      | some cuts =>
        let LU := rg v n (0, toInt (pred64 cuts.length))
        getgoodvarsLoop n xi fuel (v + 1) (if LU.2 ≥ LU.1 then goodvars ++ [v] else goodvars)
    else some goodvars

/-- Function `getgoodvars(n, xi, goodvars)`: the content of `goodvars` after the call. -/
def getgoodvars (n : List link) (xi : xinfo) : Option (List Nat) :=
  getgoodvarsLoop n xi xi.length 0 []

/-! ## `fit4`, `getpred` (cpwbart.h) -/

/-- The loop of `fit4(t, xi, p, n, x, fv)` from index `i` on, `todo` iterations left:
the content of `fv` after the call. The pointer `x + i*p` is the memory from offset
`i*p` on. -/
def fit4Loop (t : tree) (xi : xinfo) (p : Nat) (x : List ℚ) : Nat → Nat → List ℚ → Option (List ℚ)
  | 0, _, fv => some fv
  | todo + 1, i, fv =>
    match t.bn (x.drop (i * p)) xi with
    | none => none
    | some b =>
      match t.thetaAt b with
      | none => none
      | some th => if i < fv.length then fit4Loop t xi p x todo (i + 1) (fv.set i th) else none

/-- Function `fit4(t, xi, p, n, x, fv)`. -/
def fit4 (t : tree) (xi : xinfo) (p n : Nat) (x : List ℚ) (fv : List ℚ) : Option (List ℚ) :=
  fit4Loop t xi p x n 0 fv

/-- A numeric matrix, read and written as `yhat(i,k)`. -/
abbrev matrix := Nat → Nat → ℚ

/-- The body `yhat(i,k) += f` (the row index `i` is an `int`). -/
def addAt (i : Int) (k : Nat) (f : ℚ) (yhat : matrix) : matrix :=
  fun a b => if (a : Int) = i ∧ b = k then yhat a b + f else yhat a b

/-- The loop `for(k<np) yhat(i,k) += fptemp[k]`, from index `k` on. -/
def addRow (i : Int) (fptemp : List ℚ) : Nat → Nat → matrix → Option matrix
  | 0, _, yhat => some yhat
  | todo + 1, k, yhat =>
    match fptemp[k]? with
    | none => none
    | some f => addRow i fptemp todo (k + 1) (addAt i k f yhat)

/-- The read `tmat[i][j]` with an `int` index `i`. -/
def treeAt (tmat : List (List tree)) (i : Int) (j : Nat) : Option tree :=
  if i < 0 then none
  else
    match tmat[i.toNat]? with
    | none => none
    | some draw => draw[j]?

/-- The loop over the trees `j` of draw `i` in `getpred`, from index `j` on; the
state is the buffer `fptemp` and the matrix `yhat`. -/
def treeLoop (i : Int) (p np : Nat) (xi : xinfo) (tmat : List (List tree)) (px : List ℚ) :
    Nat → Nat → List ℚ → matrix → Option (List ℚ × matrix)
  | 0, _, fptemp, yhat => some (fptemp, yhat)
  | todo + 1, j, fptemp, yhat =>
    match treeAt tmat i j with
    | none => none
    | some t =>
      match fit4 t xi p np px fptemp with
      | none => none
      | some fv =>
        match addRow i fv np 0 yhat with
        | none => none
        | some y => treeLoop i p np xi tmat px todo (j + 1) fv y

/-- The loop over the draws `i` in `getpred`, `todo` passes left. -/
def drawLoop (p m np : Nat) (xi : xinfo) (tmat : List (List tree)) (px : List ℚ) :
    Nat → Int → List ℚ → matrix → Option matrix
  | 0, _, _, yhat => some yhat
  | todo + 1, i, fptemp, yhat =>
    match treeLoop i p np xi tmat px m 0 fptemp yhat with
    | none => none
    | some (fv, y) => drawLoop p m np xi tmat px todo (i + 1) fv y

/-- Function `getpred(beg, end, p, m, np, xi, tmat, px, yhat)`: the matrix `yhat` after
the call. The buffer `fptemp` has `np` entries; its initial content is `fptemp0`.
The loop `for(int i=beg;i<=end;i++)` makes `end - beg + 1` passes (none when
`end < beg`). -/
def getpred (beg end_ : Int) (p m np : Nat) (xi : xinfo) (tmat : List (List tree))
    (px : List ℚ) (fptemp0 : List ℚ) (yhat : matrix) : Option matrix :=
  drawLoop p m np xi tmat px (end_ + 1 - beg).toNat beg fptemp0 yhat

/-- The prediction step of `cpwbart`: `yhat` filled with zeros, then
`getpred(0, nd-1, ...)`, where `nd - 1` is a `size_t` converted to `int`. -/
def predict (nd p m np : Nat) (xi : xinfo) (tmat : List (List tree)) (px : List ℚ)
    (fptemp0 : List ℚ) : Option matrix :=
  getpred 0 (toInt (pred64 nd)) p m np xi tmat px fptemp0 (fun _ _ => 0)

/-! ## Scenario data -/

/-- The cutpoint table of the scenarios: one feature, cutpoints 1.0, 2.0, 3.0. -/
def scen_xi : xinfo := [[1, 2, 3]]

/-- The tree of the scenarios: root split on variable 0 at cutpoint index 1, left
leaf value 10, right leaf value 20. -/
def scen_tree : tree := tree.node 0 0 1 (tree.bot 10 0 0) (tree.bot 20 0 0)

/-! ## The admissible range as the specification words it -/

/-- The specification's lower bound: the maximum of `L0` and of `a.c + 1` over the
ancestors `a` with `a.v = v` below whose right child the node lies. -/
def lowerBound (v : Nat) (up : List link) (L0 : Int) : Int :=
  ((up.filter (fun a => decide (a.v = v) && a.d)).map (fun a => (a.c : Int) + 1)).foldr max L0

/-- The specification's upper bound: the minimum of `U0` and of `a.c - 1` over the
ancestors `a` with `a.v = v` below whose left child the node lies. -/
def upperBound (v : Nat) (up : List link) (U0 : Int) : Int :=
  ((up.filter (fun a => decide (a.v = v) && !a.d)).map (fun a => (a.c : Int) - 1)).foldr min U0

/-! ## Auxiliary notions for node ids -/

/-- The node id without `size_t` wrap-around: 1 at the root, `2 * parent` for a left
child, `2 * parent + 1` for a right child. -/
def eid : List link → Nat
  | [] => 1
  | a :: up => if a.d = false then 2 * eid up else 2 * eid up + 1

/-- The fields `(theta, v, c)` stored at the node a pointer designates. -/
def tree.fields (t : tree) (q : tree_p) : Option (ℚ × Nat × Nat) :=
  match t.sub q with
  | some s => some (s.gettheta, s.getv, s.getc)
  | none => none

/-- A left spine of `n` nodes with children (each with a right leaf) above `s`. -/
def spine : Nat → tree → tree
  | 0, s => s
  | n + 1, s => tree.node 0 0 0 (spine n s) (tree.bot 0 0 0)

/-- The tree that 64 calls `birth(1)`, `birth(2)`, `birth(4)`, ..., `birth(2^63)` build
from a single leaf (all leaf values 0, except 7 at the rightmost node of depth 64). -/
def deep_tree : tree := spine 63 (tree.node 0 0 0 (tree.bot 0 0 0) (tree.bot 7 0 0))

/-- The tree that the calls `birth(1)`, `birth(3)`, `birth(2)`, `birth(4)`, ...,
`birth(2^62)`, `birth(2^63 + 1)` build from a single leaf: the right child of the root
(id 3) is a no-grandchildren node, and the node of depth 64 reached by 62 left steps
and 2 right steps (leaf value 7) has an id that wraps around to 3. -/
def deep_nog : tree :=
  tree.node 0 0 0
    (spine 61 (tree.node 0 0 0 (tree.bot 0 0 0) (tree.node 0 0 0 (tree.bot 0 0 0) (tree.bot 7 0 0))))
    (tree.node 0 0 0 (tree.bot 0 0 0) (tree.bot 0 0 0))

/-- A sequence of calls `birth(k, 0, 0, 0, thetar)`, one for each pair `(k, thetar)`. -/
def births (ks : List (Nat × ℚ)) (t : tree) : tree :=
  ks.foldl (fun s k => (s.birth k.1 0 0 0 k.2).2) t

/-! ## Ensemble prediction as the specification words it -/

/-- Feature row `i` of the matrix stored at `px`: the `p` values starting at `px + i*p`. -/
def featureRow (px : List ℚ) (p i : Nat) : List ℚ := (px.drop (i * p)).take p

/-- The leaf value of the bottom node that `bn` reaches in `t` for the vector `x`
(0 if `bn` cannot read a rule). -/
def tree.leaf (t : tree) (x : List ℚ) (xi : xinfo) : ℚ := (t.route x xi).getD 0

/-- The specification's prediction for one draw and one feature vector: the sum over
the trees of the draw of the leaf value reached. -/
def drawSum (draw : List tree) (x : List ℚ) (xi : xinfo) : ℚ :=
  (draw.map (fun t => t.leaf x xi)).sum

/-- The ensemble of the scenario: 2 draws of 2 single-leaf trees, with leaf values
(1, 2) and (3, 4). -/
def scen_tmat : List (List tree) :=
  [[tree.bot 1 0 0, tree.bot 2 0 0], [tree.bot 3 0 0, tree.bot 4 0 0]]

/-- Every leaf value of the tree multiplied by `k`; shape and split rules unchanged. -/
def tree.scale (k : ℚ) : tree → tree
  | tree.bot theta v c => tree.bot (k * theta) v c
  | tree.node theta v c l r => tree.node theta v c (tree.scale k l) (tree.scale k r)

/-- The ensemble in which every leaf value of every tree of draw `d` is multiplied by
`k`. -/
def scaleDraw (k : ℚ) (d : Nat) (tmat : List (List tree)) : List (List tree) :=
  match tmat[d]? with
  | some draw => tmat.set d (draw.map (tree.scale k))
  | none => tmat

/-- Variable `v` can be used to split below the node with parent chain `n`: `v` indexes
the table and `rg` started from `L = 0`, `U = xi[v].size() - 1` ends with `U >= L`. -/
def goodvar (n : List link) (xi : xinfo) (v : Nat) : Bool :=
  match xi[v]? with
  | some cuts =>
    decide ((rg v n (0, toInt (pred64 cuts.length))).2 ≥ (rg v n (0, toInt (pred64 cuts.length))).1)
  | none => false

/-- One pass of the `for` loop of `tonull` over all collected nodes, described on the
tree: every no-grandchildren node loses its children. -/
def tree.cutnogs : tree → tree
  | tree.bot theta v c => tree.bot theta v c
  | tree.node theta v c l r =>
    if !l.isbot || !r.isbot then tree.node theta v c (tree.cutnogs l) (tree.cutnogs r)
    else tree.bot theta v c

/-! ## The memory view: objects, pointers, ownership

The inductive type `tree` gives every tree object its own nodes. To state that a
copy shares no node with its source, the same code is also modelled on a memory of
`tree` objects linked by pointers. -/

/-- A `tree` object in memory: its six fields. A pointer is `none` (null) or the
address of an object. -/
structure cell where
  theta : ℚ
  v : Nat
  c : Nat
  p : Option Nat
  l : Option Nat
  r : Option Nat

/-- The memory: the object at address `a` is the entry of index `a`. Freed objects
stay in the list and their addresses are not handed out again. -/
abbrev heap := List cell

/-- The expression `new tree`: a fresh object with `theta = 0`, `v = 0`, `c = 0` and
null pointers; the pair is the memory after the allocation and the new address. -/
def heap.alloc (h : heap) : heap × Nat := (h ++ [⟨0, 0, 0, none, none, none⟩], h.length)

/-- An assignment to fields of the object at address `a`. -/
def heap.upd (h : heap) (a : Nat) (f : cell → cell) : heap :=
  match h[a]? with
  | some x => h.set a (f x)
  | none => h

/-- The assignments `n->theta = ...; n->v = ...; n->c = ...;`. -/
def heap.setvals (h : heap) (n : Nat) (theta : ℚ) (v c : Nat) : heap :=
  h.upd n (fun x => ⟨theta, v, c, x.p, x.l, x.r⟩)

/-- The statements `n->l = new tree; (n->l)->p = n;`: the memory afterwards and the
address of the new object. -/
def heap.newl (h : heap) (n : Nat) : heap × Nat :=
  ((h.alloc.1.upd n (fun x => ⟨x.theta, x.v, x.c, x.p, some h.alloc.2, x.r⟩)).upd h.alloc.2
    (fun x => ⟨x.theta, x.v, x.c, some n, x.l, x.r⟩), h.alloc.2)

/-- The statements `n->r = new tree; (n->r)->p = n;`: the memory afterwards and the
address of the new object. -/
def heap.newr (h : heap) (n : Nat) : heap × Nat :=
  ((h.alloc.1.upd n (fun x => ⟨x.theta, x.v, x.c, x.p, x.l, some h.alloc.2⟩)).upd h.alloc.2
    (fun x => ⟨x.theta, x.v, x.c, some n, x.l, x.r⟩), h.alloc.2)

/-- Private member `cp(n, o)` on the memory: the memory after the call (`none` when
the recursion allowance `fuel` is used up or a null pointer is dereferenced). -/
def cpH : Nat → heap → Nat → Nat → Option heap
  | 0, _, _, _ => none
  | fuel + 1, h, n, o =>
    match h[n]?, h[o]? with
    | some cn, some co =>
      match cn.l with
      | some _ => some h
      | none =>
        match co.l with
        | none => some (h.setvals n co.theta co.v co.c)
        | some ol =>
          match cpH fuel ((h.setvals n co.theta co.v co.c).newl n).1
              ((h.setvals n co.theta co.v co.c).newl n).2 ol with
          | none => none
          | some h3 =>
            match co.r with
            | none => none
            | some or_ => cpH fuel (h3.newr n).1 (h3.newr n).2 or_
    | _, _ => none

/-- The memory `h` holds the tree `t` at address `a`, with parent pointer `par`, in the
objects at the addresses `fp` (the node itself first, then its left and right
subtrees). -/
def repr (h : heap) : Nat → Option Nat → tree → List Nat → Prop
  | a, par, tree.bot theta v c, fp =>
    fp = [a] ∧ h[a]? = some ⟨theta, v, c, par, none, none⟩
  | a, par, tree.node theta v c l r, fp =>
    ∃ al ar fl fr, fp = a :: (fl ++ fr) ∧ h[a]? = some ⟨theta, v, c, par, some al, some ar⟩ ∧
      repr h al (some a) l fl ∧ repr h ar (some a) r fr

/-- Member function `nid` on the memory. -/
def nidH : Nat → heap → Nat → Option Nat
  | 0, _, _ => none
  | fuel + 1, h, a =>
    match h[a]? with
    | none => none
    | some x =>
      match x.p with
      | none => some 1
      | some pa =>
        match h[pa]?, nidH fuel h pa with
        | some y, some k =>
          if y.l = some a then some ((2 * k) % 2 ^ 64) else some ((2 * k + 1) % 2 ^ 64)
        | _, _ => none

/-- Member function `getptr(nid)` on the memory, called on the object at `a`: the
pointer returned (`some none` is the null pointer). -/
def getptrH : Nat → heap → Nat → Nat → Option (Option Nat)
  | 0, _, _, _ => none
  | fuel + 1, h, a, k =>
    match nidH (fuel + 1) h a, h[a]? with
    | some id, some x =>
      if id = k then some (some a)
      else
        match x.l with
        | none => some none
        | some al =>
          match getptrH fuel h al k with
          | none => none
          | some (some lp) => some (some lp)
          | some none =>
            match x.r with
            | none => none
            | some ar => getptrH fuel h ar k
    | _, _ => none

/-- Member function `birth` on the memory, called on the object at `root`: the flag
returned and the memory after the call. -/
def birthH (fuel : Nat) (h : heap) (root k v c : Nat) (thetal thetar : ℚ) :
    Option (Bool × heap) :=
  match getptrH fuel h root k with
  | none => none
  | some none => some (false, h)
  | some (some np) =>
    match h[np]? with
    | none => none
    | some x =>
      match x.l with
      | some _ => some (false, h)
      | none =>
        let h1 := h.alloc.1.upd h.alloc.2 (fun y => ⟨thetal, y.v, y.c, y.p, y.l, y.r⟩)
        let h2 := h1.alloc.1.upd h1.alloc.2 (fun y => ⟨thetar, y.v, y.c, y.p, y.l, y.r⟩)
        let h3 := h2.upd np (fun y => ⟨y.theta, v, c, y.p, some h.alloc.2, some h1.alloc.2⟩)
        let h4 := (h3.upd h.alloc.2 (fun y => ⟨y.theta, y.v, y.c, some np, y.l, y.r⟩)).upd
          h1.alloc.2 (fun y => ⟨y.theta, y.v, y.c, some np, y.l, y.r⟩)
        some (true, h4)

/-- Member function `isnog` on the memory. -/
def isnogH (h : heap) (a : Nat) : Option Bool :=
  match h[a]? with
  | none => none
  | some x =>
    match x.l with
    | none => some false
    | some al =>
      match h[al]? with
      | none => none
      | some y =>
        match y.l with
        | some _ => some false
        | none =>
          match x.r with
          | none => none
          | some ar =>
            match h[ar]? with
            | none => none
            | some z => some z.l.isNone

/-- Member function `death` on the memory, called on the object at `root`: the flag
returned and the memory after the call (the two deleted objects are not used again). -/
def deathH (fuel : Nat) (h : heap) (root k : Nat) (theta : ℚ) : Option (Bool × heap) :=
  match getptrH fuel h root k with
  | none => none
  | some none => some (false, h)
  | some (some nb) =>
    match isnogH h nb with
    | none => none
    | some true => some (true, h.upd nb (fun y => ⟨theta, 0, 0, y.p, none, none⟩))
    | some false => some (false, h)

/-- The scenario tree laid out in memory: root at address 0, leaves at 1 and 2. -/
def scen_heap : heap :=
  [⟨0, 0, 1, none, some 1, some 2⟩, ⟨10, 0, 0, some 0, none, none⟩, ⟨20, 0, 0, some 0, none, none⟩]

/-- The scenario tree after `birth(3, 0, 2, 21, 22)`: the right leaf is grown into a
node splitting on variable 0 at cutpoint index 2, with children 21 and 22. -/
def scen_grown : tree := (scen_tree.birth 3 0 2 21 22).2

/-! ## Collectors -/

/-- Member function `getbots(bv)`: the pointers (relative to `this`) appended to `bv`. -/
def tree.getbots : tree → List tree_p
  | tree.bot _ _ _ => [[]]
  | tree.node _ _ _ l r =>
    (tree.getbots l).map (fun q => false :: q) ++ (tree.getbots r).map (fun q => true :: q)

/-- Member function `getnodes(v)`: the pointers (relative to `this`) appended to `v`. -/
def tree.getnodes : tree → List tree_p
  | tree.bot _ _ _ => [[]]
  | tree.node _ _ _ l r =>
    [] :: ((tree.getnodes l).map (fun q => false :: q)
      ++ (tree.getnodes r).map (fun q => true :: q))

/-- Pre-order of node pointers: a node comes before the nodes below it, and the nodes
of a left subtree come before the nodes of the right subtree. -/
def before : tree_p → tree_p → Bool
  | [], [] => false
  | [], _ :: _ => true
  | _ :: _, [] => false
  | d :: p, e :: q => if d = e then before p q else (!d && e)

/-! ## `tree2count` -/

/-- The statement `res[v]++` on an integer vector (`none` when `v` is out of range). -/
def incrAt (res : List Int) (v : Nat) : Option (List Int) :=
  match res[v]? with
  | some x => some (res.set v (x + 1))
  | none => none

/-- The statement `res += other` on integer vectors of equal length (entrywise sum).
The entries are R integers; sums below `2^31` are exact. -/
def vecAdd (res other : List Int) : List Int := List.zipWith (fun a b => a + b) res other

/-- Member function `tree2count(nvar)`: the vector returned. -/
def tree.tree2count (nvar : Nat) : tree → Option (List Int)
  | tree.bot _ _ _ => some (List.replicate nvar 0)
  | tree.node _ v _ l r =>
    match incrAt (List.replicate nvar 0) v with
    | none => none
    | some res1 =>
      match (if !l.isbot then
              match tree.tree2count nvar l with
              | some cl => some (vecAdd res1 cl)
              | none => none
            else some res1) with
      | none => none
      | some res2 =>
        if !r.isbot then
          match tree.tree2count nvar r with
          | some cr => some (vecAdd res2 cr)
          | none => none
        else some res2

/-- The number of nodes with children whose split variable is `u`. -/
def tree.splits (u : Nat) : tree → Nat
  | tree.bot _ _ _ => 0
  | tree.node _ v _ l r => (if v = u then 1 else 0) + tree.splits u l + tree.splits u r

/-- Every node with children has a split variable below `nvar`. -/
def tree.varsBelow (nvar : Nat) : tree → Prop
  | tree.bot _ _ _ => True
  | tree.node _ v _ l r => v < nvar ∧ tree.varsBelow nvar l ∧ tree.varsBelow nvar r

/-! ## `tree2list` -/

/-- The value exported by `tree2list`: a number, or the record
`list(var, cut, type, left, right)`. -/
inductive rvalue where
  | num (x : ℚ) : rvalue
  | record (var cut type : Int) (left right : rvalue) : rvalue

/-- Member function `tree2list(xi, center, scale)` (the argument `xi` is not used by the
code): the list returned. `var` and `cut` are the `size_t` values `v + 1` and `c + 1`
converted to `int`. -/
def tree.tree2list (center scale : ℚ) : tree → rvalue
  | tree.bot theta _ _ =>
    rvalue.record 0 0 0 (rvalue.num (theta * scale + center)) (rvalue.num (theta * scale + center))
  | tree.node _ v c l r =>
    if !l.isbot && !r.isbot then
      rvalue.record (toInt (succ64 v)) (toInt (succ64 c)) 1
        (tree.tree2list center scale l) (tree.tree2list center scale r)
    else if !l.isbot && r.isbot then
      rvalue.record (toInt (succ64 v)) (toInt (succ64 c)) 2
        (tree.tree2list center scale l) (rvalue.num (r.gettheta * scale + center))
    else if l.isbot && !r.isbot then
      rvalue.record (toInt (succ64 v)) (toInt (succ64 c)) 3
        (rvalue.num (l.gettheta * scale + center)) (tree.tree2list center scale r)
    else
      rvalue.record (toInt (succ64 v)) (toInt (succ64 c)) 0
        (rvalue.num (l.gettheta * scale + center)) (rvalue.num (r.gettheta * scale + center))

/-- The shape code of the specification: 1 when both children have children, 2 when
only the left child has, 3 when only the right child has, 0 when neither has. -/
def shapeCode (l r : tree) : Int :=
  match l.isbot, r.isbot with
  | false, false => 1
  | false, true => 2
  | true, false => 3
  | true, true => 0

/-- The export of a child as the specification words it: a child with children is
exported recursively, a leaf child as the number `theta*scale + center`. -/
def exportChild (center scale : ℚ) (s : tree) : rvalue :=
  if s.isbot then rvalue.num (s.gettheta * scale + center) else s.tree2list center scale

/-! ## `local_getpred` (cpwbart.h, OpenMP build) -/

/-- The draw range that `local_getpred` computes for the thread `my_rank` out of
`thread_count`: `int h = nd/thread_count; int beg = my_rank*h; int end = beg+h-1;`
returned as `(beg, end)`. -/
def localRange (nd thread_count my_rank : Nat) : Int × Int :=
  ((my_rank : Int) * toInt (nd / thread_count),
    (my_rank : Int) * toInt (nd / thread_count) + toInt (nd / thread_count) - 1)

/-- Function `local_getpred` run by the thread `my_rank`: `getpred(beg, end, ...)` on its
range. -/
def local_getpred (nd p m np : Nat) (xi : xinfo) (tmat : List (List tree)) (px : List ℚ)
    (fptemp0 : List ℚ) (yhat : matrix) (thread_count my_rank : Nat) : Option matrix :=
  getpred (localRange nd thread_count my_rank).1 (localRange nd thread_count my_rank).2
    p m np xi tmat px fptemp0 yhat

/-- The threads of the parallel region, one after the other (each thread writes only
the rows of its own range, so the order does not matter). -/
def runRanks (nd p m np : Nat) (xi : xinfo) (tmat : List (List tree)) (px : List ℚ)
    (fptemp0 : List ℚ) (thread_count : Nat) : List Nat → Option matrix → Option matrix
  | [], y => y
  | my_rank :: rest, y =>
    runRanks nd p m np xi tmat px fptemp0 thread_count rest
      (match y with
        | some yhat => local_getpred nd p m np xi tmat px fptemp0 yhat thread_count my_rank
        | none => none)

/-- The parallel prediction: `yhat` filled with zeros, then `local_getpred` on every
thread `0 .. thread_count - 1`. -/
def parallelPredict (nd p m np : Nat) (xi : xinfo) (tmat : List (List tree)) (px : List ℚ)
    (fptemp0 : List ℚ) (thread_count : Nat) : Option matrix :=
  runRanks nd p m np xi tmat px fptemp0 thread_count (List.range thread_count)
    (some (fun _ _ => 0))

/-- An ensemble of 5 draws of one single-leaf tree each, with leaf values 1 to 5. -/
def five_draws : List (List tree) :=
  [[tree.bot 1 0 0], [tree.bot 2 0 0], [tree.bot 3 0 0], [tree.bot 4 0 0], [tree.bot 5 0 0]]

/-! ## The tree operations on the memory

Every operation of `class tree` is called on a tree object, the root of its tree. The
objects that exist are kept in a list of addresses; a sequence of calls is run on it. -/

/-- Member function `treesize` on the memory. -/
def treesizeH : Nat → heap → Nat → Option Nat
  | 0, _, _ => none
  | fuel + 1, h, a =>
    match h[a]? with
    | none => none
    | some x =>
      match x.l with
      | none => some 1
      | some al =>
        match x.r with
        | none => none
        | some ar =>
          match treesizeH fuel h al, treesizeH fuel h ar with
          | some m, some n => some (1 + m + n)
          | _, _ => none

/-- Member function `getnogs(nv)` on the memory: the addresses appended to `nv`. -/
def getnogsH : Nat → heap → Nat → Option (List Nat)
  | 0, _, _ => none
  | fuel + 1, h, a =>
    match h[a]? with
    | none => none
    | some x =>
      match x.l with
      | none => some []
      | some al =>
        match x.r with
        | none => none
        | some ar =>
          match h[al]?, h[ar]? with
          | some y, some z =>
            if y.l.isSome || z.l.isSome then
              match (if y.l.isSome then getnogsH fuel h al else some []),
                (if z.l.isSome then getnogsH fuel h ar else some []) with
              | some nl, some nr => some (nl ++ nr)
              | _, _ => none
            else some [a]
          | _, _ => none

/-- The body of the `for` loop of `tonull` on the memory, for `nv[i] = nb`: the two
children are deleted (they are not used again) and `l`, `r` are set to null. -/
def dropkidsH (h : heap) (nb : Nat) : heap :=
  h.upd nb (fun x => ⟨x.theta, x.v, x.c, x.p, none, none⟩)

/-- The `while(ts>1)` loop of `tonull` on the memory, run for at most the given number
of passes; `fuel` is the recursion allowance of `treesize` and `getnogs`. -/
def tonullLoopH (fuel : Nat) : Nat → heap → Nat → Option heap
  | 0, _, _ => none
  | passes + 1, h, a =>
    match treesizeH fuel h a with
    | none => none
    | some ts =>
      if 1 < ts then
        match getnogsH fuel h a with
        | none => none
        | some nv => tonullLoopH fuel passes (nv.foldl dropkidsH h) a
      else some h

/-- Member function `tonull` on the memory, called on the object at `a`: after the
loop all six fields are reset. -/
def tonullH (fuel : Nat) (h : heap) (a : Nat) : Option heap :=
  match tonullLoopH fuel fuel h a with
  | none => none
  | some h2 => some (h2.upd a (fun _ => ⟨0, 0, 0, none, none, none⟩))

/-- The constructor `tree(double itheta)` (`tree()` is the case `itheta = 0`): the
memory with the new object and its address. -/
def makeH (h : heap) (itheta : ℚ) : heap × Nat :=
  (h.alloc.1.upd h.alloc.2 (fun _ => ⟨itheta, 0, 0, none, none, none⟩), h.alloc.2)

/-- The copy constructor `tree(const tree& n)`: a new object with default fields, then
`cp(this, &n)`. -/
def copyH (fuel : Nat) (h : heap) (o : Nat) : Option (heap × Nat) :=
  match cpH fuel (makeH h 0).1 (makeH h 0).2 o with
  | none => none
  | some h2 => some (h2, (makeH h 0).2)

/-- The assignment `operator=` on the memory, called on the object at `lhs`. -/
def assignH (fuel : Nat) (h : heap) (lhs rhs : Nat) : Option heap :=
  if rhs ≠ lhs then
    match tonullH fuel h lhs with
    | none => none
    | some h2 => cpH fuel h2 lhs rhs
  else some h

/-- The state of a program that uses trees: the memory and the addresses of the tree
objects it has constructed. -/
structure world where
  h : heap
  roots : List Nat

/-- One call made by the program; `i` and `j` are positions in the list of tree
objects. The calls are made on the tree objects themselves, not on the nodes inside
their trees. -/
inductive op where
  | make (itheta : ℚ) : op
  | birth (i k v c : Nat) (thetal thetar : ℚ) : op
  | death (i k : Nat) (theta : ℚ) : op
  | tonull (i : Nat) : op
  | copy (i : Nat) : op
  | assign (i j : Nat) : op

/-- The recursion allowance given to every call: no chain of child pointers that
visits an object once is longer than the number of objects. -/
def world.fuel (w : world) : Nat := 2 * w.h.length + 1

/-- The state after one call (`none` when the call does not return). A call that
names a tree object that does not exist is not made. -/
def step (w : world) : op → Option world
  | op.make itheta => some ⟨(makeH w.h itheta).1, w.roots ++ [(makeH w.h itheta).2]⟩
  | op.birth i k v c thetal thetar =>
    match w.roots[i]? with
    | none => some w
    | some a =>
      match birthH w.fuel w.h a k v c thetal thetar with
      | none => none
      | some (_, h2) => some ⟨h2, w.roots⟩
  | op.death i k theta =>
    match w.roots[i]? with
    | none => some w
    | some a =>
      match deathH w.fuel w.h a k theta with
      | none => none
      | some (_, h2) => some ⟨h2, w.roots⟩
  | op.tonull i =>
    match w.roots[i]? with
    | none => some w
    | some a =>
      match tonullH w.fuel w.h a with
      | none => none
      | some h2 => some ⟨h2, w.roots⟩
  | op.copy i =>
    match w.roots[i]? with
    | none => some w
    | some o =>
      match copyH w.fuel w.h o with
      | none => none
      | some (h2, n) => some ⟨h2, w.roots ++ [n]⟩
  | op.assign i j =>
    match w.roots[i]?, w.roots[j]? with
    | some lhs, some rhs =>
      match assignH w.fuel w.h lhs rhs with
      | none => none
      | some h2 => some ⟨h2, w.roots⟩
    | _, _ => some w

/-- The state after a sequence of calls. -/
def run : world → List op → Option world
  | w, [] => some w
  | w, o :: os =>
    match step w o with
    | none => none
    | some w2 => run w2 os

/-- A program that has constructed one tree, a single leaf. -/
def single_leaf (itheta : ℚ) : world := ⟨[⟨itheta, 0, 0, none, none, none⟩], [0]⟩

/-- The objects of the tree whose root is at `a`: those reached from `a` through `l`
and `r` pointers. -/
inductive reach (h : heap) (a : Nat) : Nat → Prop
  | root : reach h a a
  | left (b c : Nat) (x : cell) : reach h a b → h[b]? = some x → x.l = some c → reach h a c
  | right (b c : Nat) (x : cell) : reach h a b → h[b]? = some x → x.r = some c → reach h a c

/-- The object at `b` has no children, or it has a left and a right child and the
parent pointer of each is `b`. -/
def nodeOK (h : heap) (b : Nat) : Prop :=
  ∃ x, h[b]? = some x ∧
    ((x.l = none ∧ x.r = none) ∨
      ∃ cl cr yl yr, x.l = some cl ∧ x.r = some cr ∧ h[cl]? = some yl ∧ yl.p = some b ∧
        h[cr]? = some yr ∧ yr.p = some b)

/-- Well-formedness of the tree whose root is at `a`: the root has no parent, and
every object of the tree has zero or two children that point back to it. -/
def wellformed (h : heap) (a : Nat) : Prop :=
  (∃ x, h[a]? = some x ∧ x.p = none) ∧ ∀ b, reach h a b → nodeOK h b

/-- The trees held at the addresses `roots`: each root `r` holds the tree `T r` in the
objects `FP r`, no object is used twice in a tree, and no two trees share an object. -/
def forest (w : world) (T : Nat → tree) (FP : Nat → List Nat) : Prop :=
  w.roots.Nodup ∧
  (∀ r ∈ w.roots, repr w.h r none (T r) (FP r) ∧ (FP r).Nodup) ∧
  (∀ r ∈ w.roots, ∀ s ∈ w.roots, r ≠ s → ∀ x ∈ FP r, x ∉ FP s)

/-! # Theorems -/

/-! ## Routing (`bn`) -/

theorem valid_mono {p q : Nat} {xi : xinfo} (hpq : p ≤ q) :
    ∀ t : tree, t.valid p xi → t.valid q xi
  | tree.bot _ _ _, _ => trivial
  | tree.node _ _ _ l r, h =>
    ⟨lt_of_lt_of_le h.1 hpq, h.2.1, valid_mono hpq l h.2.2.1, valid_mono hpq r h.2.2.2⟩

theorem bn_node_eq (theta : ℚ) (v c : Nat) (l r : tree) (x : List ℚ) (xi : xinfo)
    (xv cut : ℚ) (hx : x[v]? = some xv) (hc : xi.cut v c = some cut) :
    (tree.node theta v c l r).bn x xi =
      if xv < cut then (l.bn x xi).map (fun q => false :: q)
      else (r.bn x xi).map (fun q => true :: q) := by
  simp [tree.bn, hx, hc]

/-- The node returned by `bn` has no children. -/
theorem bn_sub_bot : ∀ (t : tree) (x : List ℚ) (xi : xinfo) (b : tree_p),
    t.bn x xi = some b → ∃ theta v c, t.sub b = some (tree.bot theta v c) := by
  intro t
  induction t with
  | bot theta v c =>
    intro x xi b h
    simp [tree.bn] at h
    subst h
    exact ⟨theta, v, c, rfl⟩
  | node theta v c l r ihl ihr =>
    intro x xi b h
    cases hx : x[v]? with
    | none => simp [tree.bn, hx] at h
    | some xv =>
      cases hc : xi.cut v c with
      | none => simp [tree.bn, hx, hc] at h
      | some cut =>
        rw [bn_node_eq theta v c l r x xi xv cut hx hc] at h
        by_cases hlt : xv < cut
        · rw [if_pos hlt] at h
          cases hl : l.bn x xi with
          | none => simp [hl] at h
          | some q =>
            simp [hl] at h
            subst h
            exact ihl x xi q hl
        · rw [if_neg hlt] at h
          cases hr : r.bn x xi with
          | none => simp [hr] at h
          | some q =>
            simp [hr] at h
            subst h
            exact ihr x xi q hr

/-- On a tree whose rules can all be read, `bn` returns a node. -/
theorem bn_total : ∀ (t : tree) (x : List ℚ) (xi : xinfo),
    t.valid x.length xi → ∃ b, t.bn x xi = some b := by
  intro t
  induction t with
  | bot theta v c => intro x xi _; exact ⟨[], rfl⟩
  | node theta v c l r ihl ihr =>
    intro x xi h
    obtain ⟨hv, hcut, hl, hr⟩ := h
    obtain ⟨xv, hx⟩ : ∃ xv, x[v]? = some xv := by
      cases hx : x[v]? with
      | none => rw [List.getElem?_eq_none_iff] at hx; omega
      | some xv => exact ⟨xv, rfl⟩
    obtain ⟨cut, hc⟩ := Option.isSome_iff_exists.mp hcut
    rw [bn_node_eq theta v c l r x xi xv cut hx hc]
    by_cases hlt : xv < cut
    · obtain ⟨q, hq⟩ := ihl x xi hl
      exact ⟨false :: q, by simp [hlt, hq]⟩
    · obtain ⟨q, hq⟩ := ihr x xi hr
      exact ⟨true :: q, by simp [hlt, hq]⟩

/-- C1. On a tree whose split variables and cutpoint indices are all valid for `x`
and `xi`, `bn` returns a node `b`; `b` is a bottom node of the tree; started at a
node without children `bn` returns that node itself; started at a node with children
it returns what `bn` returns on the left child exactly when `x[v] < xi[v][c]`, and
what `bn` returns on the right child in every other case. (`bn` assigns to no field,
so the tree after the call is the tree before it.) -/
theorem bn_contract (t : tree) (x : List ℚ) (xi : xinfo) (h : t.valid x.length xi) :
    ∃ b, t.bn x xi = some b ∧
      (∃ theta v c, t.sub b = some (tree.bot theta v c)) ∧
      (t.isbot = true → b = []) ∧
      (∀ theta v c l r, t = tree.node theta v c l r →
        ∃ xv cut, x[v]? = some xv ∧ xi.cut v c = some cut ∧
          (xv < cut → ∃ q, l.bn x xi = some q ∧ b = false :: q ∧ t.sub b = l.sub q) ∧
          (¬ xv < cut → ∃ q, r.bn x xi = some q ∧ b = true :: q ∧ t.sub b = r.sub q)) := by
  obtain ⟨b, hb⟩ := bn_total t x xi h
  refine ⟨b, hb, bn_sub_bot t x xi b hb, ?_, ?_⟩
  · intro hbot
    cases t with
    | bot theta v c => simpa [tree.bn] using hb.symm
    | node theta v c l r => simp [tree.isbot] at hbot
  · intro theta v c l r ht
    subst ht
    obtain ⟨hv, hcut, hl, hr⟩ := h
    obtain ⟨xv, hx⟩ : ∃ xv, x[v]? = some xv := by
      cases hx : x[v]? with
      | none => rw [List.getElem?_eq_none_iff] at hx; omega
      | some xv => exact ⟨xv, rfl⟩
    obtain ⟨cut, hc⟩ := Option.isSome_iff_exists.mp hcut
    rw [bn_node_eq theta v c l r x xi xv cut hx hc] at hb
    refine ⟨xv, cut, hx, hc, ?_, ?_⟩
    · intro hlt
      rw [if_pos hlt] at hb
      cases hq : l.bn x xi with
      | none => simp [hq] at hb
      | some q =>
        simp [hq] at hb
        subst hb
        exact ⟨q, rfl, rfl, rfl⟩
    · intro hlt
      rw [if_neg hlt] at hb
      cases hq : r.bn x xi with
      | none => simp [hq] at hb
      | some q =>
        simp [hq] at hb
        subst hb
        exact ⟨q, rfl, rfl, rfl⟩

/-- C1, scenario: with `xi = [[1.0, 2.0, 3.0]]` and the root split `(v=0, c=1)` over
the leaves 10 and 20, `x = [1.5]` is routed to 10, `x = [2.0]` to 20, `x = [5.0]` to 20. -/
theorem bn_contract_witness :
    scen_tree.valid ([3/2] : List ℚ).length scen_xi ∧
    (∃ b, scen_tree.bn [3/2] scen_xi = some b ∧
      (∃ theta v c, scen_tree.sub b = some (tree.bot theta v c)) ∧
      (scen_tree.isbot = true → b = []) ∧
      (∀ theta v c l r, scen_tree = tree.node theta v c l r →
        ∃ xv cut, ([3/2] : List ℚ)[v]? = some xv ∧ scen_xi.cut v c = some cut ∧
          (xv < cut → ∃ q, l.bn [3/2] scen_xi = some q ∧ b = false :: q ∧
            scen_tree.sub b = l.sub q) ∧
          (¬ xv < cut → ∃ q, r.bn [3/2] scen_xi = some q ∧ b = true :: q ∧
            scen_tree.sub b = r.sub q))) ∧
    scen_tree.route [3/2] scen_xi = some 10 ∧
    scen_tree.route [2] scen_xi = some 20 ∧
    scen_tree.route [5] scen_xi = some 20 := by
  have hv : scen_tree.valid ([3/2] : List ℚ).length scen_xi := by
    simp [scen_tree, scen_xi, tree.valid, xinfo.cut]
  refine ⟨hv, bn_contract scen_tree [3/2] scen_xi hv, ?_, ?_, ?_⟩
  · norm_num [tree.route, scen_tree, scen_xi, tree.bn, xinfo.cut, tree.thetaAt, tree.sub,
      tree.gettheta]
  · norm_num [tree.route, scen_tree, scen_xi, tree.bn, xinfo.cut, tree.thetaAt, tree.sub,
      tree.gettheta]
  · norm_num [tree.route, scen_tree, scen_xi, tree.bn, xinfo.cut, tree.thetaAt, tree.sub,
      tree.gettheta]

/-! ## The admissible range (`rg`) -/

theorem toInt_small {n : Nat} (h : n < 2 ^ 31) : toInt n = (n : Int) := by
  have h1 : n % 2 ^ 32 = n := Nat.mod_eq_of_lt (by omega)
  unfold toInt
  rw [h1, if_pos h]

theorem toInt_pred64 {c : Nat} (h : c < 2 ^ 31) : toInt (pred64 c) = (c : Int) - 1 := by
  rcases Nat.eq_zero_or_pos c with h0 | hpos
  · subst h0
    decide
  · have h1 : pred64 c = c - 1 := by
      unfold pred64
      have : c + (2 ^ 64 - 1) = (c - 1) + 2 ^ 64 := by omega
      rw [this, Nat.add_mod_right]
      exact Nat.mod_eq_of_lt (by omega)
    rw [h1, toInt_small (by omega)]
    omega

theorem toInt_succ64 {c : Nat} (h : c + 1 < 2 ^ 31) : toInt (succ64 c) = (c : Int) + 1 := by
  have h1 : succ64 c = c + 1 := by
    unfold succ64
    exact Nat.mod_eq_of_lt (by omega)
  rw [h1, toInt_small h]
  push_cast
  rfl

theorem foldr_max_init (xs : List Int) (L x : Int) :
    xs.foldr max (max L x) = max x (xs.foldr max L) := by
  induction xs with
  | nil => simp [max_comm]
  | cons y ys ih => simp only [List.foldr_cons, ih]; exact max_left_comm y x _

theorem foldr_min_init (xs : List Int) (U x : Int) :
    xs.foldr min (min U x) = min x (xs.foldr min U) := by
  induction xs with
  | nil => simp [min_comm]
  | cons y ys ih => simp only [List.foldr_cons, ih]; exact min_left_comm y x _

/-- Ancestors that split on another variable are skipped by `rg`. -/
theorem rg_filter (v : Nat) : ∀ (up : List link) (LU : Int × Int),
    rg v up LU = rg v (up.filter (fun a => decide (a.v = v))) LU := by
  intro up
  induction up with
  | nil => intro LU; rfl
  | cons a up ih =>
    intro LU
    obtain ⟨L, U⟩ := LU
    by_cases hv : a.v = v
    · by_cases hd : a.d = false
      · simp only [rg, hv, hd, List.filter_cons, decide_True, if_true]
        exact ih _
      · simp only [rg, hv, hd, List.filter_cons, decide_True, if_true, if_false]
        exact ih _
    · simp only [rg, hv, List.filter_cons, decide_False, if_false]
      simpa using ih (L, U)

/-- With cutpoint indices that fit an `int`, `rg` computes the specification's
bounds from any starting pair. -/
theorem rg_bounds (v : Nat) : ∀ (up : List link) (L U : Int),
    (∀ a ∈ up, a.v = v → a.c + 1 < 2 ^ 31) →
    rg v up (L, U) = (lowerBound v up L, upperBound v up U) := by
  intro up
  induction up with
  | nil => intro L U _; rfl
  | cons a up ih =>
    intro L U h
    have hup : ∀ b ∈ up, b.v = v → b.c + 1 < 2 ^ 31 :=
      fun b hb => h b (List.mem_cons_of_mem a hb)
    by_cases hv : a.v = v
    · have hc : a.c + 1 < 2 ^ 31 := h a (List.mem_cons_self a up) hv
      have e1 : toInt a.c = (a.c : Int) := toInt_small (by omega)
      have e2 : toInt (pred64 a.c) = (a.c : Int) - 1 := toInt_pred64 (by omega)
      have e3 : toInt (succ64 a.c) = (a.c : Int) + 1 := toInt_succ64 hc
      by_cases hd : a.d = false
      · have hU : (if toInt a.c ≤ U then toInt (pred64 a.c) else U) = min U ((a.c : Int) - 1) := by
          rw [e1, e2]
          split_ifs with hle
          · exact (min_eq_right (by omega)).symm
          · exact (min_eq_left (by omega)).symm
        simp only [rg, hv, hd, if_true, hU]
        rw [ih _ _ hup]
        simp [lowerBound, upperBound, List.filter_cons, hv, hd, foldr_min_init]
      · have hd1 : a.d = true := by simpa using hd
        have hL : (if toInt a.c ≥ L then toInt (succ64 a.c) else L) = max L ((a.c : Int) + 1) := by
          rw [e1, e3]
          split_ifs with hle
          · exact (max_eq_right (by omega)).symm
          · exact (max_eq_left (by omega)).symm
        simp only [rg, hv, hd1, if_true, Bool.true_eq_false, if_false, hL]
        rw [ih _ _ hup]
        simp [lowerBound, upperBound, List.filter_cons, hv, hd1, foldr_max_init]
    · simp only [rg, hv, if_false]
      rw [ih _ _ hup]
      simp [lowerBound, upperBound, List.filter_cons, hv]

theorem lowerBound_perm (v : Nat) (L0 : Int) {up1 up2 : List link} (h : up1.Perm up2) :
    lowerBound v up1 L0 = lowerBound v up2 L0 := by
  unfold lowerBound
  have : LeftCommutative (max : Int → Int → Int) := ⟨fun a b c => max_left_comm a b c⟩
  exact List.Perm.foldr_eq ((h.filter _).map _) L0

theorem upperBound_perm (v : Nat) (U0 : Int) {up1 up2 : List link} (h : up1.Perm up2) :
    upperBound v up1 U0 = upperBound v up2 U0 := by
  unfold upperBound
  have : LeftCommutative (min : Int → Int → Int) := ⟨fun a b c => min_left_comm a b c⟩
  exact List.Perm.foldr_eq ((h.filter _).map _) U0

/-- C2 (amended). For every node (pointer `p`) of every tree whose ancestors `a` with
`a.v = v` all have `a.c + 1 < 2^31`, and every initial upper bound `U0` (in particular
the number of cutpoints of `v` minus one), `rg` started from `L = 0`, `U = U0` ends
with `L` the maximum of 0 and of `a.c + 1` over the ancestors with `a.v = v` below whose
right child the node lies, and `U` the minimum of `U0` and of `a.c - 1` over those
below whose left child it lies; ancestors with `a.v ≠ v` do not change the bounds, and
visiting the ancestors in any other order gives the same bounds. -/
theorem rg_range (t : tree) (p : tree_p) (v : Nat) (U0 : Int)
    (h : ∀ a ∈ t.links p, a.v = v → a.c + 1 < 2 ^ 31) :
    rg v (t.links p) (0, U0) = (lowerBound v (t.links p) 0, upperBound v (t.links p) U0) ∧
    rg v (t.links p) (0, U0) = rg v ((t.links p).filter (fun a => decide (a.v = v))) (0, U0) ∧
    ∀ up : List link, up.Perm (t.links p) → rg v up (0, U0) = rg v (t.links p) (0, U0) := by
  refine ⟨rg_bounds v _ 0 U0 h, rg_filter v _ _, ?_⟩
  intro up hperm
  have h2 : ∀ a ∈ up, a.v = v → a.c + 1 < 2 ^ 31 := fun a ha => h a (hperm.mem_iff.mp ha)
  rw [rg_bounds v up 0 U0 h2, rg_bounds v _ 0 U0 h, lowerBound_perm v 0 hperm,
    upperBound_perm v U0 hperm]

/-- C2, instance: the right leaf of the scenario tree, variable 0, three cutpoints:
the range is `[2, 2]`. -/
theorem rg_range_witness :
    (∀ a ∈ scen_tree.links [true], a.v = 0 → a.c + 1 < 2 ^ 31) ∧
    rg 0 (scen_tree.links [true]) (0, 2) = (2, 2) ∧
    (lowerBound 0 (scen_tree.links [true]) 0, upperBound 0 (scen_tree.links [true]) 2) = (2, 2) := by
  have h : ∀ a ∈ scen_tree.links [true], a.v = 0 → a.c + 1 < 2 ^ 31 := by
    intro a ha _
    simp [scen_tree, tree.links, tree.linksFrom] at ha
    subst ha
    decide
  refine ⟨h, ?_, ?_⟩
  · rw [(rg_range scen_tree [true] 0 2 h).1]
    decide
  · decide

/-- C2 as stated fails: `birth(1, 0, 2147483648, 0, 0)` on a single leaf gives a root that
splits on variable 0 at cutpoint index `2^31`; at its left child, with three cutpoints
(`U = 2` initially), `rg` ends with `U = 2147483647`, while the minimum of the initial `U`
and of `a.c - 1` is 2. -/
theorem rg_range_fails :
    ((tree.bot 0 0 0).birth 1 0 2147483648 0 0).2
      = tree.node 0 0 2147483648 (tree.bot 0 0 0) (tree.bot 0 0 0) ∧
    rg 0 ((tree.node 0 0 2147483648 (tree.bot 0 0 0) (tree.bot 0 0 0)).links [false]) (0, 2)
      = (0, 2147483647) ∧
    upperBound 0 ((tree.node 0 0 2147483648 (tree.bot 0 0 0) (tree.bot 0 0 0)).links [false]) 2
      = 2 ∧
    rg 0 ((tree.node 0 0 2147483648 (tree.bot 0 0 0) (tree.bot 0 0 0)).links [false]) (0, 2)
      ≠ (lowerBound 0
          ((tree.node 0 0 2147483648 (tree.bot 0 0 0) (tree.bot 0 0 0)).links [false]) 0,
        upperBound 0
          ((tree.node 0 0 2147483648 (tree.bot 0 0 0) (tree.bot 0 0 0)).links [false]) 2) := by
  refine ⟨by rfl, by decide, by decide, by decide⟩

/-! ## Counting nodes -/

/-- C7. The number of bottom nodes is one more than the number of nodes with
children: `nbots() == (treesize() - nbots()) + 1`, that is `treesize() == 2*nbots() - 1`
(a tree that fits in memory has fewer than `2^64` nodes, so the counts are exact). -/
theorem nbots_treesize (t : tree) :
    t.nbots = (t.treesize - t.nbots) + 1 ∧ t.treesize = 2 * t.nbots - 1 := by
  have key : ∀ s : tree, s.treesize + 1 = 2 * s.nbots := by
    intro s
    induction s with
    | bot theta v c => rfl
    | node theta v c l r ihl ihr => simp only [tree.treesize, tree.nbots]; omega
  have := key t
  omega

/-! ## Pointers: `sub`, `put`, `linksFrom` -/

theorem sub_nil (t : tree) : t.sub [] = some t := by
  cases t <;> rfl

theorem put_nil (t s : tree) : t.put [] s = s := by
  cases t <;> rfl

theorem linksFrom_nil (t : tree) (up : List link) : t.linksFrom [] up = up := by
  cases t <;> rfl

theorem sub_put_self : ∀ (t : tree) (p : tree_p) (s : tree),
    (t.sub p).isSome → (t.put p s).sub p = some s := by
  intro t
  induction t with
  | bot theta v c =>
    intro p s h
    cases p with
    | nil => simp [tree.put, sub_nil]
    | cons d p => simp [tree.sub] at h
  | node theta v c l r ihl ihr =>
    intro p s h
    cases p with
    | nil => simp [tree.put, sub_nil]
    | cons d p =>
      cases d with
      | false => simpa [tree.put, tree.sub] using ihl p s (by simpa [tree.sub] using h)
      | true => simpa [tree.put, tree.sub] using ihr p s (by simpa [tree.sub] using h)

theorem put_put : ∀ (t : tree) (p : tree_p) (s1 s2 : tree),
    (t.put p s1).put p s2 = t.put p s2 := by
  intro t
  induction t with
  | bot theta v c =>
    intro p s1 s2
    cases p with
    | nil => simp [tree.put, put_nil]
    | cons d p => simp [tree.put]
  | node theta v c l r ihl ihr =>
    intro p s1 s2
    cases p with
    | nil => simp [tree.put, put_nil]
    | cons d p =>
      cases d with
      | false => simp [tree.put, ihl]
      | true => simp [tree.put, ihr]

theorem put_sub_self : ∀ (t : tree) (p : tree_p) (s : tree),
    t.sub p = some s → t.put p s = t := by
  intro t
  induction t with
  | bot theta v c =>
    intro p s h
    cases p with
    | nil => simp [tree.sub] at h; simp [tree.put, h]
    | cons d p => simp [tree.put]
  | node theta v c l r ihl ihr =>
    intro p s h
    cases p with
    | nil => simp [tree.sub] at h; simp [tree.put, h]
    | cons d p =>
      cases d with
      | false => simp [tree.put, ihl p s (by simpa [tree.sub] using h)]
      | true => simp [tree.put, ihr p s (by simpa [tree.sub] using h)]

/-- A pointer to a node of a tree makes at most `height` child steps. -/
theorem sub_length_le : ∀ (t : tree) (p : tree_p), (t.sub p).isSome → p.length ≤ t.height := by
  intro t
  induction t with
  | bot theta v c =>
    intro p h
    cases p with
    | nil => simp
    | cons d p => simp [tree.sub] at h
  | node theta v c l r ihl ihr =>
    intro p h
    cases p with
    | nil => simp
    | cons d p =>
      cases d with
      | false =>
        have := ihl p (by simpa [tree.sub] using h)
        simp only [tree.height, List.length_cons]; omega
      | true =>
        have := ihr p (by simpa [tree.sub] using h)
        simp only [tree.height, List.length_cons]; omega

/-- The child steps recorded in the parent chain of a node are the steps of its
pointer, last step first. -/
theorem linksFrom_steps : ∀ (t : tree) (p : tree_p) (up : List link),
    (t.sub p).isSome → (t.linksFrom p up).map link.d = p.reverse ++ up.map link.d := by
  intro t
  induction t with
  | bot theta v c =>
    intro p up h
    cases p with
    | nil => simp [tree.linksFrom]
    | cons d p => simp [tree.sub] at h
  | node theta v c l r ihl ihr =>
    intro p up h
    cases p with
    | nil => simp [tree.linksFrom]
    | cons d p =>
      cases d with
      | false =>
        have := ihl p (⟨false, v, c⟩ :: up) (by simpa [tree.sub] using h)
        simpa [tree.linksFrom] using this
      | true =>
        have := ihr p (⟨true, v, c⟩ :: up) (by simpa [tree.sub] using h)
        simpa [tree.linksFrom] using this

theorem linksFrom_length (t : tree) (p : tree_p) (up : List link) (h : (t.sub p).isSome) :
    (t.linksFrom p up).length = p.length + up.length := by
  have := congrArg List.length (linksFrom_steps t p up h)
  simpa using this

/-! ## Node ids -/

theorem eid_bounds : ∀ up : List link, 2 ^ up.length ≤ eid up ∧ eid up < 2 ^ (up.length + 1) := by
  intro up
  induction up with
  | nil => simp [eid]
  | cons a up ih =>
    obtain ⟨h1, h2⟩ := ih
    have e1 : 2 ^ (up.length + 1) = 2 * 2 ^ up.length := by ring
    have e2 : 2 ^ (up.length + 1 + 1) = 2 * 2 ^ (up.length + 1) := by ring
    simp only [eid, List.length_cons]
    split_ifs <;> constructor <;> omega

/-- For a node of depth less than 64 the `size_t` id is the exact id. -/
theorem nid_eq_eid : ∀ up : List link, up.length < 64 → nid up = eid up := by
  intro up
  induction up with
  | nil => intro _; rfl
  | cons a up ih =>
    intro h
    have hlen : up.length < 64 := by simp only [List.length_cons] at h; omega
    have hb := (eid_bounds (a :: up)).2
    have hpow : 2 ^ ((a :: up).length + 1) ≤ 2 ^ 64 :=
      Nat.pow_le_pow_right (by decide) (by omega)
    have hlt : eid (a :: up) < 2 ^ 64 := lt_of_lt_of_le hb hpow
    simp only [eid] at hlt
    simp only [nid, eid, ih hlen]
    split_ifs with hd
    · rw [if_pos hd] at hlt; exact Nat.mod_eq_of_lt hlt
    · rw [if_neg hd] at hlt; exact Nat.mod_eq_of_lt hlt

/-- Exact ids determine the child steps. -/
theorem eid_inj : ∀ up1 up2 : List link, eid up1 = eid up2 → up1.map link.d = up2.map link.d := by
  intro up1
  induction up1 with
  | nil =>
    intro up2 h
    cases up2 with
    | nil => rfl
    | cons b up2 =>
      have h1 := (eid_bounds (b :: up2)).1
      simp only [List.length_cons, pow_succ] at h1
      have h2 : 1 ≤ 2 ^ up2.length := Nat.one_le_two_pow
      have h3 : eid (b :: up2) = 1 := h.symm
      omega
  | cons a up1 ih =>
    intro up2 h
    cases up2 with
    | nil =>
      have h1 := (eid_bounds (a :: up1)).1
      simp only [List.length_cons, pow_succ] at h1
      have h2 : 1 ≤ 2 ^ up1.length := Nat.one_le_two_pow
      have h3 : eid (a :: up1) = 1 := h
      omega
    | cons b up2 =>
      simp only [eid] at h
      have hd : a.d = b.d ∧ eid up1 = eid up2 := by
        cases ha : a.d <;> cases hb : b.d <;> simp [ha, hb] at h <;> first | omega | (constructor <;> first | rfl | omega)
      simp [hd.1, ih up2 hd.2]

/-! ## `getptr` -/

theorem getptr_bot (theta : ℚ) (v c : Nat) (up : List link) (k : Nat) :
    (tree.bot theta v c).getptr up k = if nid up = k then some [] else none := rfl

theorem getptr_node (theta : ℚ) (v c : Nat) (l r : tree) (up : List link) (k : Nat) :
    (tree.node theta v c l r).getptr up k =
      if nid up = k then some []
      else
        match l.getptr (⟨false, v, c⟩ :: up) k with
        | some lp => some (false :: lp)
        | none =>
          match r.getptr (⟨true, v, c⟩ :: up) k with
          | some rp => some (true :: rp)
          | none => none := rfl

/-- What `getptr` returns is a node of the tree whose id is the one asked for. -/
theorem getptr_sound : ∀ (t : tree) (up : List link) (k : Nat) (q : tree_p),
    t.getptr up k = some q → (t.sub q).isSome ∧ nid (t.linksFrom q up) = k := by
  intro t
  induction t with
  | bot theta v c =>
    intro up k q h
    rw [getptr_bot] at h
    split_ifs at h with hk
    simp only [Option.some.injEq] at h
    subst h
    exact ⟨rfl, hk⟩
  | node theta v c l r ihl ihr =>
    intro up k q h
    rw [getptr_node] at h
    split_ifs at h with hk
    · simp only [Option.some.injEq] at h
      subst h
      exact ⟨rfl, hk⟩
    · cases hl : l.getptr (⟨false, v, c⟩ :: up) k with
      | some lp =>
        simp only [hl, Option.some.injEq] at h
        subst h
        exact ihl _ k lp hl
      | none =>
        cases hr : r.getptr (⟨true, v, c⟩ :: up) k with
        | some rp =>
          simp only [hl, hr, Option.some.injEq] at h
          subst h
          exact ihr _ k rp hr
        | none => simp [hl, hr] at h

/-- Two nodes of depth less than 64 with the same id have the same child steps. -/
theorem steps_eq_of_nid_eq (up1 up2 : List link) (h1 : up1.length < 64) (h2 : up2.length < 64)
    (h : nid up1 = nid up2) : up1.map link.d = up2.map link.d := by
  rw [nid_eq_eid up1 h1, nid_eq_eid up2 h2] at h
  exact eid_inj up1 up2 h

/-- In a tree of depth less than 64, `getptr` finds every node by its id. -/
theorem getptr_complete : ∀ (t : tree) (up : List link) (k : Nat) (q : tree_p),
    t.height + up.length < 64 → (t.sub q).isSome → nid (t.linksFrom q up) = k →
    t.getptr up k = some q := by
  intro t
  induction t with
  | bot theta v c =>
    intro up k q _ hq hk
    cases q with
    | nil => rw [getptr_bot]; simp only [tree.linksFrom] at hk; simp [hk]
    | cons d q => simp [tree.sub] at hq
  | node theta v c l r ihl ihr =>
    intro up k q hh hq hk
    simp only [tree.height] at hh
    cases q with
    | nil => rw [getptr_node]; simp only [tree.linksFrom] at hk; simp [hk]
    | cons d q =>
      have hlen := sub_length_le _ _ hq
      simp only [tree.height, List.length_cons] at hlen
      have hne : nid up ≠ k := by
        intro hup
        have hL := linksFrom_length _ (d :: q) up hq
        have hst := steps_eq_of_nid_eq up ((tree.node theta v c l r).linksFrom (d :: q) up)
          (by omega) (by rw [hL]; simp only [List.length_cons]; omega) (by rw [hup, hk])
        have := congrArg List.length hst
        simp only [List.length_map, hL, List.length_cons] at this
        omega
      rw [getptr_node, if_neg hne]
      cases d with
      | false =>
        have hq' : (l.sub q).isSome := by simpa [tree.sub] using hq
        have hk' : nid (l.linksFrom q (⟨false, v, c⟩ :: up)) = k := by
          simpa [tree.linksFrom] using hk
        rw [ihl (⟨false, v, c⟩ :: up) k q (by simp only [List.length_cons]; omega) hq' hk']
      | true =>
        have hq' : (r.sub q).isSome := by simpa [tree.sub] using hq
        have hk' : nid (r.linksFrom q (⟨true, v, c⟩ :: up)) = k := by
          simpa [tree.linksFrom] using hk
        have hnone : l.getptr (⟨false, v, c⟩ :: up) k = none := by
          cases hl : l.getptr (⟨false, v, c⟩ :: up) k with
          | none => rfl
          | some lp =>
            exfalso
            obtain ⟨hlp, hlk⟩ := getptr_sound l _ k lp hl
            have hlpl := sub_length_le _ _ hlp
            have hL1 := linksFrom_length l lp (⟨false, v, c⟩ :: up) hlp
            have hL2 := linksFrom_length r q (⟨true, v, c⟩ :: up) hq'
            have hst := steps_eq_of_nid_eq _ _
              (by rw [hL1]; simp only [List.length_cons]; omega)
              (by rw [hL2]; simp only [List.length_cons]; omega) (hlk.trans hk'.symm)
            rw [linksFrom_steps l lp _ hlp, linksFrom_steps r q _ hq'] at hst
            have := (List.append_inj' hst (by simp)).2
            simp at this
        rw [hnone]
        simp only
        rw [ihr (⟨true, v, c⟩ :: up) k q (by simp only [List.length_cons]; omega) hq' hk']

/-- Replacing the subtree of the node that `getptr` finds does not change what `getptr`
finds for that id. -/
theorem getptr_put : ∀ (t : tree) (up : List link) (k : Nat) (q : tree_p) (s : tree),
    t.getptr up k = some q → (t.put q s).getptr up k = some q := by
  intro t
  induction t with
  | bot theta v c =>
    intro up k q s h
    rw [getptr_bot] at h
    split_ifs at h with hk
    simp only [Option.some.injEq] at h
    subst h
    rw [put_nil]
    cases s with
    | bot _ _ _ => rw [getptr_bot, if_pos hk]
    | node _ _ _ _ _ => rw [getptr_node, if_pos hk]
  | node theta v c l r ihl ihr =>
    intro up k q s h
    rw [getptr_node] at h
    split_ifs at h with hk
    · simp only [Option.some.injEq] at h
      subst h
      rw [put_nil]
      cases s with
      | bot _ _ _ => rw [getptr_bot, if_pos hk]
      | node _ _ _ _ _ => rw [getptr_node, if_pos hk]
    · cases hl : l.getptr (⟨false, v, c⟩ :: up) k with
      | some lp =>
        simp only [hl, Option.some.injEq] at h
        subst h
        simp only [tree.put]
        rw [getptr_node, if_neg hk, ihl _ k lp s hl]
      | none =>
        cases hr : r.getptr (⟨true, v, c⟩ :: up) k with
        | some rp =>
          simp only [hl, hr, Option.some.injEq] at h
          subst h
          simp only [tree.put]
          rw [getptr_node, if_neg hk, hl]
          simp only
          rw [ihr _ k rp s hr]
        | none => simp [hl, hr] at h

/-! ## `birth` and `death` -/

/-- Cutting a node back to a leaf changes the stored fields of no other node that
remains. -/
theorem fields_put_bot : ∀ (t : tree) (p q : tree_p) (th : ℚ) (v0 c0 : Nat),
    (t.sub p).isSome → q ≠ p → ((t.put p (tree.bot th v0 c0)).sub q).isSome →
    (t.put p (tree.bot th v0 c0)).fields q = t.fields q := by
  intro t
  induction t with
  | bot theta v c =>
    intro p q th v0 c0 hp hq hs
    cases p with
    | nil =>
      cases q with
      | nil => exact absurd rfl hq
      | cons e q => simp [tree.put, tree.sub] at hs
    | cons d p => simp [tree.sub] at hp
  | node theta v c l r ihl ihr =>
    intro p q th v0 c0 hp hq hs
    cases p with
    | nil =>
      cases q with
      | nil => exact absurd rfl hq
      | cons e q => simp [tree.put, tree.sub] at hs
    | cons d p =>
      cases q with
      | nil => cases d <;> simp [tree.put, tree.fields, tree.sub, tree.gettheta, tree.getv, tree.getc]
      | cons e q =>
        cases d <;> cases e
        · have hne : q ≠ p := fun hqp => hq (by rw [hqp])
          have := ihl p q th v0 c0 (by simpa [tree.sub] using hp) hne
            (by simpa [tree.put, tree.sub] using hs)
          simpa [tree.fields, tree.put, tree.sub] using this
        · simp [tree.fields, tree.put, tree.sub]
        · simp [tree.fields, tree.put, tree.sub]
        · have hne : q ≠ p := fun hqp => hq (by rw [hqp])
          have := ihr p q th v0 c0 (by simpa [tree.sub] using hp) hne
            (by simpa [tree.put, tree.sub] using hs)
          simpa [tree.fields, tree.put, tree.sub] using this

/-- What `birth` does, in terms of the node that `getptr` finds. -/
theorem birth_eq (t : tree) (k v c : Nat) (thetal thetar : ℚ) :
    (t.getptr [] k = none ∧ t.birth k v c thetal thetar = (false, t)) ∨
    (∃ np th v0 c0 l r, t.getptr [] k = some np ∧ t.sub np = some (tree.node th v0 c0 l r) ∧
      t.birth k v c thetal thetar = (false, t)) ∨
    (∃ np th v0 c0, t.getptr [] k = some np ∧ t.sub np = some (tree.bot th v0 c0) ∧
      t.birth k v c thetal thetar =
        (true, t.put np (tree.node th v c (tree.bot thetal 0 0) (tree.bot thetar 0 0)))) := by
  unfold tree.birth
  cases hg : t.getptr [] k with
  | none => exact Or.inl ⟨rfl, rfl⟩
  | some np =>
    obtain ⟨hs, _⟩ := getptr_sound t [] k np hg
    obtain ⟨s, hs⟩ := Option.isSome_iff_exists.mp hs
    cases s with
    | bot th v0 c0 => exact Or.inr (Or.inr ⟨np, th, v0, c0, rfl, hs, by simp [hs]⟩)
    | node th v0 c0 l r => exact Or.inr (Or.inl ⟨np, th, v0, c0, l, r, rfl, hs, by simp [hs]⟩)

/-- What `death` does, in terms of the node that `getptr` finds. -/
theorem death_eq (t : tree) (k : Nat) (theta : ℚ) :
    (t.getptr [] k = none ∧ t.death k theta = (false, t)) ∨
    (∃ nb s, t.getptr [] k = some nb ∧ t.sub nb = some s ∧ s.isnog = false ∧
      t.death k theta = (false, t)) ∨
    (∃ nb s, t.getptr [] k = some nb ∧ t.sub nb = some s ∧ s.isnog = true ∧
      t.death k theta = (true, t.put nb (tree.bot theta 0 0))) := by
  unfold tree.death
  cases hg : t.getptr [] k with
  | none => exact Or.inl ⟨rfl, rfl⟩
  | some nb =>
    obtain ⟨hs, _⟩ := getptr_sound t [] k nb hg
    obtain ⟨s, hs⟩ := Option.isSome_iff_exists.mp hs
    cases hn : s.isnog with
    | false => exact Or.inr (Or.inl ⟨nb, s, rfl, hs, hn, by simp [hs, hn]⟩)
    | true => exact Or.inr (Or.inr ⟨nb, s, rfl, hs, hn, by simp [hs, hn]⟩)

/-- C4 (amended). For every tree of depth less than 64 and all arguments, `birth`
returns true if and only if `nid` is the node id of an existing node that has no
children; when it returns false the tree is left exactly unchanged. -/
theorem birth_contract (t : tree) (k v c : Nat) (thetal thetar : ℚ) (h : t.height < 64) :
    ((t.birth k v c thetal thetar).1 = true ↔
      ∃ p th v0 c0, t.sub p = some (tree.bot th v0 c0) ∧ nid (t.links p) = k) ∧
    ((t.birth k v c thetal thetar).1 = false → (t.birth k v c thetal thetar).2 = t) := by
  have hfind : ∀ p s, t.sub p = some s → nid (t.links p) = k → t.getptr [] k = some p :=
    fun p s hs hk => getptr_complete t [] k p (by simpa using h) (by simp [hs]) hk
  rcases birth_eq t k v c thetal thetar with ⟨hg, hb⟩ | ⟨np, th, v0, c0, l, r, hg, hs, hb⟩ |
    ⟨np, th, v0, c0, hg, hs, hb⟩
  · rw [hb]
    refine ⟨⟨fun hf => by simp at hf, ?_⟩, fun _ => rfl⟩
    rintro ⟨p, th, v0, c0, hs, hk⟩
    rw [hfind p _ hs hk] at hg
    simp at hg
  · rw [hb]
    refine ⟨⟨fun hf => by simp at hf, ?_⟩, fun _ => rfl⟩
    rintro ⟨p, th2, v2, c2, hs2, hk⟩
    rw [hfind p _ hs2 hk] at hg
    simp only [Option.some.injEq] at hg
    subst hg
    rw [hs2] at hs
    simp at hs
  · rw [hb]
    refine ⟨⟨fun _ => ⟨np, th, v0, c0, hs, (getptr_sound t [] k np hg).2⟩, fun _ => rfl⟩, ?_⟩
    intro hf
    simp at hf

/-- C4, instance: in the scenario tree `birth(3, 0, 2, 21, 22)` succeeds (node 3 is the
right leaf) and `birth(1, ...)` fails and leaves the tree as it was. -/
theorem birth_contract_witness :
    scen_tree.height < 64 ∧ (scen_tree.birth 3 0 2 21 22).1 = true ∧
    (scen_tree.birth 1 0 2 21 22).2 = scen_tree := by
  have h : scen_tree.height < 64 := by decide
  refine ⟨h, ?_, ?_⟩
  · exact (birth_contract scen_tree 3 0 2 21 22 h).1.mpr ⟨[true], 20, 0, 0, rfl, by decide⟩
  · exact (birth_contract scen_tree 1 0 2 21 22 h).2 rfl

set_option maxRecDepth 8000 in
/-- C4 as stated fails on a tree of depth 64: `deep_tree` is built from a single leaf by
64 successful calls of `birth`; its rightmost node of depth 64 has no children and
its id wraps around to 1, yet `birth(1, ...)` returns false, because `getptr(1)` stops at
the root. -/
theorem birth_contract_fails :
    births ((List.range 63).map (fun i => (2 ^ i, (0 : ℚ))) ++ [(2 ^ 63, 7)]) (tree.bot 0 0 0)
      = deep_tree ∧
    (∃ p th v0 c0, deep_tree.sub p = some (tree.bot th v0 c0) ∧ nid (deep_tree.links p) = 1) ∧
    (deep_tree.birth 1 0 0 0 0).1 = false := by
  refine ⟨by rfl, ⟨List.replicate 63 false ++ [true], 7, 0, 0, by rfl, by decide⟩, by rfl⟩

/-- C5 (amended). For every tree of depth less than 64 and all arguments, `death`
returns true if and only if `nid` is the node id of an existing no-grandchildren
node; on success that node becomes a leaf with leaf value `theta` and every other
remaining node keeps its fields; when `death` returns false the tree is unchanged. -/
theorem death_contract (t : tree) (k : Nat) (theta : ℚ) (h : t.height < 64) :
    ((t.death k theta).1 = true ↔
      ∃ p s, t.sub p = some s ∧ s.isnog = true ∧ nid (t.links p) = k) ∧
    ((t.death k theta).1 = true →
      ∃ p, nid (t.links p) = k ∧ (∃ s, t.sub p = some s ∧ s.isnog = true) ∧
        (t.death k theta).2 = t.put p (tree.bot theta 0 0) ∧
        (t.death k theta).2.sub p = some (tree.bot theta 0 0) ∧
        ∀ q, q ≠ p → ((t.death k theta).2.sub q).isSome →
          (t.death k theta).2.fields q = t.fields q) ∧
    ((t.death k theta).1 = false → (t.death k theta).2 = t) := by
  have hfind : ∀ p s, t.sub p = some s → nid (t.links p) = k → t.getptr [] k = some p :=
    fun p s hs hk => getptr_complete t [] k p (by simpa using h) (by simp [hs]) hk
  rcases death_eq t k theta with ⟨hg, hb⟩ | ⟨nb, s, hg, hs, hn, hb⟩ | ⟨nb, s, hg, hs, hn, hb⟩
  · rw [hb]
    refine ⟨⟨fun hf => by simp at hf, ?_⟩, fun hf => by simp at hf, fun _ => rfl⟩
    rintro ⟨p, s, hs, _, hk⟩
    rw [hfind p _ hs hk] at hg
    simp at hg
  · rw [hb]
    refine ⟨⟨fun hf => by simp at hf, ?_⟩, fun hf => by simp at hf, fun _ => rfl⟩
    rintro ⟨p, s2, hs2, hn2, hk⟩
    rw [hfind p _ hs2 hk] at hg
    simp only [Option.some.injEq] at hg
    subst hg
    rw [hs2] at hs
    simp only [Option.some.injEq] at hs
    subst hs
    rw [hn2] at hn
    simp at hn
  · rw [hb]
    have hk := (getptr_sound t [] k nb hg).2
    have hsome : (t.sub nb).isSome := by simp [hs]
    refine ⟨⟨fun _ => ⟨nb, s, hs, hn, hk⟩, fun _ => rfl⟩, ?_, fun hf => by simp at hf⟩
    intro _
    exact ⟨nb, hk, ⟨s, hs, hn⟩, rfl, sub_put_self t nb _ hsome,
      fun q hq hqs => fields_put_bot t nb q theta 0 0 hsome hq hqs⟩

/-- C5, instance: in the scenario tree the root (id 1) is a no-grandchildren node, so
`death(1, 5)` succeeds. -/
theorem death_contract_witness :
    scen_tree.height < 64 ∧ (scen_tree.death 1 5).1 = true := by
  have h : scen_tree.height < 64 := by decide
  exact ⟨h, (death_contract scen_tree 1 5 h).1.mpr ⟨[], scen_tree, rfl, rfl, rfl⟩⟩

set_option maxRecDepth 8000 in
/-- C5 as stated fails on a tree of depth 64: `deep_nog` is built from a single leaf by
65 successful calls of `birth`; the right child of its root is a no-grandchildren node
with id 3, yet `death(3, ...)` returns false, because `getptr(3)` first meets, in the left
subtree, a leaf of depth 64 whose id wraps around to 3. -/
theorem death_contract_fails :
    births ([(1, 0), (3, 0)] ++ (List.range 62).map (fun i => (2 ^ (i + 1), (0 : ℚ)))
      ++ [(2 ^ 63 + 1, 7)]) (tree.bot 0 0 0) = deep_nog ∧
    (∃ p s, deep_nog.sub p = some s ∧ s.isnog = true ∧ nid (deep_nog.links p) = 3) ∧
    deep_nog.getptr [] 3 = some (List.replicate 62 false ++ [true, true]) ∧
    (deep_nog.death 3 0).1 = false := by
  refine ⟨by rfl, ⟨[true], _, by rfl, by rfl, by decide⟩, by rfl, by rfl⟩

/-- C6 (amended). After a successful `birth(k, v, c, thetal, thetar)`, where the leaf
`k` found by `getptr` stored `(theta0, v0, c0)`, the call `death(k, theta0)` succeeds
and leaves the pre-birth tree with the leaf `k` storing `(theta0, 0, 0)`: the shape and
the fields of every other node are restored, and the whole tree is restored exactly
when the leaf stored `v0 = 0` and `c0 = 0` before the birth. -/
theorem birth_death (t : tree) (k v c : Nat) (thetal thetar : ℚ)
    (h : (t.birth k v c thetal thetar).1 = true) :
    ∃ np theta0 v0 c0, t.getptr [] k = some np ∧ nid (t.links np) = k ∧
      t.sub np = some (tree.bot theta0 v0 c0) ∧
      (t.birth k v c thetal thetar).2.death k theta0 = (true, t.put np (tree.bot theta0 0 0)) ∧
      (v0 = 0 → c0 = 0 → ((t.birth k v c thetal thetar).2.death k theta0).2 = t) ∧
      (((t.birth k v c thetal thetar).2.death k theta0).2 = t → v0 = 0 ∧ c0 = 0) := by
  rcases birth_eq t k v c thetal thetar with ⟨_, hb⟩ | ⟨_, _, _, _, _, _, _, _, hb⟩ |
    ⟨np, th, v0, c0, hg, hs, hb⟩
  · rw [hb] at h; simp at h
  · rw [hb] at h; simp at h
  · have hsome : (t.sub np).isSome := by simp [hs]
    have hd : (t.put np (tree.node th v c (tree.bot thetal 0 0) (tree.bot thetar 0 0))).death k th
        = (true, t.put np (tree.bot th 0 0)) := by
      unfold tree.death
      rw [getptr_put t [] k np _ hg]
      simp only [sub_put_self t np _ hsome, tree.isnog, tree.isbot, put_put]
      rfl
    refine ⟨np, th, v0, c0, hg, (getptr_sound t [] k np hg).2, hs, ?_, ?_, ?_⟩
    · rw [hb]; exact hd
    · intro hv hc
      subst hv; subst hc
      rw [hb]
      simp only [hd]
      exact put_sub_self t np _ hs
    · intro heq
      rw [hb] at heq
      simp only [hd] at heq
      have h1 := sub_put_self t np (tree.bot th 0 0) hsome
      rw [heq, hs] at h1
      simp only [Option.some.injEq, tree.bot.injEq] at h1
      exact ⟨h1.2.1, h1.2.2⟩

/-- C6, instance: in the scenario tree, `birth(3, 0, 2, 21, 22)` then `death(3, 20)` gives
back the scenario tree. -/
theorem birth_death_witness :
    (scen_tree.birth 3 0 2 21 22).1 = true ∧
    (∃ np theta0 v0 c0, scen_tree.getptr [] 3 = some np ∧ nid (scen_tree.links np) = 3 ∧
      scen_tree.sub np = some (tree.bot theta0 v0 c0) ∧
      (scen_tree.birth 3 0 2 21 22).2.death 3 theta0
        = (true, scen_tree.put np (tree.bot theta0 0 0)) ∧
      (v0 = 0 → c0 = 0 → ((scen_tree.birth 3 0 2 21 22).2.death 3 theta0).2 = scen_tree) ∧
      (((scen_tree.birth 3 0 2 21 22).2.death 3 theta0).2 = scen_tree → v0 = 0 ∧ c0 = 0)) ∧
    ((scen_tree.birth 3 0 2 21 22).2.death 3 20).2 = scen_tree :=
  ⟨rfl, birth_death scen_tree 3 0 2 21 22 rfl, rfl⟩

/-- C6 as stated fails: a single leaf storing `theta = 1`, `v = 5` (set by `setv`) is
grown by `birth(1, 0, 0, 2, 3)` and cut back by `death(1, 1)`; both calls succeed, and
the leaf then stores `v = 0`, not 5. -/
theorem birth_death_fails :
    ((tree.bot 1 5 0).birth 1 0 0 2 3).1 = true ∧
    (((tree.bot 1 5 0).birth 1 0 0 2 3).2.death 1 1) = (true, tree.bot 1 0 0) ∧
    (((tree.bot 1 5 0).birth 1 0 0 2 3).2.death 1 1).2 ≠ tree.bot 1 5 0 := by
  refine ⟨rfl, rfl, ?_⟩
  have h : (((tree.bot 1 5 0).birth 1 0 0 2 3).2.death 1 1).2 = tree.bot 1 0 0 := rfl
  rw [h]
  simp

/-! ## Ensemble prediction (`fit4`, `getpred`) -/

/-- `bn` reads `x` only at the split variables of the tree. -/
theorem bn_take (p : Nat) (xi : xinfo) : ∀ (t : tree) (x : List ℚ),
    t.valid p xi → t.bn (x.take p) xi = t.bn x xi := by
  intro t
  induction t with
  | bot theta v c => intro x _; rfl
  | node theta v c l r ihl ihr =>
    intro x h
    obtain ⟨hv, _, hl, hr⟩ := h
    have hx : (x.take p)[v]? = x[v]? := by
      rw [List.getElem?_take]
      simp [hv]
    simp only [tree.bn, hx, ihl x hl, ihr x hr]

theorem route_take (p : Nat) (xi : xinfo) (t : tree) (x : List ℚ) (h : t.valid p xi) :
    t.route (x.take p) xi = t.route x xi := by
  simp only [tree.route, bn_take p xi t x h]

/-- On a tree whose rules can all be read, routing yields a leaf value. -/
theorem route_total (t : tree) (x : List ℚ) (xi : xinfo) (h : t.valid x.length xi) :
    ∃ th, t.route x xi = some th := by
  obtain ⟨b, hb⟩ := bn_total t x xi h
  obtain ⟨theta, v, c, hs⟩ := bn_sub_bot t x xi b hb
  exact ⟨theta, by simp [tree.route, hb, tree.thetaAt, hs, tree.gettheta]⟩

theorem fit4Loop_spec (t : tree) (xi : xinfo) (p : Nat) (x : List ℚ) (val : Nat → ℚ) :
    ∀ (todo i : Nat) (fv : List ℚ), i + todo ≤ fv.length →
    (∀ k, i ≤ k → k < i + todo → t.route (x.drop (k * p)) xi = some (val k)) →
    ∃ fv2, fit4Loop t xi p x todo i fv = some fv2 ∧ fv2.length = fv.length ∧
      (∀ k, i ≤ k → k < i + todo → fv2[k]? = some (val k)) ∧
      (∀ k, k < i → fv2[k]? = fv[k]?) := by
  intro todo
  induction todo with
  | zero =>
    intro i fv _ _
    exact ⟨fv, rfl, rfl, fun k h1 h2 => by omega, fun _ _ => rfl⟩
  | succ todo ih =>
    intro i fv hlen hval
    have hi := hval i (le_refl i) (by omega)
    have hstep : fit4Loop t xi p x (todo + 1) i fv
        = fit4Loop t xi p x todo (i + 1) (fv.set i (val i)) := by
      simp only [tree.route] at hi
      cases hb : t.bn (x.drop (i * p)) xi with
      | none => simp [hb] at hi
      | some b =>
        simp only [hb] at hi
        have hlt : i < fv.length := by omega
        simp only [fit4Loop, hb, hi, if_pos hlt]
    obtain ⟨fv2, h1, h2, h3, h4⟩ := ih (i + 1) (fv.set i (val i))
      (by rw [List.length_set]; omega) (fun k hk1 hk2 => hval k (by omega) (by omega))
    refine ⟨fv2, hstep.trans h1, by rw [h2, List.length_set], ?_, ?_⟩
    · intro k hk1 hk2
      rcases Nat.eq_or_lt_of_le hk1 with heq | hlt
      · subst heq
        rw [h4 i (by omega)]
        exact List.getElem?_set_eq_of_lt _ (by omega)
      · exact h3 k (by omega) (by omega)
    · intro k hk
      rw [h4 k (by omega)]
      exact List.getElem?_set_ne (by omega)

theorem addRow_spec (i : Int) (fv : List ℚ) (val : Nat → ℚ) :
    ∀ (todo k : Nat) (yhat : matrix),
    (∀ b, k ≤ b → b < k + todo → fv[b]? = some (val b)) →
    ∃ y, addRow i fv todo k yhat = some y ∧
      ∀ a b, y a b = if (a : Int) = i ∧ k ≤ b ∧ b < k + todo then yhat a b + val b
        else yhat a b := by
  intro todo
  induction todo with
  | zero =>
    intro k yhat _
    refine ⟨yhat, rfl, fun a b => ?_⟩
    rw [if_neg]
    omega
  | succ todo ih =>
    intro k yhat hval
    have hk := hval k (le_refl k) (by omega)
    obtain ⟨y, h1, h2⟩ := ih (k + 1) (addAt i k (val k) yhat)
      (fun b hb1 hb2 => hval b (by omega) (by omega))
    refine ⟨y, by simp only [addRow, hk, h1], fun a b => ?_⟩
    rw [h2 a b]
    unfold addAt
    by_cases ha : (a : Int) = i
    · by_cases hb : b = k
      · subst hb
        simp [ha]
      · by_cases hb2 : k + 1 ≤ b ∧ b < k + 1 + todo
        · have hb3 : k ≤ b ∧ b < k + (todo + 1) := by omega
          simp [ha, hb, hb2, hb3]
        · have hb3 : ¬ (k ≤ b ∧ b < k + (todo + 1)) := by omega
          simp [ha, hb, hb2, hb3]
    · simp [ha]

theorem drop_cons_getElem? {α : Type} (xs : List α) (j : Nat) (y : α) (ys : List α)
    (h : xs.drop j = y :: ys) : xs[j]? = some y ∧ xs.drop (j + 1) = ys := by
  constructor
  · have := List.getElem?_drop xs j 0
    rw [h] at this
    simpa using this.symm
  · have : (xs.drop j).drop 1 = ys := by rw [h]; rfl
    rw [List.drop_drop] at this
    rw [← this]

theorem treeLoop_spec (i p np : Nat) (xi : xinfo) (tmat : List (List tree)) (px : List ℚ)
    (draw : List tree) (hdraw : tmat[i]? = some draw) :
    ∀ (rest : List tree) (j : Nat) (fptemp : List ℚ) (yhat : matrix),
    draw.drop j = rest → fptemp.length = np →
    (∀ t ∈ rest, ∀ b, b < np → ∃ th, t.route (px.drop (b * p)) xi = some th) →
    ∃ fv y, treeLoop (i : Int) p np xi tmat px rest.length j fptemp yhat = some (fv, y) ∧
      fv.length = np ∧
      ∀ a b, y a b = if a = i ∧ b < np then yhat a b + drawSum rest (px.drop (b * p)) xi
        else yhat a b := by
  intro rest
  induction rest with
  | nil =>
    intro j fptemp yhat _ hlen _
    exact ⟨fptemp, yhat, rfl, hlen, fun a b => by simp [drawSum]⟩
  | cons t rest ih =>
    intro j fptemp yhat hdrop hlen hroute
    obtain ⟨hj, hdrop2⟩ := drop_cons_getElem? draw j t rest hdrop
    have htree : treeAt tmat (i : Int) j = some t := by
      unfold treeAt
      rw [if_neg (by omega)]
      simp [hdraw, hj]
    have hval : ∀ k, 0 ≤ k → k < 0 + np →
        t.route (px.drop (k * p)) xi = some (t.leaf (px.drop (k * p)) xi) := by
      intro k _ hk
      obtain ⟨th, hth⟩ := hroute t (List.mem_cons_self t rest) k (by omega)
      simp [tree.leaf, hth]
    obtain ⟨fv2, hf1, hf2, hf3, _⟩ := fit4Loop_spec t xi p px
      (fun k => t.leaf (px.drop (k * p)) xi) np 0 fptemp (by omega) hval
    obtain ⟨y1, hy1, hy2⟩ := addRow_spec (i : Int) fv2
      (fun k => t.leaf (px.drop (k * p)) xi) np 0 yhat hf3
    obtain ⟨fv, y, h1, h2, h3⟩ := ih (j + 1) fv2 y1 hdrop2 (by rw [hf2, hlen])
      (fun s hs => hroute s (List.mem_cons_of_mem t hs))
    refine ⟨fv, y, ?_, h2, fun a b => ?_⟩
    · simp only [List.length_cons, treeLoop, htree, fit4, hf1, hy1, h1]
    · rw [h3 a b, hy2 a b]
      by_cases hab : a = i ∧ b < np
      · have hab2 : (a : Int) = (i : Int) ∧ 0 ≤ b ∧ b < 0 + np := ⟨by omega, by omega, by omega⟩
        rw [if_pos hab, if_pos hab, if_pos hab2]
        simp only [drawSum, List.map_cons, List.sum_cons]
        ring
      · rw [if_neg hab, if_neg hab]
        have hab2 : ¬ ((a : Int) = (i : Int) ∧ 0 ≤ b ∧ b < 0 + np) := by
          intro hh
          exact hab ⟨by omega, by omega⟩
        rw [if_neg hab2]

theorem drawLoop_spec (p m np : Nat) (xi : xinfo) (tmat : List (List tree)) (px : List ℚ) :
    ∀ (rest : List (List tree)) (i : Nat) (fptemp : List ℚ) (yhat : matrix),
    tmat.drop i = rest → fptemp.length = np →
    (∀ draw ∈ rest, draw.length = m ∧
      ∀ t ∈ draw, ∀ b, b < np → ∃ th, t.route (px.drop (b * p)) xi = some th) →
    ∃ y, drawLoop p m np xi tmat px rest.length (i : Int) fptemp yhat = some y ∧
      ∀ a b, y a b =
        if i ≤ a ∧ a < i + rest.length ∧ b < np then
          yhat a b + drawSum (tmat[a]?.getD []) (px.drop (b * p)) xi
        else yhat a b := by
  intro rest
  induction rest with
  | nil =>
    intro i fptemp yhat _ _ _
    refine ⟨yhat, rfl, fun a b => ?_⟩
    rw [if_neg]
    simp only [List.length_nil]
    omega
  | cons draw rest ih =>
    intro i fptemp yhat hdrop hlen hall
    obtain ⟨hi, hdrop2⟩ := drop_cons_getElem? tmat i draw rest hdrop
    obtain ⟨hm, hroute⟩ := hall draw (List.mem_cons_self draw rest)
    obtain ⟨fv, y1, h1, h2, h3⟩ := treeLoop_spec i p np xi tmat px draw hi draw 0 fptemp yhat
      rfl hlen hroute
    rw [hm] at h1
    obtain ⟨y, h4, h5⟩ := ih (i + 1) fv y1 hdrop2 h2
      (fun d hd => hall d (List.mem_cons_of_mem draw hd))
    refine ⟨y, ?_, fun a b => ?_⟩
    · simp only [List.length_cons, drawLoop, h1]
      have hc : ((i : Int) + 1) = ((i + 1 : Nat) : Int) := by push_cast; rfl
      rw [hc]
      exact h4
    · rw [h5 a b, h3 a b]
      simp only [List.length_cons]
      by_cases hb : b < np
      · rcases Nat.lt_trichotomy a i with hlt | heq | hgt
        · rw [if_neg (by omega), if_neg (by omega), if_neg (by omega)]
        · subst heq
          rw [if_neg (by omega), if_pos ⟨rfl, hb⟩, if_pos ⟨le_refl a, by omega, hb⟩]
          simp [hi]
        · by_cases hr : a < i + 1 + rest.length
          · rw [if_pos ⟨by omega, hr, hb⟩, if_neg (by omega), if_pos ⟨by omega, by omega, hb⟩]
          · rw [if_neg (by omega), if_neg (by omega), if_neg (by omega)]
      · rw [if_neg (by omega), if_neg (by omega), if_neg (by omega)]

/-- The second argument of the call `getpred(0, nd-1, ...)`. -/
theorem toInt_pred64_draws {nd : Nat} (h : nd < 2 ^ 31) :
    (toInt (pred64 nd) + 1 - 0).toNat = nd := by
  rw [toInt_pred64 h]
  omega

/-- Every tree of the ensemble yields a leaf value on every feature row, read either
as the `p` values of the row or through the pointer `px + i*p`. -/
theorem route_rows (p np : Nat) (xi : xinfo) (px : List ℚ) (hpx : np * p ≤ px.length)
    (t : tree) (hv : t.valid p xi) (b : Nat) (hb : b < np) :
    (∃ th, t.route (px.drop (b * p)) xi = some th) ∧
    t.route (featureRow px p b) xi = t.route (px.drop (b * p)) xi := by
  have hlen : p ≤ (px.drop (b * p)).length := by
    rw [List.length_drop]
    have : (b + 1) * p ≤ np * p := Nat.mul_le_mul_right p hb
    have e : (b + 1) * p = b * p + p := by ring
    omega
  exact ⟨route_total t _ xi (valid_mono hlen t hv), route_take p xi t _ hv⟩

/-- What `predict` computes: every entry of a draw row is the draw's sum of leaf
values on the corresponding feature row. -/
theorem predict_spec (nd p m np : Nat) (xi : xinfo) (tmat : List (List tree)) (px : List ℚ)
    (fptemp0 : List ℚ) (hnd : tmat.length = nd) (hm : ∀ draw ∈ tmat, draw.length = m)
    (hvalid : ∀ draw ∈ tmat, ∀ t ∈ draw, t.valid p xi) (hpx : np * p ≤ px.length)
    (hbuf : fptemp0.length = np) (hint : nd < 2 ^ 31) :
    ∃ yhat, predict nd p m np xi tmat px fptemp0 = some yhat ∧
      ∀ d i, d < nd → i < np →
        yhat d i = drawSum (tmat[d]?.getD []) (featureRow px p i) xi := by
  obtain ⟨y, h1, h2⟩ := drawLoop_spec p m np xi tmat px tmat 0 fptemp0 (fun _ _ => 0) rfl hbuf
    (fun draw hd => ⟨hm draw hd, fun t ht b hb =>
      (route_rows p np xi px hpx t (hvalid draw hd t ht) b hb).1⟩)
  refine ⟨y, ?_, fun d i hd hi => ?_⟩
  · unfold predict getpred
    rw [toInt_pred64_draws hint, ← hnd]
    exact h1
  · rw [h2 d i, if_pos ⟨by omega, by omega, hi⟩]
    have hdl : d < tmat.length := by omega
    have hget : tmat[d]? = some tmat[d] := List.getElem?_eq_getElem hdl
    simp only [hget, Option.getD_some, drawSum, zero_add]
    congr 1
    apply List.map_congr_left
    intro t ht
    have hv := hvalid tmat[d] (List.getElem_mem hdl) t ht
    simp only [tree.leaf, (route_rows p np xi px hpx t hv i hi).2]

/-- C3. For an ensemble `tmat` of `nd` draws with `m` trees each (the prediction matrix
has `nd` rows, so `nd < 2^31`), whose rules are valid for `p` features and the cutpoint
table, and a feature matrix of `np` rows: after the matrix is set to zero and
`getpred(0, nd-1, ...)` runs, entry `(d, i)` is the sum over the trees of draw `d` of the
leaf value of the bottom node that `bn` reaches for feature row `i` (the `p` values
starting at `px + i*p`), for every `d < nd` and `i < np`. -/
theorem predict_entries (nd p m np : Nat) (xi : xinfo) (tmat : List (List tree))
    (px : List ℚ) (fptemp0 : List ℚ) (hnd : tmat.length = nd)
    (hm : ∀ draw ∈ tmat, draw.length = m)
    (hvalid : ∀ draw ∈ tmat, ∀ t ∈ draw, t.valid p xi) (hpx : np * p ≤ px.length)
    (hbuf : fptemp0.length = np) (hint : nd < 2 ^ 31) :
    ∃ yhat, predict nd p m np xi tmat px fptemp0 = some yhat ∧
      ∀ d i, d < nd → i < np →
        ∃ draw, tmat[d]? = some draw ∧ draw.length = m ∧
          (∀ t ∈ draw, ∃ b theta v c, t.bn (featureRow px p i) xi = some b ∧
            t.sub b = some (tree.bot theta v c) ∧ t.leaf (featureRow px p i) xi = theta) ∧
          yhat d i = (draw.map (fun t => t.leaf (featureRow px p i) xi)).sum := by
  obtain ⟨yhat, h1, h2⟩ := predict_spec nd p m np xi tmat px fptemp0 hnd hm hvalid hpx hbuf hint
  refine ⟨yhat, h1, fun d i hd hi => ?_⟩
  have hdl : d < tmat.length := by omega
  have hget : tmat[d]? = some tmat[d] := List.getElem?_eq_getElem hdl
  have hmem : tmat[d] ∈ tmat := List.getElem_mem hdl
  refine ⟨tmat[d], hget, hm _ hmem, fun t ht => ?_, ?_⟩
  · have hv := hvalid _ hmem t ht
    have hrow : p ≤ (featureRow px p i).length := by
      unfold featureRow
      rw [List.length_take, List.length_drop]
      have : (i + 1) * p ≤ np * p := Nat.mul_le_mul_right p hi
      have e : (i + 1) * p = i * p + p := by ring
      omega
    obtain ⟨b, hb⟩ := bn_total t _ xi (valid_mono hrow t hv)
    obtain ⟨theta, v, c, hs⟩ := bn_sub_bot t _ xi b hb
    exact ⟨b, theta, v, c, hb, hs, by simp [tree.leaf, tree.route, hb, tree.thetaAt, hs,
      tree.gettheta]⟩
  · rw [h2 d i hd hi, hget]
    rfl

/-- C3, scenario: 2 draws of 2 single-leaf trees with leaf values (1, 2) and (3, 4), one
feature row: the prediction matrix is `[[3], [7]]`. -/
theorem predict_entries_witness :
    ∃ yhat, predict 2 1 2 1 scen_xi scen_tmat [0] [0] = some yhat ∧
      yhat 0 0 = 3 ∧ yhat 1 0 = 7 := by
  obtain ⟨yhat, h1, h2⟩ := predict_entries 2 1 2 1 scen_xi scen_tmat [0] [0] rfl
    (by simp [scen_tmat]) (by simp [scen_tmat, tree.valid]) (by simp) rfl (by norm_num)
  refine ⟨yhat, h1, ?_, ?_⟩
  · obtain ⟨draw, hd, _, _, hy⟩ := h2 0 0 (by norm_num) (by norm_num)
    simp only [scen_tmat, List.getElem?_cons_zero, Option.some.injEq] at hd
    subst hd
    rw [hy]
    norm_num [tree.leaf, tree.route, tree.bn, tree.thetaAt, tree.sub, tree.gettheta]
  · obtain ⟨draw, hd, _, _, hy⟩ := h2 1 0 (by norm_num) (by norm_num)
    simp only [scen_tmat, List.getElem?_cons_succ, List.getElem?_cons_zero,
      Option.some.injEq] at hd
    subst hd
    rw [hy]
    norm_num [tree.leaf, tree.route, tree.bn, tree.thetaAt, tree.sub, tree.gettheta]

/-! ## Linearity of the prediction in the leaf values -/

theorem route_node (theta : ℚ) (v c : Nat) (l r : tree) (x : List ℚ) (xi : xinfo) :
    (tree.node theta v c l r).route x xi =
      match x[v]?, xi.cut v c with
      | some xv, some cut => if xv < cut then l.route x xi else r.route x xi
      | _, _ => none := by
  cases hx : x[v]? with
  | none => simp [tree.route, tree.bn, hx]
  | some xv =>
    cases hc : xi.cut v c with
    | none => simp [tree.route, tree.bn, hx, hc]
    | some cut =>
      by_cases hlt : xv < cut
      · cases hl : l.bn x xi <;> simp [tree.route, tree.bn, hx, hc, hlt, hl, tree.thetaAt, tree.sub]
      · cases hr : r.bn x xi <;> simp [tree.route, tree.bn, hx, hc, hlt, hr, tree.thetaAt, tree.sub]

/-- Scaling the leaf values scales the routed leaf value. -/
theorem route_scale (k : ℚ) (x : List ℚ) (xi : xinfo) : ∀ t : tree,
    (t.scale k).route x xi = (t.route x xi).map (fun th => k * th) := by
  intro t
  induction t with
  | bot theta v c => simp [tree.scale, tree.route, tree.bn, tree.thetaAt, tree.sub, tree.gettheta]
  | node theta v c l r ihl ihr =>
    simp only [tree.scale, route_node, ihl, ihr]
    cases x[v]? with
    | none => rfl
    | some xv =>
      cases xi.cut v c with
      | none => rfl
      | some cut => by_cases hlt : xv < cut <;> simp [hlt]

theorem valid_scale (k : ℚ) (p : Nat) (xi : xinfo) : ∀ t : tree,
    t.valid p xi → (t.scale k).valid p xi
  | tree.bot _ _ _, _ => trivial
  | tree.node _ _ _ l r, h => ⟨h.1, h.2.1, valid_scale k p xi l h.2.2.1, valid_scale k p xi r h.2.2.2⟩

theorem drawSum_scale (k : ℚ) (x : List ℚ) (xi : xinfo) (draw : List tree) :
    drawSum (draw.map (tree.scale k)) x xi = k * drawSum draw x xi := by
  induction draw with
  | nil => simp [drawSum]
  | cons t draw ih =>
    simp only [drawSum, List.map_cons, List.sum_cons] at ih ⊢
    rw [ih, mul_add]
    congr 1
    simp only [tree.leaf, route_scale]
    cases t.route x xi <;> simp

/-- C10. If every leaf value of every tree of draw `d` is multiplied by `k`, then every
entry `(d, i)` of the prediction matrix computed from a zero matrix is `k` times the
entry computed for the original ensemble, and the rows of the other draws are
unchanged. -/
theorem predict_scale (k : ℚ) (d nd p m np : Nat) (xi : xinfo) (tmat : List (List tree))
    (px : List ℚ) (fptemp0 : List ℚ) (hnd : tmat.length = nd)
    (hm : ∀ draw ∈ tmat, draw.length = m)
    (hvalid : ∀ draw ∈ tmat, ∀ t ∈ draw, t.valid p xi) (hpx : np * p ≤ px.length)
    (hbuf : fptemp0.length = np) (hint : nd < 2 ^ 31) (hd : d < nd) :
    ∃ y y2, predict nd p m np xi tmat px fptemp0 = some y ∧
      predict nd p m np xi (scaleDraw k d tmat) px fptemp0 = some y2 ∧
      (∀ i, i < np → y2 d i = k * y d i) ∧
      (∀ e i, e < nd → e ≠ d → i < np → y2 e i = y e i) := by
  have hdl : d < tmat.length := by omega
  have hget : tmat[d]? = some tmat[d] := List.getElem?_eq_getElem hdl
  have hsc : scaleDraw k d tmat = tmat.set d (tmat[d].map (tree.scale k)) := by
    simp [scaleDraw, hget]
  have hmem2 : ∀ draw ∈ scaleDraw k d tmat, draw ∈ tmat ∨ draw = tmat[d].map (tree.scale k) := by
    intro draw hdraw
    rw [hsc] at hdraw
    rcases List.mem_or_eq_of_mem_set hdraw with h | h
    · exact Or.inl h
    · exact Or.inr h
  obtain ⟨y, h1, h2⟩ := predict_spec nd p m np xi tmat px fptemp0 hnd hm hvalid hpx hbuf hint
  obtain ⟨y2, h3, h4⟩ := predict_spec nd p m np xi (scaleDraw k d tmat) px fptemp0
    (by rw [hsc, List.length_set]; exact hnd)
    (by
      intro draw hdraw
      rcases hmem2 draw hdraw with h | h
      · exact hm draw h
      · rw [h, List.length_map]; exact hm _ (List.getElem_mem hdl))
    (by
      intro draw hdraw t ht
      rcases hmem2 draw hdraw with h | h
      · exact hvalid draw h t ht
      · rw [h, List.mem_map] at ht
        obtain ⟨s, hs, rfl⟩ := ht
        exact valid_scale k p xi s (hvalid _ (List.getElem_mem hdl) s hs))
    hpx hbuf hint
  refine ⟨y, y2, h1, h3, fun i hi => ?_, fun e i he hne hi => ?_⟩
  · rw [h4 d i hd hi, h2 d i hd hi, hsc, hget]
    simp only [List.getElem?_set_eq_of_lt _ hdl, Option.getD_some]
    exact drawSum_scale k _ xi _
  · rw [h4 e i he hi, h2 e i he hi, hsc]
    rw [List.getElem?_set_ne (Ne.symm hne)]

/-- C10, instance: draw 1 of the scenario ensemble scaled by 2 predicts 14 instead of
7, and draw 0 still predicts 3. -/
theorem predict_scale_witness :
    ∃ y y2, predict 2 1 2 1 scen_xi scen_tmat [0] [0] = some y ∧
      predict 2 1 2 1 scen_xi (scaleDraw 2 1 scen_tmat) [0] [0] = some y2 ∧
      (∀ i, i < 1 → y2 1 i = 2 * y 1 i) ∧
      (∀ e i, e < 2 → e ≠ 1 → i < 1 → y2 e i = y e i) :=
  predict_scale 2 1 2 1 2 1 scen_xi scen_tmat [0] [0] rfl
    (by simp [scen_tmat]) (by simp [scen_tmat, tree.valid]) (by simp) rfl (by norm_num)
    (by norm_num)

/-! ## `cansplit` and `getgoodvars` -/

theorem cansplitLoop_spec (n : List link) (xi : xinfo) : ∀ (fuel v : Nat) (found : Bool),
    v + fuel = xi.length →
    cansplitLoop n xi fuel v found = some (found || (List.range' v fuel).any (goodvar n xi)) := by
  intro fuel
  induction fuel with
  | zero =>
    intro v found h
    have hv : ¬ v < xi.length := by omega
    simp [cansplitLoop, hv]
  | succ fuel ih =>
    intro v found h
    have hv : v < xi.length := by omega
    have hget : xi[v]? = some xi[v] := List.getElem?_eq_getElem hv
    cases found with
    | true => simp [cansplitLoop]
    | false =>
      have hstep : cansplitLoop n xi (fuel + 1) v false
          = cansplitLoop n xi fuel (v + 1) (goodvar n xi v) := by
        simp only [cansplitLoop, hget, goodvar, hv, decide_True, Bool.not_false, Bool.and_self,
          if_true]
        congr 1
      rw [hstep, ih (v + 1) _ (by omega)]
      simp [List.range'_succ]

theorem getgoodvarsLoop_spec (n : List link) (xi : xinfo) :
    ∀ (fuel v : Nat) (goodvars : List Nat), v + fuel = xi.length →
    getgoodvarsLoop n xi fuel v goodvars
      = some (goodvars ++ (List.range' v fuel).filter (goodvar n xi)) := by
  intro fuel
  induction fuel with
  | zero =>
    intro v goodvars h
    have hv : v = xi.length := by omega
    simp [getgoodvarsLoop, hv]
  | succ fuel ih =>
    intro v goodvars h
    have hv : v < xi.length := by omega
    have hne : v ≠ xi.length := by omega
    have hget : xi[v]? = some xi[v] := List.getElem?_eq_getElem hv
    have hstep : getgoodvarsLoop n xi (fuel + 1) v goodvars
        = getgoodvarsLoop n xi fuel (v + 1)
            (if goodvar n xi v = true then goodvars ++ [v] else goodvars) := by
      simp only [getgoodvarsLoop, hget, goodvar, hne, ne_eq, not_false_eq_true, if_true,
        decide_eq_true_eq]
    rw [hstep, ih (v + 1) _ (by omega)]
    by_cases hg : goodvar n xi v = true
    · simp [List.range'_succ, List.filter_cons, hg]
    · simp [List.range'_succ, List.filter_cons, hg]

theorem le_lowerBound (v : Nat) (up : List link) (L0 : Int) : L0 ≤ lowerBound v up L0 := by
  unfold lowerBound
  induction (up.filter (fun a => decide (a.v = v) && a.d)).map (fun a => (a.c : Int) + 1) with
  | nil => simp
  | cons x xs ih => simp only [List.foldr_cons]; exact le_trans ih (le_max_right _ _)

theorem upperBound_le (v : Nat) (up : List link) (U0 : Int) : upperBound v up U0 ≤ U0 := by
  unfold upperBound
  induction (up.filter (fun a => decide (a.v = v) && !a.d)).map (fun a => (a.c : Int) - 1) with
  | nil => simp
  | cons x xs ih => simp only [List.foldr_cons]; exact le_trans (min_le_right _ _) ih

/-- With ancestor cutpoint indices that fit an `int`, a variable with an empty cutpoint
list is not usable. -/
theorem goodvar_empty (n : List link) (xi : xinfo) (v : Nat) (hv : xi[v]? = some [])
    (h : ∀ a ∈ n, a.v = v → a.c + 1 < 2 ^ 31) : goodvar n xi v = false := by
  have h0 : toInt (pred64 ([] : List ℚ).length) = -1 := by decide
  simp only [goodvar, hv, h0, rg_bounds v n 0 (-1) h]
  have h1 := le_lowerBound v n 0
  have h2 := upperBound_le v n (-1)
  simp only [decide_eq_false_iff_not, ge_iff_le, not_le]
  omega

/-- C9 (amended). For every node (pointer `p` of a tree `t`) and cutpoint table,
`cansplit` returns true if and only if there is a variable `v < xi.size()` for which
`rg` started from `L = 0`, `U = xi[v].size() - 1` ends with `U >= L`; `getgoodvars`
returns exactly those variables, in increasing order with no repeats, so `cansplit` is
true exactly when `getgoodvars` yields a non-empty list; and a variable with an empty
cutpoint list never counts when every ancestor `a` splitting on it has `a.c + 1 < 2^31`. -/
theorem cansplit_goodvars (t : tree) (p : tree_p) (xi : xinfo) :
    (∃ b, cansplit (t.links p) xi = some b ∧
      (b = true ↔ ∃ v, v < xi.length ∧ goodvar (t.links p) xi v = true)) ∧
    (∃ gv, getgoodvars (t.links p) xi = some gv ∧
      (∀ v, v ∈ gv ↔ v < xi.length ∧ goodvar (t.links p) xi v = true) ∧
      gv.Pairwise (fun a b => a < b) ∧
      (cansplit (t.links p) xi = some true ↔ gv ≠ [])) ∧
    (∀ v, xi[v]? = some [] → (∀ a ∈ t.links p, a.v = v → a.c + 1 < 2 ^ 31) →
      goodvar (t.links p) xi v = false) := by
  have hc := cansplitLoop_spec (t.links p) xi xi.length 0 false (by omega)
  have hg := getgoodvarsLoop_spec (t.links p) xi xi.length 0 [] (by omega)
  rw [← List.range_eq_range'] at hc hg
  simp only [Bool.false_or, List.nil_append] at hc hg
  have hany : ((List.range xi.length).any (goodvar (t.links p) xi) = true) ↔
      ∃ v, v < xi.length ∧ goodvar (t.links p) xi v = true := by
    simp [List.any_eq_true]
  have hmem : ∀ v, v ∈ (List.range xi.length).filter (goodvar (t.links p) xi) ↔
      v < xi.length ∧ goodvar (t.links p) xi v = true := by
    intro v
    simp [List.mem_filter]
  refine ⟨⟨_, hc, hany⟩, ⟨_, hg, hmem, ?_, ?_⟩, fun v hv h => goodvar_empty _ xi v hv h⟩
  · exact List.Pairwise.filter _ (List.pairwise_lt_range _)
  · unfold cansplit
    rw [hc]
    simp only [Option.some.injEq, hany]
    constructor
    · rintro ⟨v, hv⟩ hnil
      have := (hmem v).mpr hv
      rw [hnil] at this
      simp at this
    · intro hne
      obtain ⟨v, hv⟩ := List.exists_mem_of_ne_nil _ hne
      exact ⟨v, (hmem v).mp hv⟩

/-- C9, instance: below the right leaf of the scenario tree, with the scenario's cutpoint
table, `cansplit` is true and `getgoodvars` yields `[0]`; with an empty cutpoint list
for variable 0 it is not usable. -/
theorem cansplit_goodvars_witness :
    cansplit (scen_tree.links [true]) scen_xi = some true ∧
    getgoodvars (scen_tree.links [true]) scen_xi = some [0] ∧
    goodvar (scen_tree.links [true]) [[]] 0 = false := by
  refine ⟨by decide, by decide, ?_⟩
  refine (cansplit_goodvars scen_tree [true] [[]]).2.2 0 rfl ?_
  intro a ha _
  simp [scen_tree, tree.links, tree.linksFrom] at ha
  subst ha
  decide

/-- C9 as stated fails: `birth(1, 0, 2147483648, 0, 0)` on a single leaf gives a root that
splits on variable 0 at cutpoint index `2^31`; for its left child, and a table whose
only variable has an empty cutpoint list, `cansplit` returns true and `getgoodvars`
yields variable 0. -/
theorem cansplit_goodvars_fails :
    ((tree.bot 0 0 0).birth 1 0 2147483648 0 0).2
      = tree.node 0 0 2147483648 (tree.bot 0 0 0) (tree.bot 0 0 0) ∧
    ([[]] : xinfo)[0]? = some [] ∧
    cansplit ((tree.node 0 0 2147483648 (tree.bot 0 0 0) (tree.bot 0 0 0)).links [false]) [[]]
      = some true ∧
    getgoodvars ((tree.node 0 0 2147483648 (tree.bot 0 0 0) (tree.bot 0 0 0)).links [false]) [[]]
      = some [0] := by
  refine ⟨by rfl, by rfl, by decide, by decide⟩

/-! ## Copying and clearing (`cp`, `tonull`, `operator=`) -/

/-- Started on a node without children, `cp` rebuilds the source tree. -/
theorem cp_bot : ∀ (o : tree) (theta : ℚ) (v c : Nat), cp (tree.bot theta v c) o = o := by
  intro o
  induction o with
  | bot th v0 c0 => intro theta v c; rfl
  | node th v0 c0 l r ihl ihr =>
    intro theta v c
    simp only [cp, ihl, ihr]

theorem dropkids_left (theta : ℚ) (v c : Nat) (l r : tree) (q : tree_p) :
    (tree.node theta v c l r).dropkids (false :: q) = tree.node theta v c (l.dropkids q) r := by
  unfold tree.dropkids
  simp only [tree.sub]
  cases hq : l.sub q with
  | none => rfl
  | some s => cases s <;> simp [tree.put]

theorem dropkids_right (theta : ℚ) (v c : Nat) (l r : tree) (q : tree_p) :
    (tree.node theta v c l r).dropkids (true :: q) = tree.node theta v c l (r.dropkids q) := by
  unfold tree.dropkids
  simp only [tree.sub]
  cases hq : r.sub q with
  | none => rfl
  | some s => cases s <;> simp [tree.put]

theorem foldl_dropkids_left (theta : ℚ) (v c : Nat) (r : tree) :
    ∀ (qs : List tree_p) (l : tree),
    (qs.map (fun q => false :: q)).foldl tree.dropkids (tree.node theta v c l r)
      = tree.node theta v c (qs.foldl tree.dropkids l) r := by
  intro qs
  induction qs with
  | nil => intro l; rfl
  | cons q qs ih =>
    intro l
    simp only [List.map_cons, List.foldl_cons, dropkids_left, ih]

theorem foldl_dropkids_right (theta : ℚ) (v c : Nat) (l : tree) :
    ∀ (qs : List tree_p) (r : tree),
    (qs.map (fun q => true :: q)).foldl tree.dropkids (tree.node theta v c l r)
      = tree.node theta v c l (qs.foldl tree.dropkids r) := by
  intro qs
  induction qs with
  | nil => intro r; rfl
  | cons q qs ih =>
    intro r
    simp only [List.map_cons, List.foldl_cons, dropkids_right, ih]

/-- The `for` loop of `tonull` over the nodes collected by `getnogs` cuts every
no-grandchildren node. -/
theorem foldl_dropkids_getnogs : ∀ t : tree, t.getnogs.foldl tree.dropkids t = t.cutnogs := by
  intro t
  induction t with
  | bot theta v c => rfl
  | node theta v c l r ihl ihr =>
    by_cases hg : (!l.isbot || !r.isbot) = true
    · have hl : (if (!l.isbot) = true then l.getnogs.map (fun q => false :: q) else [])
          = l.getnogs.map (fun q => false :: q) := by
        cases l <;> simp [tree.isbot, tree.getnogs]
      have hr : (if (!r.isbot) = true then r.getnogs.map (fun q => true :: q) else [])
          = r.getnogs.map (fun q => true :: q) := by
        cases r <;> simp [tree.isbot, tree.getnogs]
      simp only [tree.getnogs, tree.cutnogs, hg, if_true, hl, hr, List.foldl_append,
        foldl_dropkids_left, foldl_dropkids_right, ihl, ihr]
    · simp only [tree.getnogs, tree.cutnogs, hg, if_false, List.foldl_cons, List.foldl_nil]
      simp [tree.dropkids, tree.sub, tree.put]

theorem treesize_pos (t : tree) : 1 ≤ t.treesize := by
  cases t with
  | bot theta v c => simp [tree.treesize]
  | node theta v c l r => simp only [tree.treesize]; omega

theorem treesize_cutnogs_le : ∀ t : tree, t.cutnogs.treesize ≤ t.treesize := by
  intro t
  induction t with
  | bot theta v c => simp [tree.cutnogs]
  | node theta v c l r ihl ihr =>
    by_cases hg : (!l.isbot || !r.isbot) = true
    · simp only [tree.cutnogs, hg, if_true, tree.treesize]; omega
    · simp only [tree.cutnogs, hg, if_false, tree.treesize]; omega

/-- A pass of the loop of `tonull` strictly decreases `treesize()` while it is above 1. -/
theorem treesize_cutnogs_lt : ∀ t : tree, 1 < t.treesize → t.cutnogs.treesize < t.treesize := by
  intro t
  induction t with
  | bot theta v c => intro h; simp [tree.treesize] at h
  | node theta v c l r ihl ihr =>
    intro _
    by_cases hg : (!l.isbot || !r.isbot) = true
    · simp only [tree.cutnogs, hg, if_true, tree.treesize]
      have h1 := treesize_cutnogs_le l
      have h2 := treesize_cutnogs_le r
      cases l with
      | node tl vl cl ll lr =>
        have := ihl (by have := treesize_pos ll; have := treesize_pos lr
                        simp only [tree.treesize]; omega)
        omega
      | bot tl vl cl =>
        cases r with
        | node tr vr cr rl rr =>
          have := ihr (by have := treesize_pos rl; have := treesize_pos rr
                          simp only [tree.treesize]; omega)
          omega
        | bot tr vr cr => simp [tree.isbot] at hg
    · simp only [tree.cutnogs, hg, if_false, tree.treesize]
      have := treesize_pos l
      have := treesize_pos r
      omega

/-- With at least `treesize() - 1` passes allowed, the loop of `tonull` ends. -/
theorem tonullLoop_total : ∀ (fuel : Nat) (t : tree), t.treesize ≤ fuel + 1 →
    ∃ s, tree.tonullLoop fuel t = some s ∧ s.treesize = 1 := by
  intro fuel
  induction fuel with
  | zero =>
    intro t h
    have := treesize_pos t
    exact ⟨t, by simp only [tree.tonullLoop]; rw [if_neg (by omega)], by omega⟩
  | succ fuel ih =>
    intro t h
    by_cases hgt : t.treesize > 1
    · have hlt := treesize_cutnogs_lt t hgt
      obtain ⟨s, hs1, hs2⟩ := ih t.cutnogs (by omega)
      exact ⟨s, by simp only [tree.tonullLoop]; rw [if_pos hgt, foldl_dropkids_getnogs]; exact hs1,
        hs2⟩
    · have := treesize_pos t
      exact ⟨t, by simp only [tree.tonullLoop]; rw [if_neg hgt], by omega⟩

theorem tonull_total (fuel : Nat) (t : tree) (h : t.treesize ≤ fuel + 1) :
    t.tonull fuel = some (tree.bot 0 0 0) := by
  obtain ⟨s, hs, _⟩ := tonullLoop_total fuel t h
  simp [tree.tonull, hs]

/-- Assignment rebuilds the source, whatever the target held. -/
theorem assign_eq (fuel : Nat) (lhs rhs : tree) (h : lhs.treesize ≤ fuel + 1) :
    lhs.assign fuel rhs = some rhs := by
  simp [tree.assign, tonull_total fuel lhs h, cp_bot]

/-! ## Memory: reading after writing -/

theorem length_upd (h : heap) (a : Nat) (f : cell → cell) : (h.upd a f).length = h.length := by
  unfold heap.upd
  cases h[a]? <;> simp

theorem getElem?_upd (h : heap) (a : Nat) (f : cell → cell) (x : Nat) :
    (h.upd a f)[x]? = if x = a then h[a]?.map f else h[x]? := by
  unfold heap.upd
  cases ha : h[a]? with
  | none =>
    by_cases hx : x = a
    · subst hx; simp [ha]
    · simp [hx]
  | some y =>
    have hlt : a < h.length := by
      rcases Nat.lt_or_ge a h.length with hl | hl
      · exact hl
      · rw [List.getElem?_eq_none hl] at ha; simp at ha
    by_cases hx : x = a
    · subst hx; simp [List.getElem?_set_eq_of_lt _ hlt]
    · simp [hx, List.getElem?_set_ne (Ne.symm hx)]

theorem length_alloc (h : heap) : h.alloc.1.length = h.length + 1 := by
  simp [heap.alloc]

theorem alloc_snd (h : heap) : h.alloc.2 = h.length := rfl

theorem getElem?_alloc_old (h : heap) (x : Nat) (hx : x < h.length) : h.alloc.1[x]? = h[x]? := by
  simp [heap.alloc, List.getElem?_append_left hx]

theorem getElem?_alloc_new (h : heap) :
    h.alloc.1[h.length]? = some ⟨0, 0, 0, none, none, none⟩ := by
  simp [heap.alloc]

/-- A tree held in memory depends only on the objects at its own addresses. -/
theorem repr_frame (h h2 : heap) : ∀ (t : tree) (a : Nat) (par : Option Nat) (fp : List Nat),
    repr h a par t fp → (∀ x ∈ fp, h2[x]? = h[x]?) → repr h2 a par t fp := by
  intro t
  induction t with
  | bot theta v c =>
    intro a par fp hr hsame
    obtain ⟨hfp, ha⟩ := hr
    exact ⟨hfp, by rw [hsame a (by simp [hfp]), ha]⟩
  | node theta v c l r ihl ihr =>
    intro a par fp hr hsame
    obtain ⟨al, ar, fl, fr, hfp, ha, hl, hr2⟩ := hr
    refine ⟨al, ar, fl, fr, hfp, by rw [hsame a (by simp [hfp]), ha], ?_, ?_⟩
    · exact ihl al _ fl hl (fun x hx => hsame x (by simp [hfp, hx]))
    · exact ihr ar _ fr hr2 (fun x hx => hsame x (by simp [hfp, hx]))

/-- The addresses of a tree held in memory are addresses of objects. -/
theorem repr_lt (h : heap) : ∀ (t : tree) (a : Nat) (par : Option Nat) (fp : List Nat),
    repr h a par t fp → ∀ x ∈ fp, x < h.length := by
  intro t
  induction t with
  | bot theta v c =>
    intro a par fp hr x hx
    obtain ⟨hfp, ha⟩ := hr
    rw [hfp] at hx
    simp only [List.mem_singleton] at hx
    subst hx
    rcases Nat.lt_or_ge x h.length with hl | hl
    · exact hl
    · rw [List.getElem?_eq_none hl] at ha; simp at ha
  | node theta v c l r ihl ihr =>
    intro a par fp hr x hx
    obtain ⟨al, ar, fl, fr, hfp, ha, hl, hr2⟩ := hr
    rw [hfp] at hx
    simp only [List.mem_cons, List.mem_append] at hx
    rcases hx with hx | hx | hx
    · subst hx
      rcases Nat.lt_or_ge x h.length with hl | hl
      · exact hl
      · rw [List.getElem?_eq_none hl] at ha; simp at ha
    · exact ihl al _ fl hl x hx
    · exact ihr ar _ fr hr2 x hx

/-- The first address of a tree held in memory is its root. -/
theorem repr_root_mem (h : heap) (t : tree) (a : Nat) (par : Option Nat) (fp : List Nat)
    (hr : repr h a par t fp) : a ∈ fp := by
  cases t with
  | bot theta v c => obtain ⟨hfp, _⟩ := hr; simp [hfp]
  | node theta v c l r => obtain ⟨_, _, _, _, hfp, _⟩ := hr; simp [hfp]

theorem lt_of_getElem?_some {h : heap} {a : Nat} {x : cell} (ha : h[a]? = some x) :
    a < h.length := by
  rcases Nat.lt_or_ge a h.length with hl | hl
  · exact hl
  · rw [List.getElem?_eq_none hl] at ha; simp at ha

theorem newl_spec (h : heap) (n : Nat) (x : cell) (hn : h[n]? = some x) :
    (h.newl n).2 = h.length ∧ (h.newl n).1.length = h.length + 1 ∧
    (h.newl n).1[n]? = some ⟨x.theta, x.v, x.c, x.p, some h.length, x.r⟩ ∧
    (h.newl n).1[h.length]? = some ⟨0, 0, 0, some n, none, none⟩ ∧
    (∀ y, y < h.length → y ≠ n → (h.newl n).1[y]? = h[y]?) := by
  have hlt := lt_of_getElem?_some hn
  have hne : n ≠ h.length := by omega
  refine ⟨rfl, ?_, ?_, ?_, ?_⟩
  · simp [heap.newl, length_upd, length_alloc]
  · simp [heap.newl, getElem?_upd, alloc_snd, hne, getElem?_alloc_old h n hlt, hn]
  · simp [heap.newl, getElem?_upd, alloc_snd, Ne.symm hne, getElem?_alloc_new]
  · intro y hy hyn
    have hyl : y ≠ h.length := by omega
    simp [heap.newl, getElem?_upd, alloc_snd, hyn, hyl, getElem?_alloc_old h y hy]

theorem newr_spec (h : heap) (n : Nat) (x : cell) (hn : h[n]? = some x) :
    (h.newr n).2 = h.length ∧ (h.newr n).1.length = h.length + 1 ∧
    (h.newr n).1[n]? = some ⟨x.theta, x.v, x.c, x.p, x.l, some h.length⟩ ∧
    (h.newr n).1[h.length]? = some ⟨0, 0, 0, some n, none, none⟩ ∧
    (∀ y, y < h.length → y ≠ n → (h.newr n).1[y]? = h[y]?) := by
  have hlt := lt_of_getElem?_some hn
  have hne : n ≠ h.length := by omega
  refine ⟨rfl, ?_, ?_, ?_, ?_⟩
  · simp [heap.newr, length_upd, length_alloc]
  · simp [heap.newr, getElem?_upd, alloc_snd, hne, getElem?_alloc_old h n hlt, hn]
  · simp [heap.newr, getElem?_upd, alloc_snd, Ne.symm hne, getElem?_alloc_new]
  · intro y hy hyn
    have hyl : y ≠ h.length := by omega
    simp [heap.newr, getElem?_upd, alloc_snd, hyn, hyl, getElem?_alloc_old h y hy]

theorem setvals_spec (h : heap) (n : Nat) (x : cell) (hn : h[n]? = some x) (theta : ℚ)
    (v c : Nat) :
    (h.setvals n theta v c).length = h.length ∧
    (h.setvals n theta v c)[n]? = some ⟨theta, v, c, x.p, x.l, x.r⟩ ∧
    (∀ y, y ≠ n → (h.setvals n theta v c)[y]? = h[y]?) := by
  refine ⟨length_upd _ _ _, ?_, ?_⟩
  · simp [heap.setvals, getElem?_upd, hn]
  · intro y hy
    simp [heap.setvals, getElem?_upd, hy]

/-- `cp` on the memory: called on an object `n` without children, outside the source
tree, it returns; afterwards the memory holds the source tree at `n`, in `n` and
objects allocated during the call; every other object that existed before is as it
was. -/
theorem cpH_spec : ∀ (s : tree) (fuel : Nat) (h : heap) (n o : Nat) (po : Option Nat)
    (fo : List Nat) (cn : cell),
    s.height < fuel → repr h o po s fo → h[n]? = some cn → cn.l = none → cn.r = none →
    n ∉ fo →
    ∃ h2 fn, cpH fuel h n o = some h2 ∧ repr h2 n cn.p s fn ∧ h.length ≤ h2.length ∧
      (∀ x, x < h.length → x ≠ n → h2[x]? = h[x]?) ∧ (∀ x ∈ fn, x = n ∨ h.length ≤ x) ∧
      fn.Nodup := by
  intro s
  induction s with
  | bot theta v c =>
    intro fuel h n o po fo cn hf hr hn hl hrn _
    obtain ⟨_, ho⟩ := hr
    cases fuel with
    | zero => omega
    | succ fuel =>
      obtain ⟨e1, e2, e3⟩ := setvals_spec h n cn hn theta v c
      refine ⟨h.setvals n theta v c, [n], ?_, ⟨rfl, ?_⟩, by omega, fun x _ hx => e3 x hx, by simp,
        by simp⟩
      · simp only [cpH, hn, ho, hl]
      · rw [e2, hl, hrn]
  | node theta v c l r ihl ihr =>
    intro fuel h n o po fo cn hf hr hn hl hrn hno
    obtain ⟨ol, or_, fl, fr, hfo, ho, hrl, hrr⟩ := hr
    cases fuel with
    | zero => omega
    | succ fuel =>
      simp only [tree.height] at hf
      have hnlt : n < h.length := lt_of_getElem?_some hn
      have hflt := repr_lt h l ol _ fl hrl
      have hfrt := repr_lt h r or_ _ fr hrr
      have hnfl : ∀ x ∈ fl, x ≠ n := fun x hx e => hno (by simp [hfo, ← e, hx])
      have hnfr : ∀ x ∈ fr, x ≠ n := fun x hx e => hno (by simp [hfo, ← e, hx])
      -- the fields are copied
      obtain ⟨e1, e2, e3⟩ := setvals_spec h n cn hn theta v c
      rw [hl, hrn] at e2
      -- the left child is allocated
      obtain ⟨a1, a2, a3, a4, a5⟩ := newl_spec (h.setvals n theta v c) n _ e2
      rw [e1] at a1 a2 a4 a5
      simp only [e1] at a3
      have hold2 : ∀ x, x < h.length → x ≠ n →
          ((h.setvals n theta v c).newl n).1[x]? = h[x]? :=
        fun x hx hxn => (a5 x hx hxn).trans (e3 x hxn)
      obtain ⟨h3, fnl, c1, r1, l1, f1, m1, nd1⟩ := ihl fuel ((h.setvals n theta v c).newl n).1
        h.length ol (some o) fl ⟨0, 0, 0, some n, none, none⟩ (by omega)
        (repr_frame h _ l ol _ fl hrl (fun x hx => hold2 x (hflt x hx) (hnfl x hx)))
        a4 rfl rfl (fun hx => absurd (hflt _ hx) (lt_irrefl _))
      rw [a2] at l1 f1 m1
      -- the right child is allocated
      have h3n : h3[n]? = some ⟨theta, v, c, cn.p, some h.length, none⟩ := by
        rw [f1 n (by omega) (by omega), a3]
      obtain ⟨b1, b2, b3, b4, b5⟩ := newr_spec h3 n _ h3n
      have hold4 : ∀ x, x < h.length → x ≠ n → (h3.newr n).1[x]? = h[x]? := by
        intro x hx hxn
        rw [b5 x (by omega) hxn, f1 x (by omega) (by omega), hold2 x hx hxn]
      obtain ⟨h5, fnr, c2, r2, l2, f2, m2, nd2⟩ := ihr fuel (h3.newr n).1 h3.length or_ (some o) fr
        ⟨0, 0, 0, some n, none, none⟩ (by omega)
        (repr_frame h _ r or_ _ fr hrr (fun x hx => hold4 x (hfrt x hx) (hnfr x hx)))
        b4 rfl rfl (fun hx => absurd (hfrt _ hx) (by omega))
      rw [b2] at l2 f2 m2
      refine ⟨h5, n :: (fnl ++ fnr), ?_, ?_, by omega, ?_, ?_, ?_⟩
      · simp only [cpH, hn, ho, hl, a1, c1, b1, c2]
      · refine ⟨h.length, h3.length, fnl, fnr, rfl, ?_, ?_, r2⟩
        · rw [f2 n (by omega) (by omega), b3]
        · refine repr_frame h3 h5 l h.length _ fnl r1 (fun x hx => ?_)
          have hx3 := repr_lt h3 l h.length _ fnl r1 x hx
          have hxn : x ≠ n := by
            rcases m1 x hx with e | e <;> omega
          rw [f2 x (by omega) (by omega), b5 x hx3 hxn]
      · intro x hx hxn
        rw [f2 x (by omega) (by omega), hold4 x hx hxn]
      · intro x hx
        simp only [List.mem_cons, List.mem_append] at hx
        rcases hx with hx | hx | hx
        · exact Or.inl hx
        · rcases m1 x hx with e | e <;> right <;> omega
        · rcases m2 x hx with e | e <;> right <;> omega
      · rw [List.nodup_cons, List.nodup_append]
        refine ⟨?_, nd1, nd2, ?_⟩
        · intro hx
          simp only [List.mem_append] at hx
          rcases hx with hx | hx
          · rcases m1 n hx with e | e <;> omega
          · rcases m2 n hx with e | e <;> omega
        · intro x hx1 hx2
          have hx3 := repr_lt h3 l h.length _ fnl r1 x hx1
          rcases m2 x hx2 with e | e <;> omega

/-- The pointer that `getptr` returns on the memory is a node of the tree it is
called on. -/
theorem getptrH_mem : ∀ (t : tree) (fuel : Nat) (h : heap) (a : Nat) (par : Option Nat)
    (fp : List Nat) (k np : Nat),
    repr h a par t fp → getptrH fuel h a k = some (some np) → np ∈ fp := by
  intro t
  induction t with
  | bot theta v c =>
    intro fuel h a par fp k np hr hg
    obtain ⟨hfp, ha⟩ := hr
    cases fuel with
    | zero => simp [getptrH] at hg
    | succ fuel =>
      cases hid : nidH (fuel + 1) h a with
      | none => simp [getptrH, hid] at hg
      | some id =>
        simp only [getptrH, hid, ha] at hg
        split_ifs at hg with hk
        · simp only [Option.some.injEq] at hg
          subst hg
          simp [hfp]
        · simp at hg
  | node theta v c l r ihl ihr =>
    intro fuel h a par fp k np hr hg
    obtain ⟨al, ar, fl, fr, hfp, ha, hl, hr2⟩ := hr
    cases fuel with
    | zero => simp [getptrH] at hg
    | succ fuel =>
      cases hid : nidH (fuel + 1) h a with
      | none => simp [getptrH, hid] at hg
      | some id =>
        simp only [getptrH, hid, ha] at hg
        split_ifs at hg with hk
        · simp only [Option.some.injEq] at hg
          subst hg
          simp [hfp]
        · cases hgl : getptrH fuel h al k with
          | none => simp [hgl] at hg
          | some res =>
            cases res with
            | some lp =>
              simp only [hgl, Option.some.injEq] at hg
              subst hg
              have := ihl fuel h al _ fl k lp hl hgl
              simp [hfp, this]
            | none =>
              simp only [hgl] at hg
              have := ihr fuel h ar _ fr k np hr2 hg
              simp [hfp, this]

/-- On the memory, `birth` called on a tree writes only to objects of that tree and
to objects it allocates. -/
theorem birthH_frame (t : tree) (fuel : Nat) (h : heap) (root : Nat) (par : Option Nat)
    (fp : List Nat) (k v c : Nat) (thetal thetar : ℚ) (b : Bool) (h2 : heap)
    (hr : repr h root par t fp) (hb : birthH fuel h root k v c thetal thetar = some (b, h2)) :
    ∀ x, x < h.length → x ∉ fp → h2[x]? = h[x]? := by
  intro x hx hxfp
  unfold birthH at hb
  cases hg : getptrH fuel h root k with
  | none => simp [hg] at hb
  | some res =>
    cases res with
    | none =>
      simp only [hg, Option.some.injEq, Prod.mk.injEq] at hb
      rw [← hb.2]
    | some np =>
      have hnp := getptrH_mem t fuel h root par fp k np hr hg
      have hxnp : x ≠ np := fun e => hxfp (e ▸ hnp)
      cases hc : h[np]? with
      | none => simp [hg, hc] at hb
      | some y =>
        cases hyl : y.l with
        | some z =>
          simp only [hg, hc, hyl, Option.some.injEq, Prod.mk.injEq] at hb
          rw [← hb.2]
        | none =>
          simp only [hg, hc, hyl, Option.some.injEq, Prod.mk.injEq] at hb
          rw [← hb.2]
          have hx1 : x ≠ h.length := by omega
          have hx2 : x ≠ h.length + 1 := by omega
          have hx3 : x < h.length + 1 := by omega
          simp only [getElem?_upd, alloc_snd, length_upd, length_alloc, hxnp, hx1, hx2,
            if_false]
          rw [getElem?_alloc_old _ x (by rw [length_upd, length_alloc]; exact hx3)]
          simp only [getElem?_upd, alloc_snd, hx1, if_false]
          exact getElem?_alloc_old h x hx

/-- On the memory, `death` called on a tree writes only to an object of that tree. -/
theorem deathH_frame (t : tree) (fuel : Nat) (h : heap) (root : Nat) (par : Option Nat)
    (fp : List Nat) (k : Nat) (theta : ℚ) (b : Bool) (h2 : heap)
    (hr : repr h root par t fp) (hb : deathH fuel h root k theta = some (b, h2)) :
    ∀ x, x ∉ fp → h2[x]? = h[x]? := by
  intro x hxfp
  unfold deathH at hb
  cases hg : getptrH fuel h root k with
  | none => simp [hg] at hb
  | some res =>
    cases res with
    | none =>
      simp only [hg, Option.some.injEq, Prod.mk.injEq] at hb
      rw [← hb.2]
    | some nb =>
      have hnb := getptrH_mem t fuel h root par fp k nb hr hg
      have hxnb : x ≠ nb := fun e => hxfp (e ▸ hnb)
      cases hn : isnogH h nb with
      | none => simp [hg, hn] at hb
      | some flag =>
        cases flag with
        | false =>
          simp only [hg, hn, Option.some.injEq, Prod.mk.injEq] at hb
          rw [← hb.2]
        | true =>
          simp only [hg, hn, Option.some.injEq, Prod.mk.injEq] at hb
          rw [← hb.2, getElem?_upd, if_neg hxnb]

/-! ## Memory: the calls return -/

theorem repr_root (h : heap) (t : tree) (a : Nat) (par : Option Nat) (fp : List Nat)
    (hr : repr h a par t fp) : ∃ x, h[a]? = some x ∧ x.p = par := by
  cases t with
  | bot theta v c => obtain ⟨_, ha⟩ := hr; exact ⟨_, ha, rfl⟩
  | node theta v c l r => obtain ⟨_, _, _, _, _, ha, _⟩ := hr; exact ⟨_, ha, rfl⟩

theorem nidH_succ : ∀ (f : Nat) (h : heap) (a k : Nat),
    nidH f h a = some k → nidH (f + 1) h a = some k := by
  intro f
  induction f with
  | zero => intro h a k hk; simp [nidH] at hk
  | succ f ih =>
    intro h a k hk
    rw [nidH] at hk ⊢
    cases ha : h[a]? with
    | none => simp [ha] at hk
    | some x =>
      simp only [ha] at hk ⊢
      cases hp : x.p with
      | none => simpa [hp] using hk
      | some pa =>
        simp only [hp] at hk ⊢
        cases hy : h[pa]? with
        | none => simp [hy] at hk
        | some y =>
          cases hn : nidH f h pa with
          | none => simp [hy, hn] at hk
          | some j =>
            simp only [hy, hn] at hk
            simp only [hy, ih h pa j hn]
            exact hk

theorem nidH_mono (h : heap) (a k : Nat) : ∀ (f g : Nat), f ≤ g →
    nidH f h a = some k → nidH g h a = some k := by
  intro f g hfg
  induction hfg with
  | refl => exact id
  | step _ ih => exact fun hk => nidH_succ _ h a k (ih hk)

/-- Below a node whose id can be computed, `getptr` on the memory returns. -/
theorem getptrH_total : ∀ (t : tree) (fuel : Nat) (h : heap) (a : Nat) (par : Option Nat)
    (fp : List Nat) (k g : Nat),
    repr h a par t fp → (∃ id, nidH g h a = some id) → g + 2 * t.height ≤ fuel →
    ∃ res, getptrH fuel h a k = some res := by
  intro t
  induction t with
  | bot theta v c =>
    intro fuel h a par fp k g hr hid hg
    obtain ⟨id, hid⟩ := hid
    obtain ⟨_, ha⟩ := hr
    cases fuel with
    | zero =>
      have : g = 0 := by omega
      subst this
      simp [nidH] at hid
    | succ fuel =>
      have hid2 := nidH_mono h a id g (fuel + 1) (by simp only [tree.height] at hg; omega) hid
      simp only [getptrH, hid2, ha]
      split_ifs
      · exact ⟨_, rfl⟩
      · exact ⟨_, rfl⟩
  | node theta v c l r ihl ihr =>
    intro fuel h a par fp k g hr hid hg
    obtain ⟨id, hid⟩ := hid
    obtain ⟨al, ar, fl, fr, _, ha, hl, hr2⟩ := hr
    simp only [tree.height] at hg
    have hml : l.height ≤ max l.height r.height := le_max_left _ _
    have hmr : r.height ≤ max l.height r.height := le_max_right _ _
    cases fuel with
    | zero => omega
    | succ fuel =>
      have hid2 := nidH_mono h a id g (fuel + 1) (by omega) hid
      have hchild : ∀ (s : tree) (b : Nat) (fb : List Nat), repr h b (some a) s fb →
          ∃ j, nidH (g + 1) h b = some j := by
        intro s b fb hs
        obtain ⟨x, hx, hxp⟩ := repr_root h s b _ fb hs
        simp only [nidH, hx, hxp, ha, hid]
        split_ifs
        · exact ⟨_, rfl⟩
        · exact ⟨_, rfl⟩
      simp only [getptrH, hid2, ha]
      split_ifs
      · exact ⟨_, rfl⟩
      · obtain ⟨res, hres⟩ := ihl fuel h al _ fl k (g + 1) hl (hchild l al fl hl) (by omega)
        cases res with
        | some lp => exact ⟨some lp, by simp only [hres]⟩
        | none =>
          obtain ⟨res2, hres2⟩ := ihr fuel h ar _ fr k (g + 1) hr2 (hchild r ar fr hr2) (by omega)
          exact ⟨res2, by simp only [hres, hres2]⟩

theorem nidH_root (h : heap) (t : tree) (a : Nat) (fp : List Nat) (hr : repr h a none t fp) :
    ∃ id, nidH 1 h a = some id := by
  obtain ⟨x, hx, hxp⟩ := repr_root h t a none fp hr
  exact ⟨1, by simp [nidH, hx, hxp]⟩

theorem getElem?_of_repr_mem (h : heap) (t : tree) (a : Nat) (par : Option Nat) (fp : List Nat)
    (hr : repr h a par t fp) (x : Nat) (hx : x ∈ fp) : ∃ y, h[x]? = some y :=
  ⟨_, List.getElem?_eq_getElem (repr_lt h t a par fp hr x hx)⟩

/-- On the memory, `birth` called on the root of a tree returns. -/
theorem birthH_total (t : tree) (fuel : Nat) (h : heap) (root : Nat) (fp : List Nat)
    (k v c : Nat) (thetal thetar : ℚ) (hr : repr h root none t fp) (hf : 2 * t.height < fuel) :
    ∃ b h2, birthH fuel h root k v c thetal thetar = some (b, h2) := by
  obtain ⟨res, hres⟩ := getptrH_total t fuel h root none fp k 1 hr (nidH_root h t root fp hr)
    (by omega)
  unfold birthH
  cases res with
  | none => simp only [hres]; exact ⟨_, _, rfl⟩
  | some np =>
    obtain ⟨y, hy⟩ := getElem?_of_repr_mem h t root none fp hr np
      (getptrH_mem t fuel h root none fp k np hr hres)
    cases hyl : y.l with
    | none => simp only [hres, hy, hyl]; exact ⟨_, _, rfl⟩
    | some z => simp only [hres, hy, hyl]; exact ⟨_, _, rfl⟩

theorem isnogH_total (h : heap) : ∀ (t : tree) (a : Nat) (par : Option Nat) (fp : List Nat),
    repr h a par t fp → ∀ x ∈ fp, ∃ b, isnogH h x = some b := by
  intro t
  induction t with
  | bot theta v c =>
    intro a par fp hr x hx
    obtain ⟨hfp, ha⟩ := hr
    rw [hfp] at hx
    simp only [List.mem_singleton] at hx
    subst hx
    exact ⟨false, by simp [isnogH, ha]⟩
  | node theta v c l r ihl ihr =>
    intro a par fp hr x hx
    obtain ⟨al, ar, fl, fr, hfp, ha, hl, hr2⟩ := hr
    rw [hfp] at hx
    simp only [List.mem_cons, List.mem_append] at hx
    rcases hx with hx | hx | hx
    · subst hx
      obtain ⟨y, hy, _⟩ := repr_root h l al _ fl hl
      obtain ⟨z, hz, _⟩ := repr_root h r ar _ fr hr2
      simp only [isnogH, ha, hy, hz]
      cases y.l with
      | none => exact ⟨_, rfl⟩
      | some w => exact ⟨_, rfl⟩
    · exact ihl al _ fl hl x hx
    · exact ihr ar _ fr hr2 x hx

/-- On the memory, `death` called on the root of a tree returns. -/
theorem deathH_total (t : tree) (fuel : Nat) (h : heap) (root : Nat) (fp : List Nat)
    (k : Nat) (theta : ℚ) (hr : repr h root none t fp) (hf : 2 * t.height < fuel) :
    ∃ b h2, deathH fuel h root k theta = some (b, h2) := by
  obtain ⟨res, hres⟩ := getptrH_total t fuel h root none fp k 1 hr (nidH_root h t root fp hr)
    (by omega)
  unfold deathH
  cases res with
  | none => simp only [hres]; exact ⟨_, _, rfl⟩
  | some nb =>
    obtain ⟨b, hb⟩ := isnogH_total h t root none fp hr nb
      (getptrH_mem t fuel h root none fp k nb hr hres)
    cases b with
    | true => simp only [hres, hb]; exact ⟨_, _, rfl⟩
    | false => simp only [hres, hb]; exact ⟨_, _, rfl⟩

/-! ## Copies -/

/-- C8. The tree produced from a source `s` by copy construction, or by assignment to
any target, is `s` again: the same shape and the same `theta`, `v`, `c` at every node,
so `bn` reaches a bottom node with the same pointer, node id and leaf value. On the
memory, `cp` called on an object `n` without children (as both callers do) builds the
copy in `n` and in objects it allocates, none of them an object of the source; the
source is still held unchanged, and stays so after any later `birth` or `death` called
on the copy (calls that do return). -/
theorem copy_contract (s : tree) :
    s.copy = s ∧
    (∀ (lhs : tree) (fuel : Nat), lhs.treesize ≤ fuel + 1 → lhs.assign fuel s = some s) ∧
    (∀ q, s.copy.sub q = s.sub q ∧ s.copy.fields q = s.fields q ∧
      nid (s.copy.links q) = nid (s.links q)) ∧
    (∀ x xi, s.copy.bn x xi = s.bn x xi ∧ s.copy.route x xi = s.route x xi) ∧
    (∀ (h : heap) (o : Nat) (po : Option Nat) (fo : List Nat) (n : Nat) (cn : cell)
      (fuel : Nat),
      repr h o po s fo → h[n]? = some cn → cn.l = none → cn.r = none → n ∉ fo →
      s.height < fuel →
      ∃ h2 fn, cpH fuel h n o = some h2 ∧ repr h2 n cn.p s fn ∧ repr h2 o po s fo ∧
        (∀ x ∈ fn, x ∉ fo) ∧
        (∀ fuel2 k v c thetal thetar, cn.p = none → 2 * s.height < fuel2 →
          ∃ b h3, birthH fuel2 h2 n k v c thetal thetar = some (b, h3)) ∧
        (∀ fuel2 k v c thetal thetar b h3,
          birthH fuel2 h2 n k v c thetal thetar = some (b, h3) → repr h3 o po s fo) ∧
        (∀ fuel2 k theta, cn.p = none → 2 * s.height < fuel2 →
          ∃ b h3, deathH fuel2 h2 n k theta = some (b, h3)) ∧
        (∀ fuel2 k theta b h3,
          deathH fuel2 h2 n k theta = some (b, h3) → repr h3 o po s fo)) := by
  have hcopy : s.copy = s := cp_bot s 0 0 0
  refine ⟨hcopy, fun lhs fuel hf => assign_eq fuel lhs s hf, fun q => by rw [hcopy]; simp,
    fun x xi => by rw [hcopy]; simp, ?_⟩
  intro h o po fo n cn fuel hr hn hl hrn hno hf
  obtain ⟨h2, fn, c1, r1, l1, f1, m1, _⟩ := cpH_spec s fuel h n o po fo cn hf hr hn hl hrn hno
  have hfo := repr_lt h s o po fo hr
  have hdisj : ∀ x ∈ fn, x ∉ fo := by
    intro x hx hxo
    rcases m1 x hx with e | e
    · exact hno (e ▸ hxo)
    · have := hfo x hxo
      omega
  have hsrc : repr h2 o po s fo :=
    repr_frame h h2 s o po fo hr (fun x hx => f1 x (hfo x hx) (fun e => hno (e ▸ hx)))
  have hfo2 := repr_lt h2 s o po fo hsrc
  refine ⟨h2, fn, c1, r1, hsrc, hdisj, ?_, ?_, ?_, ?_⟩
  · intro fuel2 k v c thetal thetar hp hf2
    rw [hp] at r1
    exact birthH_total s fuel2 h2 n fn k v c thetal thetar r1 hf2
  · intro fuel2 k v c thetal thetar b h3 hb
    have hfr := birthH_frame s fuel2 h2 n cn.p fn k v c thetal thetar b h3 r1 hb
    exact repr_frame h2 h3 s o po fo hsrc
      (fun x hx => hfr x (hfo2 x hx) (fun hxn => hdisj x hxn hx))
  · intro fuel2 k theta hp hf2
    rw [hp] at r1
    exact deathH_total s fuel2 h2 n fn k theta r1 hf2
  · intro fuel2 k theta b h3 hb
    have hfr := deathH_frame s fuel2 h2 n cn.p fn k theta b h3 r1 hb
    exact repr_frame h2 h3 s o po fo hsrc (fun x hx => hfr x (fun hxn => hdisj x hxn hx))

/-- C8, instance: the scenario tree held at address 0 of a memory whose address 3 holds
a fresh default object; after `cp(3, 0)` a birth at node 3 of the copy leaves the
source as it was, and an assignment to a tree of five nodes yields the scenario tree. -/
theorem copy_contract_witness :
    repr (scen_heap ++ [⟨0, 0, 0, none, none, none⟩]) 0 none scen_tree [0, 1, 2] ∧
    (tree.node 1 0 0 scen_tree (tree.bot 2 0 0)).assign 4 scen_tree = some scen_tree ∧
    ∃ h2 fn b h3, cpH 2 (scen_heap ++ [⟨0, 0, 0, none, none, none⟩]) 3 0 = some h2 ∧
      repr h2 3 none scen_tree fn ∧
      birthH 3 h2 3 3 0 2 21 22 = some (b, h3) ∧ repr h3 0 none scen_tree [0, 1, 2] := by
  have hr : repr (scen_heap ++ [⟨0, 0, 0, none, none, none⟩]) 0 none scen_tree [0, 1, 2] :=
    ⟨1, 2, [1], [2], rfl, rfl, ⟨rfl, rfl⟩, ⟨rfl, rfl⟩⟩
  obtain ⟨_, hassign, _, _, hheap⟩ := copy_contract scen_tree
  refine ⟨hr, hassign _ 4 (by decide), ?_⟩
  obtain ⟨h2, fn, c1, r1, _, _, b1, b2, _, _⟩ := hheap
    (scen_heap ++ [⟨0, 0, 0, none, none, none⟩]) 0 none [0, 1, 2] 3 ⟨0, 0, 0, none, none, none⟩ 2
    hr rfl rfl rfl (by decide) (by decide)
  obtain ⟨b, h3, hb⟩ := b1 3 3 0 2 21 22 rfl (by decide)
  exact ⟨h2, fn, b, h3, c1, r1, hb, b2 3 3 0 2 21 22 b h3 hb⟩

/-! ## The grown scenario tree -/

/-- C11 as stated fails: in the scenario after `birth(3, 0, 2, 21, 22)`, the new right
child (node id 7, leaf value 22) has the range `L = 3`, `U = 2` for variable 0, which
is not `[2, 2]`. -/
theorem rg_scenario_fails :
    nid (scen_grown.links [true, true]) = 7 ∧
    scen_grown.thetaAt [true, true] = some 22 ∧
    rg 0 (scen_grown.links [true, true]) (0, 2) = (3, 2) ∧
    rg 0 (scen_grown.links [true, true]) (0, 2) ≠ (2, 2) := by
  refine ⟨by decide, by rfl, by decide, by decide⟩

/-- C11 (amended). In the scenario after `birth(3, 0, 2, 21, 22)`, the range that `rg`
computes for variable 0 from `L = 0`, `U = 2` is `[2, 2]` at the grown node itself (node
id 3), is `L = 3`, `U = 2` (empty) at the new right child (node id 7, value 22), and is
`L = 2`, `U = 1` (empty) at the new left child (node id 6, value 21). -/
theorem rg_scenario :
    scen_grown = tree.node 0 0 1 (tree.bot 10 0 0)
      (tree.node 20 0 2 (tree.bot 21 0 0) (tree.bot 22 0 0)) ∧
    nid (scen_grown.links [true]) = 3 ∧
    rg 0 (scen_grown.links [true]) (0, 2) = (2, 2) ∧
    nid (scen_grown.links [true, true]) = 7 ∧
    scen_grown.thetaAt [true, true] = some 22 ∧
    rg 0 (scen_grown.links [true, true]) (0, 2) = (3, 2) ∧
    nid (scen_grown.links [true, false]) = 6 ∧
    scen_grown.thetaAt [true, false] = some 21 ∧
    rg 0 (scen_grown.links [true, false]) (0, 2) = (2, 1) := by
  refine ⟨by rfl, by decide, by decide, by decide, by rfl, by decide, by decide, by rfl,
    by decide⟩

/-! ## `birth` and the admissible range -/

/-- C12 as stated fails: in the grown scenario tree the leaf with id 7 has an empty range
for variable 0 (`L = 3`, `U = 2`), yet `birth(7, 0, 2, 1, 2)` returns true and changes the
tree. -/
theorem birth_empty_range_fails :
    (∃ np th v0 c0, scen_grown.getptr [] 7 = some np ∧
      scen_grown.sub np = some (tree.bot th v0 c0) ∧
      (rg 0 (scen_grown.links np) (0, toInt (pred64 3))).2
        < (rg 0 (scen_grown.links np) (0, toInt (pred64 3))).1) ∧
    (scen_grown.birth 7 0 2 1 2).1 = true ∧
    (scen_grown.birth 7 0 2 1 2).2 ≠ scen_grown := by
  refine ⟨⟨[true, true], 22, 0, 0, by rfl, by rfl, by decide⟩, by rfl, ?_⟩
  have h1 : (scen_grown.birth 7 0 2 1 2).2 = tree.node 0 0 1 (tree.bot 10 0 0)
      (tree.node 20 0 2 (tree.bot 21 0 0)
        (tree.node 22 0 2 (tree.bot 1 0 0) (tree.bot 2 0 0))) := by rfl
  have h2 : scen_grown = tree.node 0 0 1 (tree.bot 10 0 0)
      (tree.node 20 0 2 (tree.bot 21 0 0) (tree.bot 22 0 0)) := by rfl
  rw [h1, h2]
  simp

/-- C12 (amended). For every tree, every id `k` for which `getptr` finds a leaf, and every
variable `v`, also one whose admissible range at that leaf is empty, `birth(k, v, c,
thetal, thetar)` returns true for every `c`, `thetal`, `thetar` and turns the leaf into a
node with the rule `(v, c)`: `birth` does not consult `rg`. -/
theorem birth_ignores_range (t : tree) (k v c : Nat) (thetal thetar : ℚ) (np : tree_p)
    (th : ℚ) (v0 c0 : Nat) (U0 : Int) (hg : t.getptr [] k = some np)
    (hs : t.sub np = some (tree.bot th v0 c0))
    (_hempty : (rg v (t.links np) (0, U0)).2 < (rg v (t.links np) (0, U0)).1) :
    t.birth k v c thetal thetar
      = (true, t.put np (tree.node th v c (tree.bot thetal 0 0) (tree.bot thetar 0 0))) ∧
    (t.birth k v c thetal thetar).2.sub np
      = some (tree.node th v c (tree.bot thetal 0 0) (tree.bot thetar 0 0)) ∧
    (t.birth k v c thetal thetar).2 ≠ t := by
  have hb : t.birth k v c thetal thetar
      = (true, t.put np (tree.node th v c (tree.bot thetal 0 0) (tree.bot thetar 0 0))) := by
    unfold tree.birth
    simp [hg, hs]
  have hsub := sub_put_self t np (tree.node th v c (tree.bot thetal 0 0) (tree.bot thetar 0 0))
    (by simp [hs])
  refine ⟨hb, by rw [hb]; exact hsub, ?_⟩
  rw [hb]
  intro heq
  simp only at heq
  rw [heq, hs] at hsub
  simp at hsub

/-- C12, instance: the leaf with id 7 of the grown scenario tree, whose range for
variable 0 is empty. -/
theorem birth_ignores_range_witness :
    (rg 0 (scen_grown.links [true, true]) (0, 2)).2
      < (rg 0 (scen_grown.links [true, true]) (0, 2)).1 ∧
    (scen_grown.birth 7 0 2 1 2).1 = true :=
  ⟨by decide,
    congrArg Prod.fst (birth_ignores_range scen_grown 7 0 2 1 2 [true, true] 22 0 0 2
      (by rfl) (by rfl) (by decide)).1⟩

/-! ## Termination of `tonull` -/

/-- A tree with more than one node has a no-grandchildren node for `getnogs` to collect. -/
theorem getnogs_ne_nil : ∀ t : tree, 1 < t.treesize → t.getnogs ≠ [] := by
  intro t
  induction t with
  | bot theta v c => intro h; simp [tree.treesize] at h
  | node theta v c l r ihl ihr =>
    intro _
    by_cases hg : (!l.isbot || !r.isbot) = true
    · simp only [tree.getnogs, hg, if_true]
      cases l with
      | node tl vl cl ll lr =>
        have hl := ihl (by have := treesize_pos ll; have := treesize_pos lr
                           simp only [tree.treesize]; omega)
        simp [tree.isbot, hl]
      | bot tl vl cl =>
        cases r with
        | node tr vr cr rl rr =>
          have hr := ihr (by have := treesize_pos rl; have := treesize_pos rr
                             simp only [tree.treesize]; omega)
          simp [tree.isbot, hr]
        | bot tr vr cr => simp [tree.isbot] at hg
    · simp [tree.getnogs, hg]

/-- Every pointer collected by `getnogs` designates a no-grandchildren node. -/
theorem getnogs_isnog : ∀ (t : tree) (q : tree_p), q ∈ t.getnogs →
    ∃ s, t.sub q = some s ∧ s.isnog = true := by
  intro t
  induction t with
  | bot theta v c => intro q hq; simp [tree.getnogs] at hq
  | node theta v c l r ihl ihr =>
    intro q hq
    by_cases hg : (!l.isbot || !r.isbot) = true
    · simp only [tree.getnogs, hg, if_true, List.mem_append] at hq
      rcases hq with hq | hq
      · split_ifs at hq with hl
        · simp only [List.mem_map] at hq
          obtain ⟨q2, hq2, rfl⟩ := hq
          simpa [tree.sub] using ihl q2 hq2
        · simp at hq
      · split_ifs at hq with hr
        · simp only [List.mem_map] at hq
          obtain ⟨q2, hq2, rfl⟩ := hq
          simpa [tree.sub] using ihr q2 hq2
        · simp at hq
    · have hg2 : (!l.isbot || !r.isbot) = false := by simpa using hg
      simp only [tree.getnogs, hg2, Bool.false_eq_true, if_false, List.mem_singleton] at hq
      subst hq
      exact ⟨_, rfl, by simp only [tree.isnog, hg2, Bool.false_eq_true, if_false]⟩

/-- C14. For every tree: when `treesize() > 1`, `getnogs` returns a non-empty list of
no-grandchildren nodes and the pass of the `for` loop over them strictly decreases
`treesize()`; so the `while` loop of `tonull` ends after at most `treesize() - 1` passes
with `treesize() == 1`, and `tonull` leaves a single leaf with `theta = 0`, `v = 0`,
`c = 0` and no children. -/
theorem tonull_terminates (t : tree) :
    (1 < t.treesize → t.getnogs ≠ [] ∧
      (∀ q ∈ t.getnogs, ∃ s, t.sub q = some s ∧ s.isnog = true) ∧
      (t.getnogs.foldl tree.dropkids t).treesize < t.treesize) ∧
    (∀ fuel, t.treesize ≤ fuel + 1 →
      (∃ s, tree.tonullLoop fuel t = some s ∧ s.treesize = 1) ∧
      t.tonull fuel = some (tree.bot 0 0 0)) ∧
    (tree.bot 0 0 0).treesize = 1 := by
  refine ⟨fun h => ⟨getnogs_ne_nil t h, getnogs_isnog t, ?_⟩,
    fun fuel hf => ⟨tonullLoop_total fuel t hf, tonull_total fuel t hf⟩, rfl⟩
  rw [foldl_dropkids_getnogs]
  exact treesize_cutnogs_lt t h

/-- C14, instance: the grown scenario tree (5 nodes) is cleared within 4 passes; its
first pass collects the node with id 3. -/
theorem tonull_terminates_witness :
    scen_grown.treesize = 5 ∧ scen_grown.getnogs = [[true]] ∧
    (scen_grown.getnogs.foldl tree.dropkids scen_grown).treesize < scen_grown.treesize ∧
    scen_grown.tonull 4 = some (tree.bot 0 0 0) :=
  ⟨by rfl, by rfl, ((tonull_terminates scen_grown).1 (by decide)).2.2,
    ((tonull_terminates scen_grown).2.1 4 (by decide)).2⟩

/-! ## `getptr` is the inverse of `nid` -/

/-- C20. In a tree of depth less than 64, node ids are unique, `getptr` called on the
root with the id of a node returns that node, and `getptr` returns null for every id
that is not the id of a node of the tree. -/
theorem getptr_inverse (t : tree) (h : t.height < 64) :
    (∀ p q, (t.sub p).isSome → (t.sub q).isSome → nid (t.links p) = nid (t.links q) → p = q) ∧
    (∀ p, (t.sub p).isSome → t.getptr [] (nid (t.links p)) = some p) ∧
    (∀ k, (∀ p, (t.sub p).isSome → nid (t.links p) ≠ k) → t.getptr [] k = none) := by
  have hfind : ∀ p k, (t.sub p).isSome → nid (t.links p) = k → t.getptr [] k = some p :=
    fun p k hp hk => getptr_complete t [] k p (by simpa using h) hp hk
  refine ⟨fun p q hp hq hpq => ?_, fun p hp => hfind p _ hp rfl, fun k hk => ?_⟩
  · have h1 := hfind p _ hp rfl
    have h2 := hfind q _ hq hpq.symm
    rw [h1] at h2
    exact Option.some.inj h2
  · cases hg : t.getptr [] k with
    | none => rfl
    | some q =>
      obtain ⟨hq, hqk⟩ := getptr_sound t [] k q hg
      exact absurd hqk (hk q hq)

/-- C20, instance: in the grown scenario tree `getptr(7)` returns the node reached by two
right steps, and `getptr(4)` returns null. -/
theorem getptr_inverse_witness :
    scen_grown.height < 64 ∧ scen_grown.getptr [] 7 = some [true, true] ∧
    scen_grown.getptr [] 4 = none := by
  have h : scen_grown.height < 64 := by decide
  refine ⟨h, (getptr_inverse scen_grown h).2.1 [true, true] (by rfl), by rfl⟩

/-! ## Collectors and counters -/

theorem before_irrefl : ∀ p : tree_p, before p p = false := by
  intro p
  induction p with
  | nil => rfl
  | cons d p ih => simp [before, ih]

theorem mem_getbots : ∀ (t : tree) (p : tree_p),
    p ∈ t.getbots ↔ ∃ theta v c, t.sub p = some (tree.bot theta v c) := by
  intro t
  induction t with
  | bot theta v c =>
    intro p
    cases p with
    | nil => simp [tree.getbots, tree.sub]
    | cons d p => simp [tree.getbots, tree.sub]
  | node theta v c l r ihl ihr =>
    intro p
    cases p with
    | nil => simp [tree.getbots, tree.sub]
    | cons d p =>
      cases d with
      | false => simp [tree.getbots, tree.sub, ihl p]
      | true => simp [tree.getbots, tree.sub, ihr p]

theorem mem_getnodes : ∀ (t : tree) (p : tree_p), p ∈ t.getnodes ↔ (t.sub p).isSome := by
  intro t
  induction t with
  | bot theta v c =>
    intro p
    cases p with
    | nil => simp [tree.getnodes, tree.sub]
    | cons d p => simp [tree.getnodes, tree.sub]
  | node theta v c l r ihl ihr =>
    intro p
    cases p with
    | nil => simp [tree.getnodes, tree.sub]
    | cons d p =>
      cases d with
      | false => simp [tree.getnodes, tree.sub, ihl p]
      | true => simp [tree.getnodes, tree.sub, ihr p]

/-- Every no-grandchildren node is collected by `getnogs`. -/
theorem mem_getnogs_of_isnog : ∀ (t : tree) (q : tree_p) (s : tree),
    t.sub q = some s → s.isnog = true → q ∈ t.getnogs := by
  intro t
  induction t with
  | bot theta v c =>
    intro q s hs hn
    cases q with
    | nil =>
      simp only [tree.sub, Option.some.injEq] at hs
      subst hs
      simp [tree.isnog] at hn
    | cons d q => simp [tree.sub] at hs
  | node theta v c l r ihl ihr =>
    intro q s hs hn
    cases q with
    | nil =>
      simp only [tree.sub, Option.some.injEq] at hs
      subst hs
      by_cases hg : (!l.isbot || !r.isbot) = true
      · simp [tree.isnog, hg] at hn
      · have hg2 : (!l.isbot || !r.isbot) = false := by simpa using hg
        simp [tree.getnogs, hg2]
    | cons d q =>
      cases d with
      | false =>
        have hs2 : l.sub q = some s := by simpa [tree.sub] using hs
        have hl : l.isbot = false := by
          cases l with
          | bot tl vl cl =>
            cases q with
            | nil =>
              simp only [tree.sub, Option.some.injEq] at hs2
              subst hs2
              simp [tree.isnog] at hn
            | cons e q => simp [tree.sub] at hs2
          | node tl vl cl ll lr => rfl
        have := ihl q s hs2 hn
        simp [tree.getnogs, hl, this]
      | true =>
        have hs2 : r.sub q = some s := by simpa [tree.sub] using hs
        have hr : r.isbot = false := by
          cases r with
          | bot tr vr cr =>
            cases q with
            | nil =>
              simp only [tree.sub, Option.some.injEq] at hs2
              subst hs2
              simp [tree.isnog] at hn
            | cons e q => simp [tree.sub] at hs2
          | node tr vr cr rl rr => rfl
        have := ihr q s hs2 hn
        simp [tree.getnogs, hr, this]

theorem length_getbots : ∀ t : tree, t.getbots.length = t.nbots := by
  intro t
  induction t with
  | bot theta v c => rfl
  | node theta v c l r ihl ihr => simp [tree.getbots, tree.nbots, ihl, ihr]

theorem length_getnodes : ∀ t : tree, t.getnodes.length = t.treesize := by
  intro t
  induction t with
  | bot theta v c => rfl
  | node theta v c l r ihl ihr =>
    simp only [tree.getnodes, tree.treesize, List.length_cons, List.length_append,
      List.length_map, ihl, ihr]
    omega

theorem length_getnogs : ∀ t : tree, t.getnogs.length = t.nnogs := by
  intro t
  induction t with
  | bot theta v c => rfl
  | node theta v c l r ihl ihr =>
    by_cases hg : (!l.isbot || !r.isbot) = true
    · have hl : (if (!l.isbot) = true then l.getnogs.map (fun q => false :: q) else [])
          = l.getnogs.map (fun q => false :: q) := by
        cases l <;> simp [tree.isbot, tree.getnogs]
      have hr : (if (!r.isbot) = true then r.getnogs.map (fun q => true :: q) else [])
          = r.getnogs.map (fun q => true :: q) := by
        cases r <;> simp [tree.isbot, tree.getnogs]
      simp only [tree.getnogs, tree.nnogs, hg, if_true, hl, hr, List.length_append,
        List.length_map, ihl, ihr]
    · have hg2 : (!l.isbot || !r.isbot) = false := by simpa using hg
      simp [tree.getnogs, tree.nnogs, hg2]

theorem pairwise_before_join (ls rs : List tree_p)
    (hl : ls.Pairwise (fun a b => before a b = true))
    (hr : rs.Pairwise (fun a b => before a b = true)) :
    (ls.map (fun q => false :: q) ++ rs.map (fun q => true :: q)).Pairwise
      (fun a b => before a b = true) := by
  rw [List.pairwise_append]
  refine ⟨?_, ?_, ?_⟩
  · rw [List.pairwise_map]
    exact hl.imp (fun h => by simpa [before] using h)
  · rw [List.pairwise_map]
    exact hr.imp (fun h => by simpa [before] using h)
  · intro a ha b hb
    simp only [List.mem_map] at ha hb
    obtain ⟨a2, _, rfl⟩ := ha
    obtain ⟨b2, _, rfl⟩ := hb
    simp [before]

theorem pairwise_getbots : ∀ t : tree, t.getbots.Pairwise (fun a b => before a b = true) := by
  intro t
  induction t with
  | bot theta v c => simp [tree.getbots]
  | node theta v c l r ihl ihr => exact pairwise_before_join _ _ ihl ihr

theorem pairwise_getnodes : ∀ t : tree, t.getnodes.Pairwise (fun a b => before a b = true) := by
  intro t
  induction t with
  | bot theta v c => simp [tree.getnodes]
  | node theta v c l r ihl ihr =>
    simp only [tree.getnodes]
    rw [List.pairwise_cons]
    refine ⟨?_, pairwise_before_join _ _ ihl ihr⟩
    intro a ha
    simp only [List.mem_append, List.mem_map] at ha
    rcases ha with ⟨a2, _, rfl⟩ | ⟨a2, _, rfl⟩ <;> rfl

/-- C19. For every tree: `getbots` appends exactly `nbots()` nodes, namely every node
without children, in left-to-right order; `getnogs` appends exactly `nnogs()` nodes,
namely every node for which `isnog()` is true; `getnodes` appends exactly `treesize()`
nodes, namely every node of the tree once, in pre-order. -/
theorem collectors_agree (t : tree) :
    (t.getbots.length = t.nbots ∧
      (∀ p, p ∈ t.getbots ↔ ∃ theta v c, t.sub p = some (tree.bot theta v c)) ∧
      t.getbots.Pairwise (fun a b => before a b = true) ∧ t.getbots.Nodup) ∧
    (t.getnogs.length = t.nnogs ∧
      (∀ p, p ∈ t.getnogs ↔ ∃ s, t.sub p = some s ∧ s.isnog = true)) ∧
    (t.getnodes.length = t.treesize ∧
      (∀ p, p ∈ t.getnodes ↔ (t.sub p).isSome) ∧
      t.getnodes.Pairwise (fun a b => before a b = true) ∧ t.getnodes.Nodup) := by
  have hne : ∀ a b : tree_p, before a b = true → a ≠ b := by
    intro a b hab heq
    rw [heq, before_irrefl] at hab
    simp at hab
  refine ⟨⟨length_getbots t, mem_getbots t, pairwise_getbots t, ?_⟩,
    ⟨length_getnogs t, fun p => ⟨getnogs_isnog t p, ?_⟩⟩,
    ⟨length_getnodes t, mem_getnodes t, pairwise_getnodes t, ?_⟩⟩
  · exact (pairwise_getbots t).imp (fun h => hne _ _ h)
  · rintro ⟨s, hs, hn⟩
    exact mem_getnogs_of_isnog t p s hs hn
  · exact (pairwise_getnodes t).imp (fun h => hne _ _ h)

/-- C19, instance: the grown scenario tree. -/
theorem collectors_agree_witness :
    scen_grown.getbots = [[false], [true, false], [true, true]] ∧
    scen_grown.getnogs = [[true]] ∧
    scen_grown.getnodes = [[], [false], [true], [true, false], [true, true]] ∧
    scen_grown.getnodes.length = scen_grown.treesize :=
  ⟨by rfl, by rfl, by rfl, (collectors_agree scen_grown).2.2.1⟩

/-! ## The feature-usage histogram (`tree2count`) -/

theorem incrAt_zero (nvar v : Nat) (hv : v < nvar) :
    incrAt (List.replicate nvar 0) v
      = some ((List.range nvar).map (fun u => if v = u then (1 : Int) else 0)) := by
  unfold incrAt
  have h0 : (List.replicate nvar (0 : Int))[v]? = some 0 := by
    simp [List.getElem?_replicate, hv]
  simp only [h0, Option.some.injEq]
  apply List.ext_getElem?
  intro n
  by_cases hn : n < nvar
  · by_cases hvn : v = n
    · subst hvn
      simp [List.getElem?_set, hn, List.getElem?_range hn]
    · simp [List.getElem?_set, hvn, hn, List.getElem?_replicate, List.getElem?_range hn]
  · have h1 : ((List.replicate nvar (0 : Int)).set v (0 + 1))[n]? = none := by
      rw [List.getElem?_eq_none]
      simp; omega
    have h2 : ((List.range nvar).map (fun u => if v = u then (1 : Int) else 0))[n]? = none := by
      rw [List.getElem?_eq_none]
      simp; omega
    rw [h1, h2]

theorem vecAdd_map (nvar : Nat) (f g : Nat → Int) :
    vecAdd ((List.range nvar).map f) ((List.range nvar).map g)
      = (List.range nvar).map (fun u => f u + g u) := by
  unfold vecAdd
  rw [List.zipWith_map, List.zipWith_same]

theorem splits_bot_of_isbot (u : Nat) (t : tree) (h : (!t.isbot) = false) : t.splits u = 0 := by
  cases t with
  | bot theta v c => rfl
  | node theta v c l r => simp [tree.isbot] at h

/-- What `tree2count` returns: entry `u` is the number of nodes with children that split
on `u`. -/
theorem tree2count_eq (nvar : Nat) : ∀ t : tree, t.varsBelow nvar →
    t.tree2count nvar = some ((List.range nvar).map (fun u => (t.splits u : Int))) := by
  intro t
  induction t with
  | bot theta v c =>
    intro _
    simp only [tree.tree2count, tree.splits, Option.some.injEq]
    apply List.ext_getElem?
    intro n
    by_cases hn : n < nvar
    · simp [List.getElem?_replicate, hn, List.getElem?_range hn]
    · have h1 : (List.replicate nvar (0 : Int))[n]? = none := by
        rw [List.getElem?_eq_none]; simp; omega
      have h2 : ((List.range nvar).map (fun _ => ((0 : Nat) : Int)))[n]? = none := by
        rw [List.getElem?_eq_none]; simp; omega
      rw [h1, h2]
  | node theta v c l r ihl ihr =>
    intro h
    obtain ⟨hv, hl, hr⟩ := h
    simp only [tree.tree2count, incrAt_zero nvar v hv, ihl hl, ihr hr, vecAdd_map]
    have hstep1 : (if (!l.isbot) = true then
          some ((List.range nvar).map (fun u => (if v = u then (1 : Int) else 0) + (l.splits u : Int)))
        else some ((List.range nvar).map (fun u => if v = u then (1 : Int) else 0)))
        = some ((List.range nvar).map
            (fun u => (if v = u then (1 : Int) else 0) + (l.splits u : Int))) := by
      by_cases hb : (!l.isbot) = true
      · rw [if_pos hb]
      · have hb2 : (!l.isbot) = false := by simpa using hb
        rw [if_neg hb]
        simp [splits_bot_of_isbot _ l hb2]
    rw [hstep1]
    simp only [vecAdd_map]
    by_cases hb : (!r.isbot) = true
    · rw [if_pos hb]
      simp only [tree.splits, Option.some.injEq]
      apply List.map_congr_left
      intro u _
      split_ifs <;> push_cast <;> ring
    · have hb2 : (!r.isbot) = false := by simpa using hb
      rw [if_neg hb]
      simp only [tree.splits, Option.some.injEq, splits_bot_of_isbot _ r hb2]
      apply List.map_congr_left
      intro u _
      split_ifs <;> push_cast <;> ring

theorem sum_range_ite (v : Nat) : ∀ n : Nat, v < n →
    ((List.range n).map (fun u => if v = u then (1 : Int) else 0)).sum = 1 := by
  intro n
  induction n with
  | zero => intro h; omega
  | succ n ih =>
    intro h
    rw [List.range_succ, List.map_append, List.sum_append]
    by_cases hvn : v = n
    · subst hvn
      have hz : ((List.range v).map (fun u => if v = u then (1 : Int) else 0)).sum = 0 := by
        apply List.sum_eq_zero
        intro x hx
        simp only [List.mem_map, List.mem_range] at hx
        obtain ⟨u, hu, rfl⟩ := hx
        rw [if_neg (by omega)]
      simp [hz]
    · rw [ih (by omega)]
      simp [hvn]

theorem sum_range_zero (n : Nat) : ((List.range n).map (fun _ => (0 : Int))).sum = 0 := by
  apply List.sum_eq_zero
  intro x hx
  simp only [List.mem_map] at hx
  obtain ⟨_, _, rfl⟩ := hx
  rfl

theorem sum_range_add (n : Nat) (f g : Nat → Int) :
    ((List.range n).map (fun u => f u + g u)).sum
      = ((List.range n).map f).sum + ((List.range n).map g).sum := by
  induction n with
  | zero => simp
  | succ n ih =>
    simp only [List.range_succ, List.map_append, List.sum_append, ih, List.map_cons,
      List.map_nil, List.sum_cons, List.sum_nil]
    ring

/-- The entries of the histogram add up to the number of nodes with children. -/
theorem sum_splits (nvar : Nat) : ∀ t : tree, t.varsBelow nvar →
    ((List.range nvar).map (fun u => (t.splits u : Int))).sum
      = (t.treesize : Int) - (t.nbots : Int) := by
  intro t
  induction t with
  | bot theta v c =>
    intro _
    simp only [tree.splits, tree.treesize, tree.nbots]
    rw [show (fun _ : Nat => ((0 : Nat) : Int)) = (fun _ => (0 : Int)) from rfl, sum_range_zero]
    simp
  | node theta v c l r ihl ihr =>
    intro h
    obtain ⟨hv, hl, hr⟩ := h
    have e : (fun u => ((tree.node theta v c l r).splits u : Int))
        = (fun u => ((if v = u then (1 : Int) else 0) + (l.splits u : Int)) + (r.splits u : Int)) := by
      funext u
      simp only [tree.splits]
      split_ifs <;> push_cast <;> ring
    rw [e, sum_range_add, sum_range_add, sum_range_ite v nvar hv, ihl hl, ihr hr]
    simp only [tree.treesize, tree.nbots]
    push_cast
    ring

/-- C15. For every tree whose nodes with children all have split variable below `nvar`,
`tree2count(nvar)` returns a vector of length `nvar` whose entry `u` is the number of
nodes with children that split on `u`; the entries add up to `treesize() - nbots()`, and
a single-leaf tree gives the all-zero vector. -/
theorem tree2count_contract (nvar : Nat) (t : tree) (h : t.varsBelow nvar) :
    (∃ res, t.tree2count nvar = some res ∧ res.length = nvar ∧
      (∀ u, u < nvar → res[u]? = some (t.splits u : Int)) ∧
      res.sum = (t.treesize : Int) - (t.nbots : Int)) ∧
    (∀ theta v c, (tree.bot theta v c).tree2count nvar = some (List.replicate nvar 0)) := by
  refine ⟨⟨_, tree2count_eq nvar t h, by simp, ?_, sum_splits nvar t h⟩, fun _ _ _ => rfl⟩
  intro u hu
  simp [List.getElem?_range hu]

/-- C15, instance: the grown scenario tree has two nodes with children, both splitting
on variable 0. -/
theorem tree2count_contract_witness :
    scen_grown.varsBelow 2 ∧ scen_grown.tree2count 2 = some [2, 0] ∧
    (∃ res, scen_grown.tree2count 2 = some res ∧ res.length = 2 ∧
      (∀ u, u < 2 → res[u]? = some (scen_grown.splits u : Int)) ∧
      res.sum = (scen_grown.treesize : Int) - (scen_grown.nbots : Int)) := by
  have h : scen_grown.varsBelow 2 := by
    have e : scen_grown = tree.node 0 0 1 (tree.bot 10 0 0)
        (tree.node 20 0 2 (tree.bot 21 0 0) (tree.bot 22 0 0)) := by rfl
    rw [e]
    simp [tree.varsBelow]
  exact ⟨h, by decide, (tree2count_contract 2 scen_grown h).1⟩

/-! ## The structural export (`tree2list`) -/

/-- What `tree2list` returns for a node with children, in the words of the
specification, before the conversion of `var` to `int` is looked at. -/
theorem tree2list_node (center scale theta : ℚ) (v c : Nat) (l r : tree) :
    (tree.node theta v c l r).tree2list center scale
      = rvalue.record (toInt (succ64 v)) (toInt (succ64 c)) (shapeCode l r)
          (exportChild center scale l) (exportChild center scale r) := by
  cases hl : l.isbot <;> cases hr : r.isbot <;>
    simp [tree.tree2list, shapeCode, exportChild, hl, hr]

/-- C16 as stated fails: the root made by `birth(1, 2147483647, 0, 0, 0)` splits on variable
`v = 2^31 - 1`; its export has `var = -2147483648`, not `v + 1`. -/
theorem tree2list_contract_fails :
    ((tree.bot 0 0 0).birth 1 2147483647 0 0 0).2
      = tree.node 0 2147483647 0 (tree.bot 0 0 0) (tree.bot 0 0 0) ∧
    (∃ cut ty left right,
      (tree.node 0 2147483647 0 (tree.bot 0 0 0) (tree.bot 0 0 0)).tree2list 0 1
        = rvalue.record (-2147483648) cut ty left right) ∧
    (-2147483648 : Int) ≠ ((2147483647 : Nat) : Int) + 1 := by
  have h : toInt (succ64 2147483647) = -2147483648 := by decide
  refine ⟨by rfl, ⟨toInt (succ64 0), shapeCode (tree.bot 0 0 0) (tree.bot 0 0 0),
    exportChild 0 1 (tree.bot 0 0 0), exportChild 0 1 (tree.bot 0 0 0), ?_⟩, by decide⟩
  rw [tree2list_node, h]

/-- C16 (amended). For every node with children whose split variable satisfies
`v + 1 < 2^31`, and every `(center, scale)`, `tree2list` exports the record with
`var = v + 1`, the shape code 1, 2, 3 or 0, each child with children exported
recursively and each leaf child exported as the number `theta*scale + center`; with
`center = 0`, `scale = 1` a leaf child is exported as its stored leaf value.
(`tree2list` assigns to no field of the tree.) -/
theorem tree2list_contract (center scale theta : ℚ) (v c : Nat) (l r : tree)
    (hv : v + 1 < 2 ^ 31) :
    (∃ cut ty left right,
      (tree.node theta v c l r).tree2list center scale
        = rvalue.record ((v : Int) + 1) cut ty left right ∧
      (ty = 1 ↔ l.isbot = false ∧ r.isbot = false) ∧
      (ty = 2 ↔ l.isbot = false ∧ r.isbot = true) ∧
      (ty = 3 ↔ l.isbot = true ∧ r.isbot = false) ∧
      (ty = 0 ↔ l.isbot = true ∧ r.isbot = true) ∧
      (l.isbot = false → left = l.tree2list center scale) ∧
      (l.isbot = true → left = rvalue.num (l.gettheta * scale + center)) ∧
      (r.isbot = false → right = r.tree2list center scale) ∧
      (r.isbot = true → right = rvalue.num (r.gettheta * scale + center))) ∧
    (∀ s : tree, s.isbot = true → exportChild 0 1 s = rvalue.num s.gettheta) := by
  constructor
  · refine ⟨toInt (succ64 c), shapeCode l r, exportChild center scale l,
      exportChild center scale r, ?_, ?_⟩
    · rw [tree2list_node, toInt_succ64 hv]
    · cases hl : l.isbot <;> cases hr : r.isbot <;> simp [shapeCode, exportChild, hl, hr]
  · intro s hs
    simp [exportChild, hs]

/-- C16, instance: the grown scenario tree, exported with the defaults. -/
theorem tree2list_contract_witness :
    (0 : Nat) + 1 < 2 ^ 31 ∧
    scen_grown.tree2list 0 1
      = rvalue.record 1 2 3 (rvalue.num (10 * 1 + 0))
          (rvalue.record 1 3 0 (rvalue.num (21 * 1 + 0)) (rvalue.num (22 * 1 + 0))) ∧
    (∃ cut ty left right,
      (tree.node 0 0 1 (tree.bot 10 0 0)
          (tree.node 20 0 2 (tree.bot 21 0 0) (tree.bot 22 0 0))).tree2list 0 1
        = rvalue.record (((0 : Nat) : Int) + 1) cut ty left right ∧ ty = 3) := by
  refine ⟨by decide, by rfl, ?_⟩
  obtain ⟨⟨cut, ty, left, right, h1, _, _, h3, _⟩, _⟩ :=
    tree2list_contract 0 1 0 0 1 (tree.bot 10 0 0)
      (tree.node 20 0 2 (tree.bot 21 0 0) (tree.bot 22 0 0)) (by decide)
  exact ⟨cut, ty, left, right, h1, h3.mpr ⟨rfl, rfl⟩⟩

/-! ## The effect of `birth` on counts, ids and routing -/

theorem treesize_put : ∀ (t : tree) (p : tree_p) (s s2 : tree), t.sub p = some s →
    (t.put p s2).treesize + s.treesize = t.treesize + s2.treesize := by
  intro t
  induction t with
  | bot theta v c =>
    intro p s s2 h
    cases p with
    | nil => simp only [tree.sub, Option.some.injEq] at h; subst h; simp [tree.put]; omega
    | cons d p => simp [tree.sub] at h
  | node theta v c l r ihl ihr =>
    intro p s s2 h
    cases p with
    | nil => simp only [tree.sub, Option.some.injEq] at h; subst h; simp [tree.put]; omega
    | cons d p =>
      cases d with
      | false =>
        have := ihl p s s2 (by simpa [tree.sub] using h)
        simp only [tree.put, tree.treesize]; omega
      | true =>
        have := ihr p s s2 (by simpa [tree.sub] using h)
        simp only [tree.put, tree.treesize]; omega

theorem nbots_put : ∀ (t : tree) (p : tree_p) (s s2 : tree), t.sub p = some s →
    (t.put p s2).nbots + s.nbots = t.nbots + s2.nbots := by
  intro t
  induction t with
  | bot theta v c =>
    intro p s s2 h
    cases p with
    | nil => simp only [tree.sub, Option.some.injEq] at h; subst h; simp [tree.put]; omega
    | cons d p => simp [tree.sub] at h
  | node theta v c l r ihl ihr =>
    intro p s s2 h
    cases p with
    | nil => simp only [tree.sub, Option.some.injEq] at h; subst h; simp [tree.put]; omega
    | cons d p =>
      cases d with
      | false =>
        have := ihl p s s2 (by simpa [tree.sub] using h)
        simp only [tree.put, tree.nbots]; omega
      | true =>
        have := ihr p s s2 (by simpa [tree.sub] using h)
        simp only [tree.put, tree.nbots]; omega

/-- Below the node that was written, the new tree is the subtree written there. -/
theorem sub_put_append : ∀ (t : tree) (p q : tree_p) (s2 : tree), (t.sub p).isSome →
    (t.put p s2).sub (p ++ q) = s2.sub q := by
  intro t
  induction t with
  | bot theta v c =>
    intro p q s2 h
    cases p with
    | nil => simp [tree.put]
    | cons d p => simp [tree.sub] at h
  | node theta v c l r ihl ihr =>
    intro p q s2 h
    cases p with
    | nil => simp [tree.put]
    | cons d p =>
      cases d with
      | false => simpa [tree.put, tree.sub] using ihl p q s2 (by simpa [tree.sub] using h)
      | true => simpa [tree.put, tree.sub] using ihr p q s2 (by simpa [tree.sub] using h)

/-- The parent chain of a node below the node that was written continues the parent
chain of that node. -/
theorem linksFrom_put_append : ∀ (t : tree) (p q : tree_p) (s2 : tree) (up : List link),
    (t.sub p).isSome →
    (t.put p s2).linksFrom (p ++ q) up = s2.linksFrom q (t.linksFrom p up) := by
  intro t
  induction t with
  | bot theta v c =>
    intro p q s2 up h
    cases p with
    | nil => simp [tree.put, tree.linksFrom]
    | cons d p => simp [tree.sub] at h
  | node theta v c l r ihl ihr =>
    intro p q s2 up h
    cases p with
    | nil => simp [tree.put, tree.linksFrom]
    | cons d p =>
      cases d with
      | false =>
        simpa [tree.put, tree.linksFrom] using ihl p q s2 _ (by simpa [tree.sub] using h)
      | true =>
        simpa [tree.put, tree.linksFrom] using ihr p q s2 _ (by simpa [tree.sub] using h)

/-- Routing after a leaf is replaced by a subtree: a vector routed to that leaf is
routed on into the subtree, every other vector is routed as before. -/
theorem bn_put : ∀ (t : tree) (np : tree_p) (s2 : tree) (x : List ℚ) (xi : xinfo) (b : tree_p),
    (∃ th v0 c0, t.sub np = some (tree.bot th v0 c0)) → t.bn x xi = some b →
    (b = np → (t.put np s2).bn x xi = (s2.bn x xi).map (fun q => np ++ q)) ∧
    (b ≠ np → (t.put np s2).bn x xi = some b ∧ (t.put np s2).sub b = t.sub b) := by
  intro t
  induction t with
  | bot theta v c =>
    intro np s2 x xi b hnp hb
    obtain ⟨th, v0, c0, hnp⟩ := hnp
    cases np with
    | nil =>
      simp only [tree.bn, Option.some.injEq] at hb
      subst hb
      refine ⟨fun _ => ?_, fun h => absurd rfl h⟩
      simp [tree.put]
    | cons d np => simp [tree.sub] at hnp
  | node theta v c l r ihl ihr =>
    intro np s2 x xi b hnp hb
    obtain ⟨th, v0, c0, hnp⟩ := hnp
    cases np with
    | nil => simp [tree.sub] at hnp
    | cons d np =>
      cases hx : x[v]? with
      | none => simp [tree.bn, hx] at hb
      | some xv =>
        cases hc : xi.cut v c with
        | none => simp [tree.bn, hx, hc] at hb
        | some cut =>
          rw [bn_node_eq theta v c l r x xi xv cut hx hc] at hb
          by_cases hlt : xv < cut
          · rw [if_pos hlt] at hb
            cases hbl : l.bn x xi with
            | none => simp [hbl] at hb
            | some bl =>
              simp only [hbl, Option.map_some', Option.some.injEq] at hb
              subst hb
              cases d with
              | false =>
                have hnp2 : ∃ th v0 c0, l.sub np = some (tree.bot th v0 c0) :=
                  ⟨th, v0, c0, by simpa [tree.sub] using hnp⟩
                obtain ⟨h1, h2⟩ := ihl np s2 x xi bl hnp2 hbl
                simp only [tree.put]
                rw [bn_node_eq theta v c _ r x xi xv cut hx hc, if_pos hlt]
                constructor
                · intro heq
                  have heq2 : bl = np := by simpa using heq
                  rw [h1 heq2]
                  cases s2.bn x xi <;> simp
                · intro hne
                  have hne2 : bl ≠ np := fun e => hne (by rw [e])
                  obtain ⟨h3, h4⟩ := h2 hne2
                  rw [h3]
                  exact ⟨by simp, by simpa [tree.sub] using h4⟩
              | true =>
                simp only [tree.put]
                rw [bn_node_eq theta v c l _ x xi xv cut hx hc, if_pos hlt, hbl]
                exact ⟨fun heq => by simp at heq, fun _ => ⟨by simp, by simp [tree.sub]⟩⟩
          · rw [if_neg hlt] at hb
            cases hbr : r.bn x xi with
            | none => simp [hbr] at hb
            | some br =>
              simp only [hbr, Option.map_some', Option.some.injEq] at hb
              subst hb
              cases d with
              | true =>
                have hnp2 : ∃ th v0 c0, r.sub np = some (tree.bot th v0 c0) :=
                  ⟨th, v0, c0, by simpa [tree.sub] using hnp⟩
                obtain ⟨h1, h2⟩ := ihr np s2 x xi br hnp2 hbr
                simp only [tree.put]
                rw [bn_node_eq theta v c l _ x xi xv cut hx hc, if_neg hlt]
                constructor
                · intro heq
                  have heq2 : br = np := by simpa using heq
                  rw [h1 heq2]
                  cases s2.bn x xi <;> simp
                · intro hne
                  have hne2 : br ≠ np := fun e => hne (by rw [e])
                  obtain ⟨h3, h4⟩ := h2 hne2
                  rw [h3]
                  exact ⟨by simp, by simpa [tree.sub] using h4⟩
              | false =>
                simp only [tree.put]
                rw [bn_node_eq theta v c _ r x xi xv cut hx hc, if_neg hlt, hbr]
                exact ⟨fun heq => by simp at heq, fun _ => ⟨by simp, by simp [tree.sub]⟩⟩

/-- C18 as stated fails: in the left spine of depth 63 the leaf with id `k = 2^63` is grown
by a successful `birth(2^63, 0, 0, 0, 7)`; the two new leaves have the node ids 0 and 1,
not `2k` and `2k + 1`. -/
theorem birth_effect_fails :
    (spine 63 (tree.bot 0 0 0)).birth (2 ^ 63) 0 0 0 7 = (true, deep_tree) ∧
    nid (deep_tree.links (List.replicate 63 false ++ [false])) = 0 ∧
    nid (deep_tree.links (List.replicate 63 false ++ [true])) = 1 ∧
    (0 : Nat) ≠ 2 * 2 ^ 63 ∧ (1 : Nat) ≠ 2 * 2 ^ 63 + 1 := by
  refine ⟨by rfl, by decide, by decide, by decide, by decide⟩

/-- C18 (amended). After a successful `birth(k, v, c, thetal, thetar)`, where `getptr`
found the leaf `np` for `k`: `treesize()` has grown by exactly 2 and `nbots()` by exactly
1; the two new leaves are the children of `np`, with node ids `2k` and `2k + 1` reduced
modulo `2^64` (exactly `2k` and `2k + 1` when `k < 2^63`); and `bn` from the root
reaches the new left leaf (value `thetal`) if `x` was routed to `np` before the birth and
`x[v] < xi[v][c]`, the new right leaf (value `thetar`) if `x` was routed to `np` and
`x[v] >= xi[v][c]`, and otherwise the same leaf with the same value as before. -/
theorem birth_effect (t : tree) (k v c : Nat) (thetal thetar : ℚ)
    (hb : (t.birth k v c thetal thetar).1 = true) :
    ∃ np th v0 c0, t.getptr [] k = some np ∧ nid (t.links np) = k ∧
      t.sub np = some (tree.bot th v0 c0) ∧
      (t.birth k v c thetal thetar).2.treesize = t.treesize + 2 ∧
      (t.birth k v c thetal thetar).2.nbots = t.nbots + 1 ∧
      (t.birth k v c thetal thetar).2.sub (np ++ [false]) = some (tree.bot thetal 0 0) ∧
      (t.birth k v c thetal thetar).2.sub (np ++ [true]) = some (tree.bot thetar 0 0) ∧
      nid ((t.birth k v c thetal thetar).2.links (np ++ [false])) = (2 * k) % 2 ^ 64 ∧
      nid ((t.birth k v c thetal thetar).2.links (np ++ [true])) = (2 * k + 1) % 2 ^ 64 ∧
      (k < 2 ^ 63 →
        nid ((t.birth k v c thetal thetar).2.links (np ++ [false])) = 2 * k ∧
        nid ((t.birth k v c thetal thetar).2.links (np ++ [true])) = 2 * k + 1) ∧
      ∀ (x : List ℚ) (xi : xinfo) (b : tree_p), t.bn x xi = some b →
        (b = np → ∀ xv cut, x[v]? = some xv → xi.cut v c = some cut →
          (xv < cut →
            (t.birth k v c thetal thetar).2.bn x xi = some (np ++ [false]) ∧
            (t.birth k v c thetal thetar).2.route x xi = some thetal) ∧
          (¬ xv < cut →
            (t.birth k v c thetal thetar).2.bn x xi = some (np ++ [true]) ∧
            (t.birth k v c thetal thetar).2.route x xi = some thetar)) ∧
        (b ≠ np →
          (t.birth k v c thetal thetar).2.bn x xi = some b ∧
          (t.birth k v c thetal thetar).2.thetaAt b = t.thetaAt b ∧
          (t.birth k v c thetal thetar).2.route x xi = t.route x xi) := by
  rcases birth_eq t k v c thetal thetar with ⟨_, h⟩ | ⟨_, _, _, _, _, _, _, _, h⟩ |
    ⟨np, th, v0, c0, hg, hs, h⟩
  · rw [h] at hb; simp at hb
  · rw [h] at hb; simp at hb
  · have hsome : (t.sub np).isSome := by simp [hs]
    have hk := (getptr_sound t [] k np hg).2
    rw [h]
    simp only
    have hsize := treesize_put t np _
      (tree.node th v c (tree.bot thetal 0 0) (tree.bot thetar 0 0)) hs
    have hbots := nbots_put t np _
      (tree.node th v c (tree.bot thetal 0 0) (tree.bot thetar 0 0)) hs
    simp only [tree.treesize, tree.nbots] at hsize hbots
    have hidl : nid ((t.put np (tree.node th v c (tree.bot thetal 0 0)
        (tree.bot thetar 0 0))).links (np ++ [false])) = (2 * k) % 2 ^ 64 := by
      unfold tree.links at hk ⊢
      rw [linksFrom_put_append t np [false] _ [] hsome]
      simp [tree.linksFrom, nid, hk]
    have hidr : nid ((t.put np (tree.node th v c (tree.bot thetal 0 0)
        (tree.bot thetar 0 0))).links (np ++ [true])) = (2 * k + 1) % 2 ^ 64 := by
      unfold tree.links at hk ⊢
      rw [linksFrom_put_append t np [true] _ [] hsome]
      simp [tree.linksFrom, nid, hk]
    have hsl := sub_put_append t np [false]
      (tree.node th v c (tree.bot thetal 0 0) (tree.bot thetar 0 0)) hsome
    have hsr := sub_put_append t np [true]
      (tree.node th v c (tree.bot thetal 0 0) (tree.bot thetar 0 0)) hsome
    simp only [tree.sub] at hsl hsr
    refine ⟨np, th, v0, c0, hg, hk, hs, by omega, by omega, hsl, hsr, hidl, hidr, ?_, ?_⟩
    · intro hk63
      rw [hidl, hidr]
      exact ⟨Nat.mod_eq_of_lt (by omega), Nat.mod_eq_of_lt (by omega)⟩
    · intro x xi b hbn
      obtain ⟨h1, h2⟩ := bn_put t np
        (tree.node th v c (tree.bot thetal 0 0) (tree.bot thetar 0 0)) x xi b
        ⟨th, v0, c0, hs⟩ hbn
      constructor
      · intro hbnp xv cut hx hc
        have hN := bn_node_eq th v c (tree.bot thetal 0 0) (tree.bot thetar 0 0) x xi xv cut hx hc
        constructor
        · intro hlt
          have hbn2 : (t.put np (tree.node th v c (tree.bot thetal 0 0)
              (tree.bot thetar 0 0))).bn x xi = some (np ++ [false]) := by
            rw [h1 hbnp, hN, if_pos hlt]
            simp [tree.bn]
          exact ⟨hbn2, by simp [tree.route, hbn2, tree.thetaAt, hsl, tree.gettheta]⟩
        · intro hlt
          have hbn2 : (t.put np (tree.node th v c (tree.bot thetal 0 0)
              (tree.bot thetar 0 0))).bn x xi = some (np ++ [true]) := by
            rw [h1 hbnp, hN, if_neg hlt]
            simp [tree.bn]
          exact ⟨hbn2, by simp [tree.route, hbn2, tree.thetaAt, hsr, tree.gettheta]⟩
      · intro hne
        obtain ⟨h3, h4⟩ := h2 hne
        refine ⟨h3, by simp only [tree.thetaAt, h4], ?_⟩
        simp only [tree.route, h3, hbn, tree.thetaAt, h4]

/-- C18, scenario: after `birth(3, 0, 2, 21, 22)` in the scenario tree, `x = [2.5]` is
routed to 21, `x = [3.0]` to 22 and `x = [1.5]` still to 10; the tree has 5 nodes, 3 of
them leaves, and the new leaves have the ids 6 and 7. -/
theorem birth_effect_witness :
    (scen_tree.birth 3 0 2 21 22).1 = true ∧
    (scen_tree.birth 3 0 2 21 22).2.treesize = scen_tree.treesize + 2 ∧
    (scen_tree.birth 3 0 2 21 22).2.nbots = scen_tree.nbots + 1 ∧
    nid ((scen_tree.birth 3 0 2 21 22).2.links [true, false]) = 6 ∧
    nid ((scen_tree.birth 3 0 2 21 22).2.links [true, true]) = 7 ∧
    (scen_tree.birth 3 0 2 21 22).2.route [5/2] scen_xi = some 21 ∧
    (scen_tree.birth 3 0 2 21 22).2.route [3] scen_xi = some 22 ∧
    (scen_tree.birth 3 0 2 21 22).2.route [3/2] scen_xi = some 10 := by
  obtain ⟨np, th, v0, c0, hg, _, _, hsize, hbots, _, _, _, _, _, hroute⟩ :=
    birth_effect scen_tree 3 0 2 21 22 rfl
  have hnp : np = [true] := by
    have : scen_tree.getptr [] 3 = some [true] := by rfl
    rw [this] at hg
    exact (Option.some.inj hg).symm
  subst hnp
  have hxi : scen_xi.cut 0 2 = some 3 := by rfl
  have b1 : scen_tree.bn [5/2] scen_xi = some [true] := by
    norm_num [scen_tree, scen_xi, tree.bn, xinfo.cut]
  have b2 : scen_tree.bn [3] scen_xi = some [true] := by
    norm_num [scen_tree, scen_xi, tree.bn, xinfo.cut]
  have b3 : scen_tree.bn [3/2] scen_xi = some [false] := by
    norm_num [scen_tree, scen_xi, tree.bn, xinfo.cut]
  refine ⟨rfl, hsize, hbots, by decide, by decide, ?_, ?_, ?_⟩
  · exact (((hroute [5/2] scen_xi [true] b1).1 rfl (5/2) 3 rfl hxi).1 (by norm_num)).2
  · exact (((hroute [3] scen_xi [true] b2).1 rfl 3 3 rfl hxi).2 (by norm_num)).2
  · rw [((hroute [3/2] scen_xi [false] b3).2 (by decide)).2.2]
    norm_num [tree.route, scen_tree, scen_xi, tree.bn, xinfo.cut, tree.thetaAt, tree.sub,
      tree.gettheta]

/-! ## The draw ranges of `local_getpred` -/

/-- The ranges of the threads are contiguous and do not overlap; together they contain
exactly the draw indices below `thread_count * (nd / thread_count)`. -/
theorem localRange_cover (nd tc : Nat) (hnd : nd < 2 ^ 31) :
    (∀ r, (localRange nd tc (r + 1)).1 = (localRange nd tc r).2 + 1) ∧
    (localRange nd tc 0).1 = 0 ∧
    (∀ d : Nat, (∃ r, r < tc ∧ (localRange nd tc r).1 ≤ (d : Int) ∧
        (d : Int) ≤ (localRange nd tc r).2) ↔ d < tc * (nd / tc)) ∧
    (∀ (d r1 r2 : Nat),
      (localRange nd tc r1).1 ≤ (d : Int) → (d : Int) ≤ (localRange nd tc r1).2 →
      (localRange nd tc r2).1 ≤ (d : Int) → (d : Int) ≤ (localRange nd tc r2).2 → r1 = r2) := by
  have hh : toInt (nd / tc) = ((nd / tc : Nat) : Int) :=
    toInt_small (lt_of_le_of_lt (Nat.div_le_self nd tc) hnd)
  simp only [localRange, hh]
  clear hh
  generalize nd / tc = q
  refine ⟨fun r => by push_cast; ring, by simp, fun d => ⟨?_, ?_⟩, ?_⟩
  · rintro ⟨r, hr, h1, h2⟩
    have h3 : (d : Int) < ((r + 1 : Nat) : Int) * (q : Int) := by
      push_cast; linarith
    have h4 : d < (r + 1) * q := by exact_mod_cast h3
    exact lt_of_lt_of_le h4 (Nat.mul_le_mul_right _ hr)
  · intro hd
    have hpos : 0 < q := by
      rcases Nat.eq_zero_or_pos q with h0 | h0
      · rw [h0] at hd; omega
      · exact h0
    refine ⟨d / q, (Nat.div_lt_iff_lt_mul hpos).mpr hd, ?_, ?_⟩
    · have := Nat.div_mul_le_self d q
      exact_mod_cast this
    · have h5 : d < (d / q + 1) * q := by
        have := Nat.lt_succ_self (d / q)
        exact (Nat.div_lt_iff_lt_mul hpos).mp this
      generalize d / q = e at h5 ⊢
      have h6 : (d : Int) < ((e + 1 : Nat) : Int) * (q : Int) := by
        exact_mod_cast h5
      push_cast at h6
      linarith
  · intro d r1 r2 a1 a2 b1 b2
    have key : ∀ x y : Nat, (x : Int) * (q : Int) ≤ (d : Int) →
        (d : Int) ≤ (y : Int) * (q : Int) + (q : Int) - 1 →
        x ≤ y := by
      intro x y hx hy
      by_contra hlt
      have hxy : y + 1 ≤ x := by omega
      have h7 : ((y + 1 : Nat) : Int) * (q : Int) ≤ (x : Int) * (q : Int) := by
        have := Nat.mul_le_mul_right q hxy
        exact_mod_cast this
      push_cast at h7
      linarith
    exact le_antisymm (key r1 r2 a1 b2) (key r2 r1 b1 a2)

/-- C17, failing input: 5 draws on 2 threads. The ranges are `[0, 1]` and `[2, 3]`; draw 4
is in neither. The serial call `getpred(0, 4, ...)` fills entry `(4, 0)` with 5, while the
two `local_getpred` calls leave it at 0. -/
theorem local_getpred_misses_draw :
    localRange 5 2 0 = (0, 1) ∧ localRange 5 2 1 = (2, 3) ∧
    (∀ r, r < 2 → ¬ ((localRange 5 2 r).1 ≤ 4 ∧ 4 ≤ (localRange 5 2 r).2)) ∧
    (∃ y, predict 5 1 1 1 [] five_draws [0] [0] = some y ∧ y 3 0 = 4 ∧ y 4 0 = 5) ∧
    (∃ y, parallelPredict 5 1 1 1 [] five_draws [0] [0] 2 = some y ∧ y 3 0 = 4 ∧ y 4 0 = 0) := by
  have r0 : localRange 5 2 0 = (0, 1) := by decide
  have r1 : localRange 5 2 1 = (2, 3) := by decide
  refine ⟨r0, r1, by decide, ⟨_, rfl, ?_, ?_⟩, ⟨_, rfl, ?_, ?_⟩⟩
  · norm_num [addAt, tree.gettheta]
  · norm_num [addAt, tree.gettheta]
  · norm_num [addAt, tree.gettheta, r0, r1]
  · norm_num [addAt, tree.gettheta, r0, r1]

/-! ## Well-formedness as an invariant of the operations -/

theorem height_lt_treesize : ∀ t : tree, t.height < t.treesize := by
  intro t
  induction t with
  | bot theta v c => simp [tree.height, tree.treesize]
  | node theta v c l r ihl ihr =>
    simp only [tree.height, tree.treesize]
    have h1 := le_max_left l.height r.height
    have h2 := le_max_right l.height r.height
    rcases max_choice l.height r.height with e | e <;> rw [e] <;> omega

theorem repr_length (h : heap) : ∀ (t : tree) (a : Nat) (par : Option Nat) (fp : List Nat),
    repr h a par t fp → fp.length = t.treesize := by
  intro t
  induction t with
  | bot theta v c =>
    intro a par fp hr
    obtain ⟨e, _⟩ := hr
    subst e
    rfl
  | node theta v c l r ihl ihr =>
    intro a par fp hr
    obtain ⟨al, ar, fl, fr, e, _, hl, hrr⟩ := hr
    subst e
    simp only [List.length_cons, List.length_append, tree.treesize, ihl al _ fl hl,
      ihr ar _ fr hrr]
    omega

theorem nodup_length_le (fp : List Nat) (n : Nat) (hlt : ∀ x ∈ fp, x < n) (hnd : fp.Nodup) :
    fp.length ≤ n := by
  have hs : fp ⊆ List.range n := fun x hx => List.mem_range.mpr (hlt x hx)
  have := (List.subperm_of_subset hnd hs).length_le
  simpa using this

theorem repr_treesize_le (h : heap) (t : tree) (a : Nat) (par : Option Nat) (fp : List Nat)
    (hr : repr h a par t fp) (hnd : fp.Nodup) : t.treesize ≤ h.length := by
  rw [← repr_length h t a par fp hr]
  exact nodup_length_le fp h.length (repr_lt h t a par fp hr) hnd

/-- Replacing the subtree held at an object `np` of a tree: when the memory changes
only inside the old subtree and in objects outside the tree, the root holds the tree
with the new subtree. -/
theorem repr_subst (h h2 : heap) : ∀ (t : tree) (a : Nat) (par : Option Nat) (fp : List Nat)
    (np : Nat), repr h a par t fp → fp.Nodup → np ∈ fp →
    ∃ ps s fs, repr h np ps s fs ∧ (∀ x ∈ fs, x ∈ fp) ∧ (np = a → ps = par) ∧
      ∀ s2 fs2, repr h2 np ps s2 fs2 → fs2.Nodup →
        (∀ x ∈ fp, x ∉ fs → h2[x]? = h[x]?) →
        (∀ x ∈ fs2, x ∈ fs ∨ x ∉ fp) →
        ∃ t2 fp2, repr h2 a par t2 fp2 ∧ fp2.Nodup ∧ (∀ x ∈ fp2, x ∈ fp ∨ x ∈ fs2) := by
  intro t
  induction t with
  | bot theta v c =>
    intro a par fp np hr hnd hnp
    obtain ⟨e, hc⟩ := hr
    subst e
    have : np = a := by simpa using hnp
    subst this
    refine ⟨par, tree.bot theta v c, [np], ⟨rfl, hc⟩, fun x hx => hx, fun _ => rfl, ?_⟩
    intro s2 fs2 hr2 hnd2 _ _
    exact ⟨s2, fs2, hr2, hnd2, fun x hx => Or.inr hx⟩
  | node theta v c l r ihl ihr =>
    intro a par fp np hr hnd hnp
    obtain ⟨al, ar, fl, fr, e, hc, hl, hrr⟩ := hr
    subst e
    rw [List.nodup_cons, List.nodup_append] at hnd
    obtain ⟨hanot, hndl, hndr, hdisj⟩ := hnd
    simp only [List.mem_append, not_or] at hanot
    by_cases hnpa : np = a
    · subst hnpa
      refine ⟨par, tree.node theta v c l r, np :: (fl ++ fr), ⟨al, ar, fl, fr, rfl, hc, hl, hrr⟩,
        fun x hx => hx, fun _ => rfl, ?_⟩
      intro s2 fs2 hr2 hnd2 _ _
      exact ⟨s2, fs2, hr2, hnd2, fun x hx => Or.inr hx⟩
    · have hnp2 : np ∈ fl ∨ np ∈ fr := by
        simp only [List.mem_cons, List.mem_append] at hnp
        rcases hnp with e | e
        · exact absurd e hnpa
        · exact e
      rcases hnp2 with hin | hin
      · obtain ⟨ps, s, fs, hs, hsub, _, hk⟩ := ihl al (some a) fl np hl hndl hin
        refine ⟨ps, s, fs, hs, fun x hx => by simp [hsub x hx], fun e => absurd e hnpa, ?_⟩
        intro s2 fs2 hr2 hnd2 hfr hnew
        obtain ⟨l2, fl2, hl2, hndl2, hm2⟩ := hk s2 fs2 hr2 hnd2
          (fun x hx hxs => hfr x (by simp [hx]) hxs)
          (fun x hx => by
            rcases hnew x hx with e | e
            · exact Or.inl e
            · exact Or.inr (fun hxl => e (by simp [hxl])))
        have hafs : a ∉ fs := fun ha => hanot.1 (hsub a ha)
        have hmem : ∀ x ∈ fl2, x ∈ fl ∨ (x ∈ fs2 ∧ x ∉ a :: (fl ++ fr)) := by
          intro x hx
          rcases hm2 x hx with e | e
          · exact Or.inl e
          · rcases hnew x e with e2 | e2
            · exact Or.inl (hsub x e2)
            · exact Or.inr ⟨e, e2⟩
        refine ⟨tree.node theta v c l2 r, a :: (fl2 ++ fr), ⟨al, ar, fl2, fr, rfl, ?_, hl2, ?_⟩,
          ?_, ?_⟩
        · rw [hfr a (by simp) hafs]; exact hc
        · refine repr_frame h h2 r ar (some a) fr hrr (fun x hx => hfr x (by simp [hx]) ?_)
          exact fun hxs => hdisj (hsub x hxs) hx
        · rw [List.nodup_cons, List.nodup_append]
          refine ⟨?_, hndl2, hndr, ?_⟩
          · simp only [List.mem_append, not_or]
            refine ⟨fun ha => ?_, hanot.2⟩
            rcases hmem a ha with e | e
            · exact hanot.1 e
            · exact e.2 (by simp)
          · intro x hx1 hx2
            rcases hmem x hx1 with e | e
            · exact hdisj e hx2
            · exact e.2 (by simp [hx2])
        · intro x hx
          simp only [List.mem_cons, List.mem_append] at hx ⊢
          rcases hx with e | e | e
          · exact Or.inl (Or.inl e)
          · rcases hm2 x e with e2 | e2
            · exact Or.inl (Or.inr (Or.inl e2))
            · exact Or.inr e2
          · exact Or.inl (Or.inr (Or.inr e))
      · obtain ⟨ps, s, fs, hs, hsub, _, hk⟩ := ihr ar (some a) fr np hrr hndr hin
        refine ⟨ps, s, fs, hs, fun x hx => by simp [hsub x hx], fun e => absurd e hnpa, ?_⟩
        intro s2 fs2 hr2 hnd2 hfr hnew
        obtain ⟨r2, fr2, hr2b, hndr2, hm2⟩ := hk s2 fs2 hr2 hnd2
          (fun x hx hxs => hfr x (by simp [hx]) hxs)
          (fun x hx => by
            rcases hnew x hx with e | e
            · exact Or.inl e
            · exact Or.inr (fun hxl => e (by simp [hxl])))
        have hafs : a ∉ fs := fun ha => hanot.2 (hsub a ha)
        have hmem : ∀ x ∈ fr2, x ∈ fr ∨ (x ∈ fs2 ∧ x ∉ a :: (fl ++ fr)) := by
          intro x hx
          rcases hm2 x hx with e | e
          · exact Or.inl e
          · rcases hnew x e with e2 | e2
            · exact Or.inl (hsub x e2)
            · exact Or.inr ⟨e, e2⟩
        refine ⟨tree.node theta v c l r2, a :: (fl ++ fr2), ⟨al, ar, fl, fr2, rfl, ?_, ?_, hr2b⟩,
          ?_, ?_⟩
        · rw [hfr a (by simp) hafs]; exact hc
        · refine repr_frame h h2 l al (some a) fl hl (fun x hx => hfr x (by simp [hx]) ?_)
          exact fun hxs => hdisj hx (hsub x hxs)
        · rw [List.nodup_cons, List.nodup_append]
          refine ⟨?_, hndl, hndr2, ?_⟩
          · simp only [List.mem_append, not_or]
            refine ⟨hanot.1, fun ha => ?_⟩
            rcases hmem a ha with e | e
            · exact hanot.2 e
            · exact e.2 (by simp)
          · intro x hx1 hx2
            rcases hmem x hx2 with e | e
            · exact hdisj hx1 e
            · exact e.2 (by simp [hx1])
        · intro x hx
          simp only [List.mem_cons, List.mem_append] at hx ⊢
          rcases hx with e | e | e
          · exact Or.inl (Or.inl e)
          · exact Or.inl (Or.inr (Or.inl e))
          · rcases hm2 x e with e2 | e2
            · exact Or.inl (Or.inr (Or.inr e2))
            · exact Or.inr e2
/-- The five assignments of a successful `birth`, read back from the memory. -/
theorem birth_cells (h : heap) (np : Nat) (x : cell) (v c : Nat) (thetal thetar : ℚ)
    (hx : h[np]? = some x) :
    let h1 := h.alloc.1.upd h.alloc.2 (fun y => ⟨thetal, y.v, y.c, y.p, y.l, y.r⟩)
    let h2 := h1.alloc.1.upd h1.alloc.2 (fun y => ⟨thetar, y.v, y.c, y.p, y.l, y.r⟩)
    let h3 := h2.upd np (fun y => ⟨y.theta, v, c, y.p, some h.alloc.2, some h1.alloc.2⟩)
    let h4 := (h3.upd h.alloc.2 (fun y => ⟨y.theta, y.v, y.c, some np, y.l, y.r⟩)).upd
      h1.alloc.2 (fun y => ⟨y.theta, y.v, y.c, some np, y.l, y.r⟩)
    h4.length = h.length + 2 ∧
    h4[np]? = some ⟨x.theta, v, c, x.p, some h.length, some (h.length + 1)⟩ ∧
    h4[h.length]? = some ⟨thetal, 0, 0, some np, none, none⟩ ∧
    h4[h.length + 1]? = some ⟨thetar, 0, 0, some np, none, none⟩ ∧
    (∀ z, z < h.length → z ≠ np → h4[z]? = h[z]?) := by
  intro h1 h2 h3 h4
  have hlt := lt_of_getElem?_some hx
  have n1 : np ≠ h.length := by omega
  have n2 : np ≠ h.length + 1 := by omega
  have l1 : h1.length = h.length + 1 := by simp only [h1, length_upd, length_alloc]
  have c1 : h1[h.length]? = some ⟨thetal, 0, 0, none, none, none⟩ := by
    simp only [h1, getElem?_upd, alloc_snd, if_true, getElem?_alloc_new, Option.map_some']
  have c1n : h1[np]? = some x := by
    simp only [h1, getElem?_upd, alloc_snd, n1, if_false]
    rw [getElem?_alloc_old h np hlt, hx]
  have l2 : h2.length = h.length + 2 := by simp only [h2, length_upd, length_alloc, l1]
  have c2 : h2[h.length + 1]? = some ⟨thetar, 0, 0, none, none, none⟩ := by
    simp only [h2, getElem?_upd, alloc_snd, l1, if_true]
    rw [← l1, getElem?_alloc_new]
    rfl
  have c2l : h2[h.length]? = some ⟨thetal, 0, 0, none, none, none⟩ := by
    simp only [h2, getElem?_upd, alloc_snd, l1]
    rw [if_neg (by omega), getElem?_alloc_old h1 _ (by omega), c1]
  have c2n : h2[np]? = some x := by
    simp only [h2, getElem?_upd, alloc_snd, l1]
    rw [if_neg n2, getElem?_alloc_old h1 _ (by omega), c1n]
  refine ⟨?_, ?_, ?_, ?_, ?_⟩
  · simp only [h4, h3, length_upd, l2]
  · simp only [h4, h3, getElem?_upd, alloc_snd, l1]
    simp [n1, n2, c2n]
  · simp only [h4, h3, getElem?_upd, alloc_snd, l1]
    simp [c2l, Ne.symm n1]
  · simp only [h4, h3, getElem?_upd, alloc_snd, l1]
    simp [c2, Ne.symm n2]
  · intro z hz hznp
    have hx1 : z ≠ h.length := by omega
    have hx2 : z ≠ h.length + 1 := by omega
    have hx3 : z < h.length + 1 := by omega
    simp only [h4, h3, h2, h1, getElem?_upd, alloc_snd, length_upd, length_alloc, hznp, hx1, hx2,
      if_false]
    rw [getElem?_alloc_old _ z (by rw [length_upd, length_alloc]; exact hx3)]
    simp only [getElem?_upd, alloc_snd, hx1, if_false]
    exact getElem?_alloc_old h z hz

/-- On the memory, `birth` called on the root of a tree returns, and afterwards the
root holds a tree again, in objects of the old tree and newly allocated ones. -/
theorem birthH_repr (t : tree) (fuel : Nat) (h : heap) (root : Nat) (fp : List Nat)
    (k v c : Nat) (thetal thetar : ℚ) (hr : repr h root none t fp) (hnd : fp.Nodup)
    (hf : 2 * t.height < fuel) :
    ∃ b h2 t2 fp2, birthH fuel h root k v c thetal thetar = some (b, h2) ∧
      repr h2 root none t2 fp2 ∧ fp2.Nodup ∧ h.length ≤ h2.length ∧
      (∀ x, x < h.length → x ∉ fp → h2[x]? = h[x]?) ∧
      (∀ x ∈ fp2, x ∈ fp ∨ h.length ≤ x) := by
  obtain ⟨b, h2, hb0⟩ := birthH_total t fuel h root fp k v c thetal thetar hr hf
  have hfr := birthH_frame t fuel h root none fp k v c thetal thetar b h2 hr hb0
  have hsame : h2 = h → ∃ t2 fp2, repr h2 root none t2 fp2 ∧ fp2.Nodup ∧
      h.length ≤ h2.length ∧ (∀ x, x < h.length → x ∉ fp → h2[x]? = h[x]?) ∧
      (∀ x ∈ fp2, x ∈ fp ∨ h.length ≤ x) := by
    intro e
    subst e
    exact ⟨t, fp, hr, hnd, le_refl _, fun _ _ _ => rfl, fun x hx => Or.inl hx⟩
  refine ⟨b, h2, ?_⟩
  have hb := hb0
  unfold birthH at hb
  cases hg : getptrH fuel h root k with
  | none => simp [hg] at hb
  | some res =>
    cases res with
    | none =>
      simp only [hg, Option.some.injEq, Prod.mk.injEq] at hb
      obtain ⟨t2, fp2, q⟩ := hsame hb.2.symm
      exact ⟨t2, fp2, hb0, q⟩
    | some np =>
      have hnp := getptrH_mem t fuel h root none fp k np hr hg
      cases hc : h[np]? with
      | none => simp [hg, hc] at hb
      | some y =>
        cases hyl : y.l with
        | some z =>
          simp only [hg, hc, hyl, Option.some.injEq, Prod.mk.injEq] at hb
          obtain ⟨t2, fp2, q⟩ := hsame hb.2.symm
          exact ⟨t2, fp2, hb0, q⟩
        | none =>
          simp only [hg, hc, hyl, Option.some.injEq, Prod.mk.injEq] at hb
          obtain ⟨l4, cn, cl, cr, cf⟩ := birth_cells h np y v c thetal thetar hc
          simp only [hb.2] at l4 cn cl cr cf
          obtain ⟨ps, s, fs, hs, hsub, hroot, hk⟩ := repr_subst h h2 t root none fp np hr hnd hnp
          have hlt := repr_lt h t root none fp hr
          cases s with
          | node theta0 v0 c0 l0 r0 =>
            obtain ⟨al, ar, fl, fr, _, hcell, _, _⟩ := hs
            rw [hc] at hcell
            simp only [Option.some.injEq] at hcell
            rw [hcell] at hyl
            simp at hyl
          | bot theta0 v0 c0 =>
            obtain ⟨hfs, hcell⟩ := hs
            rw [hc] at hcell
            simp only [Option.some.injEq] at hcell
            subst hfs
            obtain ⟨t2, fp2, r2, nd2, m2⟩ := hk
              (tree.node theta0 v c (tree.bot thetal 0 0) (tree.bot thetar 0 0))
              [np, h.length, h.length + 1]
              ⟨h.length, h.length + 1, [h.length], [h.length + 1], rfl,
                by rw [cn, hcell], ⟨rfl, cl⟩, ⟨rfl, cr⟩⟩
              (by
                have := hlt np hnp
                simp only [List.nodup_cons, List.mem_cons, List.mem_singleton, List.not_mem_nil,
                  not_false_eq_true, List.nodup_nil, and_true, not_or]
                omega)
              (fun x hx hxs => cf x (hlt x hx) (by simpa using hxs))
              (fun x hx => by
                simp only [List.mem_cons, List.mem_singleton, List.not_mem_nil, or_false] at hx
                rcases hx with e | e | e
                · exact Or.inl (by simp [e])
                · exact Or.inr (fun hm => by have := hlt x hm; omega)
                · exact Or.inr (fun hm => by have := hlt x hm; omega))
            refine ⟨t2, fp2, hb0, r2, nd2, by omega, hfr, ?_⟩
            intro x hx
            rcases m2 x hx with e | e
            · exact Or.inl e
            · simp only [List.mem_cons, List.mem_singleton, List.not_mem_nil, or_false] at e
              rcases e with e | e | e
              · exact Or.inl (e ▸ hnp)
              · exact Or.inr (by omega)
              · exact Or.inr (by omega)
/-- On the memory, `death` called on the root of a tree returns, and afterwards the
root holds a tree again, in objects of the old tree. -/
theorem deathH_repr (t : tree) (fuel : Nat) (h : heap) (root : Nat) (fp : List Nat)
    (k : Nat) (theta : ℚ) (hr : repr h root none t fp) (hnd : fp.Nodup)
    (hf : 2 * t.height < fuel) :
    ∃ b h2 t2 fp2, deathH fuel h root k theta = some (b, h2) ∧
      repr h2 root none t2 fp2 ∧ fp2.Nodup ∧ h.length ≤ h2.length ∧
      (∀ x, x < h.length → x ∉ fp → h2[x]? = h[x]?) ∧
      (∀ x ∈ fp2, x ∈ fp ∨ h.length ≤ x) := by
  obtain ⟨b, h2, hb0⟩ := deathH_total t fuel h root fp k theta hr hf
  have hfr := deathH_frame t fuel h root none fp k theta b h2 hr hb0
  have hsame : h2 = h → ∃ t2 fp2, repr h2 root none t2 fp2 ∧ fp2.Nodup ∧
      h.length ≤ h2.length ∧ (∀ x, x < h.length → x ∉ fp → h2[x]? = h[x]?) ∧
      (∀ x ∈ fp2, x ∈ fp ∨ h.length ≤ x) := by
    intro e
    subst e
    exact ⟨t, fp, hr, hnd, le_refl _, fun _ _ _ => rfl, fun x hx => Or.inl hx⟩
  refine ⟨b, h2, ?_⟩
  have hb := hb0
  unfold deathH at hb
  cases hg : getptrH fuel h root k with
  | none => simp [hg] at hb
  | some res =>
    cases res with
    | none =>
      simp only [hg, Option.some.injEq, Prod.mk.injEq] at hb
      obtain ⟨t2, fp2, q⟩ := hsame hb.2.symm
      exact ⟨t2, fp2, hb0, q⟩
    | some nb =>
      have hnb := getptrH_mem t fuel h root none fp k nb hr hg
      cases hi : isnogH h nb with
      | none => simp [hg, hi] at hb
      | some g =>
        cases g with
        | false =>
          simp only [hg, hi, Option.some.injEq, Prod.mk.injEq] at hb
          obtain ⟨t2, fp2, q⟩ := hsame hb.2.symm
          exact ⟨t2, fp2, hb0, q⟩
        | true =>
          simp only [hg, hi, Option.some.injEq, Prod.mk.injEq] at hb
          obtain ⟨ps, s, fs, hs, hsub, hroot, hk⟩ := repr_subst h h2 t root none fp nb hr hnd hnb
          have hlen : h2.length = h.length := by rw [← hb.2, length_upd]
          cases s with
          | bot theta0 v0 c0 =>
            obtain ⟨_, hcell⟩ := hs
            simp [isnogH, hcell] at hi
          | node theta0 v0 c0 l0 r0 =>
            obtain ⟨al, ar, fl, fr, hfs, hcell, hl0, hr0⟩ := hs
            have hcell2 : h2[nb]? = some ⟨theta, 0, 0, ps, none, none⟩ := by
              rw [← hb.2, getElem?_upd, if_pos rfl, hcell]
              rfl
            obtain ⟨t2, fp2, r2, nd2, m2⟩ := hk (tree.bot theta 0 0) [nb] ⟨rfl, hcell2⟩
              (by simp)
              (fun x _ hxs => by
                have : x ≠ nb := fun e => hxs (by rw [hfs, e]; simp)
                rw [← hb.2, getElem?_upd, if_neg this])
              (fun x hx => Or.inl (by
                simp only [List.mem_singleton] at hx
                rw [hfs, hx]
                simp))
            refine ⟨t2, fp2, hb0, r2, nd2, by omega, fun x _ hx => hfr x hx, ?_⟩
            intro x hx
            rcases m2 x hx with e | e
            · exact Or.inl e
            · simp only [List.mem_singleton] at e
              exact Or.inl (e ▸ hnb)
theorem treesizeH_spec (h : heap) : ∀ (t : tree) (fuel : Nat) (a : Nat) (par : Option Nat)
    (fp : List Nat), repr h a par t fp → t.height < fuel →
    treesizeH fuel h a = some t.treesize := by
  intro t
  induction t with
  | bot theta v c =>
    intro fuel a par fp hr hf
    obtain ⟨_, hc⟩ := hr
    cases fuel with
    | zero => omega
    | succ f => simp [treesizeH, hc, tree.treesize]
  | node theta v c l r ihl ihr =>
    intro fuel a par fp hr hf
    obtain ⟨al, ar, fl, fr, _, hc, hl, hrr⟩ := hr
    cases fuel with
    | zero => omega
    | succ f =>
      simp only [tree.height] at hf
      have h1 := le_max_left l.height r.height
      have h2 := le_max_right l.height r.height
      simp only [treesizeH, hc, ihl f al _ fl hl (by omega), ihr f ar _ fr hrr (by omega),
        tree.treesize]

theorem foldl_dropkidsH_frame : ∀ (nv : List Nat) (h1 : heap),
    (nv.foldl dropkidsH h1).length = h1.length ∧
    ∀ x, x ∉ nv → (nv.foldl dropkidsH h1)[x]? = h1[x]? := by
  intro nv
  induction nv with
  | nil => intro h1; exact ⟨rfl, fun _ _ => rfl⟩
  | cons n ns ih =>
    intro h1
    obtain ⟨e1, e2⟩ := ih (dropkidsH h1 n)
    refine ⟨by rw [List.foldl_cons, e1, dropkidsH, length_upd], ?_⟩
    intro x hx
    simp only [List.mem_cons, not_or] at hx
    rw [List.foldl_cons, e2 x hx.2, dropkidsH, getElem?_upd, if_neg hx.1]

theorem repr_root_isSome (h : heap) (t : tree) (a : Nat) (par : Option Nat) (fp : List Nat)
    (hr : repr h a par t fp) : ∃ y, h[a]? = some y ∧ y.l.isSome = !t.isbot := by
  cases t with
  | bot theta v c => exact ⟨_, hr.2, rfl⟩
  | node theta v c l r =>
    obtain ⟨al, ar, fl, fr, _, hc, _, _⟩ := hr
    exact ⟨_, hc, rfl⟩

/-- One pass of the loop of `tonull` on the memory: `getnogs` returns objects of the
tree, and after the `for` loop the root holds the tree without the children of its
no-grandchildren nodes. -/
theorem getnogsH_spec (h : heap) : ∀ (t : tree) (fuel : Nat) (a : Nat) (par : Option Nat)
    (fp : List Nat), repr h a par t fp → fp.Nodup → t.height < fuel →
    ∃ nv, getnogsH fuel h a = some nv ∧ (∀ x ∈ nv, x ∈ fp) ∧
      ∀ h1 : heap, (∀ x ∈ fp, h1[x]? = h[x]?) →
        ∃ fp2, repr (nv.foldl dropkidsH h1) a par t.cutnogs fp2 ∧ fp2.Nodup ∧
          (∀ x ∈ fp2, x ∈ fp) := by
  intro t
  induction t with
  | bot theta v c =>
    intro fuel a par fp hr hnd hf
    have hr0 := hr
    obtain ⟨_, hc⟩ := hr
    cases fuel with
    | zero => omega
    | succ f =>
      refine ⟨[], by simp [getnogsH, hc], by simp, ?_⟩
      intro h1 hag
      exact ⟨fp, repr_frame h h1 _ a par fp hr0 hag, hnd, fun x hx => hx⟩
  | node theta v c l r ihl ihr =>
    intro fuel a par fp hr hnd hf
    obtain ⟨al, ar, fl, fr, hfp, hc, hl, hrr⟩ := hr
    subst hfp
    rw [List.nodup_cons, List.nodup_append] at hnd
    obtain ⟨hanot, hndl, hndr, hdisj⟩ := hnd
    simp only [List.mem_append, not_or] at hanot
    cases fuel with
    | zero => omega
    | succ f =>
      simp only [tree.height] at hf
      have hm1 := le_max_left l.height r.height
      have hm2 := le_max_right l.height r.height
      obtain ⟨y, hy, hyl⟩ := repr_root_isSome h l al _ fl hl
      obtain ⟨z, hz, hzl⟩ := repr_root_isSome h r ar _ fr hrr
      have key : ∀ (s : tree) (as : Nat) (fs : List Nat) (w : cell),
          (∀ (fuel : Nat) (a : Nat) (par : Option Nat) (fp : List Nat), repr h a par s fp →
            fp.Nodup → s.height < fuel →
            ∃ nv, getnogsH fuel h a = some nv ∧ (∀ x ∈ nv, x ∈ fp) ∧
              ∀ h1 : heap, (∀ x ∈ fp, h1[x]? = h[x]?) →
                ∃ fp2, repr (nv.foldl dropkidsH h1) a par s.cutnogs fp2 ∧ fp2.Nodup ∧
                  (∀ x ∈ fp2, x ∈ fp)) →
          repr h as (some a) s fs → fs.Nodup → s.height < f → w.l.isSome = !s.isbot →
          ∃ nv, (if w.l.isSome then getnogsH f h as else some []) = some nv ∧
            (∀ x ∈ nv, x ∈ fs) ∧
            ∀ h1 : heap, (∀ x ∈ fs, h1[x]? = h[x]?) →
              ∃ fp2, repr (nv.foldl dropkidsH h1) as (some a) s.cutnogs fp2 ∧ fp2.Nodup ∧
                (∀ x ∈ fp2, x ∈ fs) := by
        intro s as fs w ih hs hnds hhs hw
        cases s with
        | bot theta0 v0 c0 =>
          simp only [tree.isbot, Bool.not_true] at hw
          refine ⟨[], by simp [hw], by simp, ?_⟩
          intro h1 hag
          exact ⟨fs, repr_frame h h1 _ as _ fs hs hag, hnds, fun x hx => hx⟩
        | node theta0 v0 c0 l0 r0 =>
          simp only [tree.isbot, Bool.not_false] at hw
          simp only [hw, if_true]
          exact ih f as (some a) fs hs hnds hhs
      obtain ⟨nl, enl, snl, knl⟩ := key l al fl y ihl hl hndl (by omega) hyl
      obtain ⟨nr, enr, snr, knr⟩ := key r ar fr z ihr hrr hndr (by omega) hzl
      by_cases hg : (!l.isbot || !r.isbot) = true
      · have hg2 : (y.l.isSome || z.l.isSome) = true := by rw [hyl, hzl]; exact hg
        refine ⟨nl ++ nr, ?_, ?_, ?_⟩
        · simp only [getnogsH, hc, hy, hz, hg2, if_true, enl, enr]
        · intro x hx
          simp only [List.mem_append] at hx
          rcases hx with e | e
          · simp [snl x e]
          · simp [snr x e]
        · intro h1 hag
          obtain ⟨fl2, rl2, ndl2, sl2⟩ := knl h1 (fun x hx => hag x (by simp [hx]))
          obtain ⟨lenA, frA⟩ := foldl_dropkidsH_frame nl h1
          obtain ⟨fr2, rr2, ndr2, sr2⟩ := knr (nl.foldl dropkidsH h1) (fun x hx => by
            rw [frA x (fun hxn => hdisj (snl x hxn) hx)]
            exact hag x (by simp [hx]))
          obtain ⟨lenB, frB⟩ := foldl_dropkidsH_frame nr (nl.foldl dropkidsH h1)
          rw [List.foldl_append]
          refine ⟨a :: (fl2 ++ fr2), ?_, ?_, ?_⟩
          · simp only [tree.cutnogs, hg, if_true]
            refine ⟨al, ar, fl2, fr2, rfl, ?_, ?_, rr2⟩
            · rw [frB a (fun hx => hanot.2 (snr a hx)), frA a (fun hx => hanot.1 (snl a hx)),
                hag a (by simp)]
              exact hc
            · exact repr_frame _ _ _ al _ fl2 rl2
                (fun x hx => frB x (fun hxn => hdisj (sl2 x hx) (snr x hxn)))
          · rw [List.nodup_cons, List.nodup_append]
            refine ⟨?_, ndl2, ndr2, ?_⟩
            · simp only [List.mem_append, not_or]
              exact ⟨fun hx => hanot.1 (sl2 a hx), fun hx => hanot.2 (sr2 a hx)⟩
            · intro x hx1 hx2
              exact hdisj (sl2 x hx1) (sr2 x hx2)
          · intro x hx
            simp only [List.mem_cons, List.mem_append] at hx ⊢
            rcases hx with e | e | e
            · exact Or.inl e
            · exact Or.inr (Or.inl (sl2 x e))
            · exact Or.inr (Or.inr (sr2 x e))
      · have hg3 : (!l.isbot || !r.isbot) = false := by simpa using hg
        have hg2 : (y.l.isSome || z.l.isSome) = false := by rw [hyl, hzl]; exact hg3
        refine ⟨[a], ?_, by simp, ?_⟩
        · simp only [getnogsH, hc, hy, hz, hg2, Bool.false_eq_true, if_false]
        · intro h1 hag
          refine ⟨[a], ?_, by simp, by simp⟩
          simp only [tree.cutnogs, hg3, Bool.false_eq_true, if_false, List.foldl_cons,
            List.foldl_nil]
          refine ⟨rfl, ?_⟩
          rw [dropkidsH, getElem?_upd, if_pos rfl, hag a (by simp), hc]
          rfl

/-- The loop of `tonull` on the memory ends, and writes only to objects of the tree. -/
theorem tonullLoopH_spec (fuel : Nat) : ∀ (passes : Nat) (t : tree) (h : heap) (a : Nat)
    (par : Option Nat) (fp : List Nat), repr h a par t fp → fp.Nodup → t.treesize ≤ fuel →
    t.treesize ≤ passes →
    ∃ h2, tonullLoopH fuel passes h a = some h2 ∧ h2.length = h.length ∧
      (∀ x, x ∉ fp → h2[x]? = h[x]?) := by
  intro passes
  induction passes with
  | zero =>
    intro t h a par fp _ _ _ hp
    have := treesize_pos t
    omega
  | succ n ih =>
    intro t h a par fp hr hnd hf hp
    have hh := height_lt_treesize t
    have hts := treesizeH_spec h t fuel a par fp hr (by omega)
    by_cases h1 : 1 < t.treesize
    · obtain ⟨nv, env, snv, knv⟩ := getnogsH_spec h t fuel a par fp hr hnd (by omega)
      obtain ⟨fp2, r2, nd2, s2⟩ := knv h (fun _ _ => rfl)
      obtain ⟨lenA, frA⟩ := foldl_dropkidsH_frame nv h
      have hlt := treesize_cutnogs_lt t h1
      obtain ⟨h2, e2, l2, f2⟩ := ih t.cutnogs (nv.foldl dropkidsH h) a par fp2 r2 nd2
        (by omega) (by omega)
      refine ⟨h2, ?_, by rw [l2, lenA], ?_⟩
      · simp only [tonullLoopH, hts, h1, if_true, env]
        exact e2
      · intro x hx
        rw [f2 x (fun hx2 => hx (s2 x hx2)), frA x (fun hx2 => hx (snv x hx2))]
    · exact ⟨h, by simp only [tonullLoopH, hts, h1, if_false], rfl, fun _ _ => rfl⟩

/-- On the memory, `tonull` called on a tree object returns; the object is then a
single default leaf and no object outside the tree was written. -/
theorem tonullH_spec (fuel : Nat) (t : tree) (h : heap) (a : Nat) (par : Option Nat)
    (fp : List Nat) (hr : repr h a par t fp) (hnd : fp.Nodup) (hf : t.treesize ≤ fuel) :
    ∃ h2, tonullH fuel h a = some h2 ∧ h2.length = h.length ∧
      (∀ x, x ∉ fp → h2[x]? = h[x]?) ∧ h2[a]? = some ⟨0, 0, 0, none, none, none⟩ := by
  obtain ⟨h1, e1, l1, f1⟩ := tonullLoopH_spec fuel fuel t h a par fp hr hnd hf hf
  have ha : a < h1.length := by
    rw [l1]
    exact repr_lt h t a par fp hr a (repr_root_mem h t a par fp hr)
  refine ⟨h1.upd a (fun _ => ⟨0, 0, 0, none, none, none⟩), by simp only [tonullH, e1],
    by rw [length_upd, l1], ?_, ?_⟩
  · intro x hx
    have : x ≠ a := fun e => hx (e ▸ repr_root_mem h t a par fp hr)
    rw [getElem?_upd, if_neg this, f1 x hx]
  · rw [getElem?_upd, if_pos rfl, List.getElem?_eq_getElem ha]
    rfl
/-- A call on one tree of a forest that writes only to that tree and to new objects
leaves a forest. -/
theorem forest_update (h h2 : heap) (roots : List Nat) (T : Nat → tree) (FP : Nat → List Nat)
    (r : Nat) (t2 : tree) (fp2 : List Nat) (hF : forest ⟨h, roots⟩ T FP) (hr : r ∈ roots)
    (hrep : repr h2 r none t2 fp2) (hnd : fp2.Nodup)
    (hfr : ∀ x, x < h.length → x ∉ FP r → h2[x]? = h[x]?)
    (hnew : ∀ x ∈ fp2, x ∈ FP r ∨ h.length ≤ x) :
    forest ⟨h2, roots⟩ (Function.update T r t2) (Function.update FP r fp2) := by
  obtain ⟨hn, hall, hdis⟩ := hF
  simp only at hn hall hdis
  have hlt : ∀ s ∈ roots, ∀ x ∈ FP s, x < h.length := fun s hs x hx =>
    repr_lt h (T s) s none (FP s) (hall s hs).1 x hx
  refine ⟨hn, ?_, ?_⟩
  · intro s hs
    simp only at hs ⊢
    by_cases e : s = r
    · subst e
      simp only [Function.update_same]
      exact ⟨hrep, hnd⟩
    · simp only [Function.update_noteq e]
      refine ⟨repr_frame h h2 (T s) s none (FP s) (hall s hs).1 (fun x hx => ?_), (hall s hs).2⟩
      exact hfr x (hlt s hs x hx) (fun hxr => hdis r hr s hs (Ne.symm e) x hxr hx)
  · intro s1 hs1 s2 hs2 hne x hx1 hx2
    simp only at hs1 hs2
    by_cases e1 : s1 = r
    · subst e1
      have e2 : s2 ≠ s1 := Ne.symm hne
      simp only [Function.update_same] at hx1
      simp only [Function.update_noteq e2] at hx2
      rcases hnew x hx1 with q | q
      · exact hdis s1 hs1 s2 hs2 hne x q hx2
      · have := hlt s2 hs2 x hx2
        omega
    · simp only [Function.update_noteq e1] at hx1
      by_cases e2 : s2 = r
      · subst e2
        simp only [Function.update_same] at hx2
        rcases hnew x hx2 with q | q
        · exact hdis s1 hs1 s2 hs2 hne x hx1 q
        · have := hlt s1 hs1 x hx1
          omega
      · simp only [Function.update_noteq e2] at hx2
        exact hdis s1 hs1 s2 hs2 hne x hx1 hx2

/-- A tree built in newly allocated objects joins a forest. -/
theorem forest_add (h h2 : heap) (roots : List Nat) (T : Nat → tree) (FP : Nat → List Nat)
    (t2 : tree) (fp2 : List Nat) (hF : forest ⟨h, roots⟩ T FP)
    (hrep : repr h2 h.length none t2 fp2) (hnd : fp2.Nodup)
    (hfr : ∀ x, x < h.length → h2[x]? = h[x]?) (hnew : ∀ x ∈ fp2, h.length ≤ x) :
    forest ⟨h2, roots ++ [h.length]⟩ (Function.update T h.length t2)
      (Function.update FP h.length fp2) := by
  obtain ⟨hn, hall, hdis⟩ := hF
  simp only at hn hall hdis
  have hlt : ∀ s ∈ roots, ∀ x ∈ FP s, x < h.length := fun s hs x hx =>
    repr_lt h (T s) s none (FP s) (hall s hs).1 x hx
  have hroot : ∀ s ∈ roots, s < h.length := fun s hs =>
    hlt s hs s (repr_root_mem h (T s) s none (FP s) (hall s hs).1)
  have hne : ∀ s ∈ roots, s ≠ h.length := fun s hs e => by have := hroot s hs; omega
  have hmem : ∀ s, s ∈ roots ++ [h.length] → s ∈ roots ∨ s = h.length := by
    intro s hs
    simpa using hs
  refine ⟨?_, ?_, ?_⟩
  · simp only
    rw [List.nodup_append]
    refine ⟨hn, by simp, ?_⟩
    intro x hx1 hx2
    simp only [List.mem_singleton] at hx2
    exact hne x hx1 hx2
  · intro s hs
    simp only at hs ⊢
    rcases hmem s hs with q | q
    · simp only [Function.update_noteq (hne s q)]
      exact ⟨repr_frame h h2 (T s) s none (FP s) (hall s q).1
        (fun x hx => hfr x (hlt s q x hx)), (hall s q).2⟩
    · subst q
      simp only [Function.update_same]
      exact ⟨hrep, hnd⟩
  · intro s1 hs1 s2 hs2 hne12 x hx1 hx2
    simp only at hs1 hs2
    rcases hmem s1 hs1 with q1 | q1
    · simp only [Function.update_noteq (hne s1 q1)] at hx1
      rcases hmem s2 hs2 with q2 | q2
      · simp only [Function.update_noteq (hne s2 q2)] at hx2
        exact hdis s1 q1 s2 q2 hne12 x hx1 hx2
      · subst q2
        simp only [Function.update_same] at hx2
        have := hlt s1 q1 x hx1
        have := hnew x hx2
        omega
    · subst q1
      simp only [Function.update_same] at hx1
      rcases hmem s2 hs2 with q2 | q2
      · simp only [Function.update_noteq (hne s2 q2)] at hx2
        have := hlt s2 q2 x hx2
        have := hnew x hx1
        omega
      · exact hne12 q2.symm

/-- Every object reached from the root of a tree held in memory holds a subtree. -/
theorem repr_of_reach (h : heap) (a : Nat) (par : Option Nat) (t : tree) (fp : List Nat)
    (hr : repr h a par t fp) (b : Nat) (hb : reach h a b) :
    ∃ pb s fs, repr h b pb s fs := by
  induction hb with
  | root => exact ⟨par, t, fp, hr⟩
  | left b c x _ hx hl ih =>
    obtain ⟨pb, s, fs, hs⟩ := ih
    cases s with
    | bot theta v c0 =>
      obtain ⟨_, hc⟩ := hs
      rw [hx] at hc
      simp only [Option.some.injEq] at hc
      rw [hc] at hl
      simp at hl
    | node theta v c0 l r =>
      obtain ⟨al, ar, fl, fr, _, hc, hl0, _⟩ := hs
      rw [hx] at hc
      simp only [Option.some.injEq] at hc
      rw [hc] at hl
      simp only [Option.some.injEq] at hl
      subst hl
      exact ⟨_, _, _, hl0⟩
  | right b c x _ hx hl ih =>
    obtain ⟨pb, s, fs, hs⟩ := ih
    cases s with
    | bot theta v c0 =>
      obtain ⟨_, hc⟩ := hs
      rw [hx] at hc
      simp only [Option.some.injEq] at hc
      rw [hc] at hl
      simp at hl
    | node theta v c0 l r =>
      obtain ⟨al, ar, fl, fr, _, hc, _, hr0⟩ := hs
      rw [hx] at hc
      simp only [Option.some.injEq] at hc
      rw [hc] at hl
      simp only [Option.some.injEq] at hl
      subst hl
      exact ⟨_, _, _, hr0⟩

/-- A tree held in memory at a root without parent is well-formed. -/
theorem repr_wellformed (h : heap) (a : Nat) (t : tree) (fp : List Nat)
    (hr : repr h a none t fp) : wellformed h a := by
  refine ⟨repr_root h t a none fp hr, ?_⟩
  intro b hb
  obtain ⟨pb, s, fs, hs⟩ := repr_of_reach h a none t fp hr b hb
  cases s with
  | bot theta v c => exact ⟨_, hs.2, Or.inl ⟨rfl, rfl⟩⟩
  | node theta v c l r =>
    obtain ⟨al, ar, fl, fr, _, hc, hl0, hr0⟩ := hs
    obtain ⟨yl, hyl, pyl⟩ := repr_root h l al _ fl hl0
    obtain ⟨yr, hyr, pyr⟩ := repr_root h r ar _ fr hr0
    exact ⟨_, hc, Or.inr ⟨al, ar, yl, yr, rfl, rfl, hyl, pyl, hyr, pyr⟩⟩
theorem makeH_spec (h : heap) (itheta : ℚ) :
    (makeH h itheta).2 = h.length ∧ (makeH h itheta).1.length = h.length + 1 ∧
    (makeH h itheta).1[h.length]? = some ⟨itheta, 0, 0, none, none, none⟩ ∧
    (∀ x, x < h.length → (makeH h itheta).1[x]? = h[x]?) := by
  refine ⟨rfl, by simp only [makeH, length_upd, length_alloc], ?_, ?_⟩
  · simp only [makeH, getElem?_upd, alloc_snd, if_true, getElem?_alloc_new, Option.map_some']
  · intro x hx
    have : x ≠ h.length := by omega
    simp only [makeH, getElem?_upd, alloc_snd, this, if_false]
    exact getElem?_alloc_old h x hx

/-- Each call keeps the forest: it returns, and every tree object again holds a tree
in objects of its own. -/
theorem step_forest (w : world) (T : Nat → tree) (FP : Nat → List Nat) (hF : forest w T FP)
    (o : op) : ∃ w2 T2 FP2, step w o = some w2 ∧ forest w2 T2 FP2 := by
  obtain ⟨h, roots⟩ := w
  have hF0 := hF
  obtain ⟨hn, hall, hdis⟩ := hF
  simp only at hn hall hdis
  have hsize : ∀ s ∈ roots, (T s).treesize ≤ h.length := fun s hs =>
    repr_treesize_le h (T s) s none (FP s) (hall s hs).1 (hall s hs).2
  have hlt : ∀ s ∈ roots, ∀ x ∈ FP s, x < h.length := fun s hs x hx =>
    repr_lt h (T s) s none (FP s) (hall s hs).1 x hx
  have hrm : ∀ s ∈ roots, s ∈ FP s := fun s hs =>
    repr_root_mem h (T s) s none (FP s) (hall s hs).1
  cases o with
  | make itheta =>
    obtain ⟨e1, e2, e3, e4⟩ := makeH_spec h itheta
    refine ⟨⟨(makeH h itheta).1, roots ++ [h.length]⟩, Function.update T h.length
      (tree.bot itheta 0 0), Function.update FP h.length [h.length], rfl, ?_⟩
    exact forest_add h _ roots T FP (tree.bot itheta 0 0) [h.length] hF0 ⟨rfl, e3⟩ (by simp) e4
      (by simp)
  | birth i k v c thetal thetar =>
    cases hi : roots[i]? with
    | none => exact ⟨_, T, FP, by simp only [step, hi], hF0⟩
    | some a =>
      have ha := List.getElem?_mem hi
      have hh := height_lt_treesize (T a)
      have hs := hsize a ha
      obtain ⟨b, h2, t2, fp2, e, r2, nd2, l2, f2, m2⟩ := birthH_repr (T a) (2 * h.length + 1) h
        a (FP a) k v c thetal thetar (hall a ha).1 (hall a ha).2 (by omega)
      refine ⟨⟨h2, roots⟩, Function.update T a t2, Function.update FP a fp2,
        by simp only [step, hi, world.fuel, e], ?_⟩
      exact forest_update h h2 roots T FP a t2 fp2 hF0 ha r2 nd2 f2 m2
  | death i k theta =>
    cases hi : roots[i]? with
    | none => exact ⟨_, T, FP, by simp only [step, hi], hF0⟩
    | some a =>
      have ha := List.getElem?_mem hi
      have hh := height_lt_treesize (T a)
      have hs := hsize a ha
      obtain ⟨b, h2, t2, fp2, e, r2, nd2, l2, f2, m2⟩ := deathH_repr (T a) (2 * h.length + 1) h
        a (FP a) k theta (hall a ha).1 (hall a ha).2 (by omega)
      refine ⟨⟨h2, roots⟩, Function.update T a t2, Function.update FP a fp2,
        by simp only [step, hi, world.fuel, e], ?_⟩
      exact forest_update h h2 roots T FP a t2 fp2 hF0 ha r2 nd2 f2 m2
  | tonull i =>
    cases hi : roots[i]? with
    | none => exact ⟨_, T, FP, by simp only [step, hi], hF0⟩
    | some a =>
      have ha := List.getElem?_mem hi
      have hs := hsize a ha
      obtain ⟨h2, e, l2, f2, c2⟩ := tonullH_spec (2 * h.length + 1) (T a) h a none (FP a)
        (hall a ha).1 (hall a ha).2 (by omega)
      refine ⟨⟨h2, roots⟩, Function.update T a (tree.bot 0 0 0), Function.update FP a [a],
        by simp only [step, hi, world.fuel, e], ?_⟩
      exact forest_update h h2 roots T FP a (tree.bot 0 0 0) [a] hF0 ha ⟨rfl, c2⟩ (by simp)
        (fun x _ hx => f2 x hx) (fun x hx => Or.inl (by
          simp only [List.mem_singleton] at hx
          rw [hx]
          exact hrm a ha))
  | copy i =>
    cases hi : roots[i]? with
    | none => exact ⟨_, T, FP, by simp only [step, hi], hF0⟩
    | some a =>
      have ha := List.getElem?_mem hi
      have hh := height_lt_treesize (T a)
      have hs := hsize a ha
      obtain ⟨e1, e2, e3, e4⟩ := makeH_spec h 0
      have hsrc : repr (makeH h 0).1 a none (T a) (FP a) :=
        repr_frame h _ (T a) a none (FP a) (hall a ha).1 (fun x hx => e4 x (hlt a ha x hx))
      obtain ⟨h2, fn, c1, r1, l1, f1, m1, nd1⟩ := cpH_spec (T a) (2 * h.length + 1) (makeH h 0).1
        h.length a none (FP a) ⟨0, 0, 0, none, none, none⟩ (by omega) hsrc e3 rfl rfl
        (fun hx => by have := hlt a ha _ hx; omega)
      refine ⟨⟨h2, roots ++ [h.length]⟩, Function.update T h.length (T a),
        Function.update FP h.length fn, by simp only [step, hi, world.fuel, copyH, e1, c1], ?_⟩
      refine forest_add h h2 roots T FP (T a) fn hF0 r1 nd1 ?_ ?_
      · intro x hx
        rw [f1 x (by omega) (by omega), e4 x hx]
      · intro x hx
        rcases m1 x hx with q | q <;> omega
  | assign i j =>
    cases hi : roots[i]? with
    | none => exact ⟨_, T, FP, by simp only [step, hi], hF0⟩
    | some lhs =>
      cases hj : roots[j]? with
      | none => exact ⟨_, T, FP, by simp only [step, hi, hj], hF0⟩
      | some rhs =>
        have hl := List.getElem?_mem hi
        have hr := List.getElem?_mem hj
        by_cases hne : rhs = lhs
        · exact ⟨_, T, FP, by simp [step, hi, hj, assignH, hne], hF0⟩
        · have hs := hsize lhs hl
          obtain ⟨h2, e, l2, f2, c2⟩ := tonullH_spec (2 * h.length + 1) (T lhs) h lhs none
            (FP lhs) (hall lhs hl).1 (hall lhs hl).2 (by omega)
          have hF2 := forest_update h h2 roots T FP lhs (tree.bot 0 0 0) [lhs] hF0 hl ⟨rfl, c2⟩
            (by simp) (fun x _ hx => f2 x hx) (fun x hx => Or.inl (by
              simp only [List.mem_singleton] at hx
              rw [hx]
              exact hrm lhs hl))
          have hsrc := (hF2.2.1 rhs hr).1
          simp only [Function.update_noteq hne] at hsrc
          have hh := height_lt_treesize (T rhs)
          have hs2 := hsize rhs hr
          obtain ⟨h3, fn, c1, r1, l1, f1, m1, nd1⟩ := cpH_spec (T rhs) (2 * h.length + 1) h2
            lhs rhs none (FP rhs) ⟨0, 0, 0, none, none, none⟩ (by omega) hsrc c2 rfl rfl
            (fun hx => hdis lhs hl rhs hr (Ne.symm hne) lhs (hrm lhs hl) hx)
          refine ⟨⟨h3, roots⟩,
            Function.update (Function.update T lhs (tree.bot 0 0 0)) lhs (T rhs),
            Function.update (Function.update FP lhs [lhs]) lhs fn,
            by simp [step, hi, hj, assignH, hne, world.fuel, e, c1], ?_⟩
          exact forest_update h2 h3 roots (Function.update T lhs (tree.bot 0 0 0))
            (Function.update FP lhs [lhs]) lhs (T rhs) fn hF2 hl r1 nd1
            (fun x hx hxn => f1 x hx (by simpa using hxn))
            (fun x hx => by
              rcases m1 x hx with q | q
              · exact Or.inl (by simp [q])
              · exact Or.inr q)

theorem run_forest : ∀ (ops : List op) (w : world) (T : Nat → tree) (FP : Nat → List Nat),
    forest w T FP → ∃ w2 T2 FP2, run w ops = some w2 ∧ forest w2 T2 FP2 := by
  intro ops
  induction ops with
  | nil => intro w T FP hF; exact ⟨w, T, FP, rfl, hF⟩
  | cons o os ih =>
    intro w T FP hF
    obtain ⟨w1, T1, FP1, e1, hF1⟩ := step_forest w T FP hF o
    obtain ⟨w2, T2, FP2, e2, hF2⟩ := ih w1 T1 FP1 hF1
    exact ⟨w2, T2, FP2, by simp only [run, e1, e2], hF2⟩

theorem forest_single_leaf (itheta : ℚ) :
    forest (single_leaf itheta) (fun _ => tree.bot itheta 0 0) (fun _ => [0]) := by
  refine ⟨by simp [single_leaf], ?_, ?_⟩
  · intro r hr
    simp only [single_leaf, List.mem_singleton] at hr
    subst hr
    exact ⟨⟨rfl, rfl⟩, by simp⟩
  · intro r hr s hs hne
    simp only [single_leaf, List.mem_singleton] at hr hs
    exact absurd (hr.trans hs.symm) hne

/-- C13. Well-formedness is an invariant of the tree operations. A program starts with
one tree object, a single leaf; it then makes any sequence of calls: a constructor,
`birth`, `death` (with any arguments, so both calls that succeed and calls that fail),
`tonull`, the copy constructor and the assignment, each called on a tree object it has
constructed (the root of a tree, not a node inside one). Every call returns, and
afterwards, for every tree object: its root has no parent, and every node reached from
the root through child pointers has either no children, or a left and a right child
whose parent pointers are that node. -/
theorem wellformed_invariant (itheta : ℚ) (ops : List op) :
    ∃ w, run (single_leaf itheta) ops = some w ∧ ∀ a ∈ w.roots, wellformed w.h a := by
  obtain ⟨w, T, FP, e, hF⟩ := run_forest ops (single_leaf itheta) _ _ (forest_single_leaf itheta)
  exact ⟨w, e, fun a ha => repr_wellformed w.h a (T a) (FP a) (hF.2.1 a ha).1⟩
/-- C13, instance: a leaf is grown by `birth(1, 0, 1, 10, 20)`, the tree is copied, and
`death(1, 7)` is called on the copy. The first tree object (address 0) keeps its two
children at addresses 1 and 2, the copy (address 3) is a leaf again, with its former
children at 4 and 5 deleted; both are well-formed. -/
theorem wellformed_invariant_witness :
    run (single_leaf 5) [op.birth 0 1 0 1 10 20, op.copy 0, op.death 1 1 7] =
      some ⟨[⟨5, 0, 1, none, some 1, some 2⟩, ⟨10, 0, 0, some 0, none, none⟩,
        ⟨20, 0, 0, some 0, none, none⟩, ⟨7, 0, 0, none, none, none⟩,
        ⟨10, 0, 0, some 3, none, none⟩, ⟨20, 0, 0, some 3, none, none⟩], [0, 3]⟩ ∧
    ∀ a ∈ [0, 3], wellformed [⟨5, 0, 1, none, some 1, some 2⟩, ⟨10, 0, 0, some 0, none, none⟩,
        ⟨20, 0, 0, some 0, none, none⟩, ⟨7, 0, 0, none, none, none⟩,
        ⟨10, 0, 0, some 3, none, none⟩, ⟨20, 0, 0, some 3, none, none⟩] a := by
  obtain ⟨w, e, hw⟩ := wellformed_invariant 5 [op.birth 0 1 0 1 10 20, op.copy 0, op.death 1 1 7]
  have e2 : run (single_leaf 5) [op.birth 0 1 0 1 10 20, op.copy 0, op.death 1 1 7] =
      some ⟨[⟨5, 0, 1, none, some 1, some 2⟩, ⟨10, 0, 0, some 0, none, none⟩,
        ⟨20, 0, 0, some 0, none, none⟩, ⟨7, 0, 0, none, none, none⟩,
        ⟨10, 0, 0, some 3, none, none⟩, ⟨20, 0, 0, some 3, none, none⟩], [0, 3]⟩ := rfl
  rw [e2] at e
  simp only [Option.some.injEq] at e
  subst e
  exact ⟨e2, hw⟩

/-! ## The admissible range and routing -/

/-- Each bound that `rg` returns is the bound it was started with or the neighbour of
the cutpoint index of one ancestor that splits on `v`: for `L` an ancestor above a right
child, for `U` an ancestor above a left child. -/
theorem rg_origin (v : Nat) : ∀ (up : List link) (L U : Int),
    ((rg v up (L, U)).1 = L ∨
      ∃ a ∈ up, a.v = v ∧ a.d = true ∧ (rg v up (L, U)).1 = toInt (succ64 a.c)) ∧
    ((rg v up (L, U)).2 = U ∨
      ∃ a ∈ up, a.v = v ∧ a.d = false ∧ (rg v up (L, U)).2 = toInt (pred64 a.c)) := by
  intro up
  induction up with
  | nil => intro L U; exact ⟨Or.inl rfl, Or.inl rfl⟩
  | cons a up ih =>
    intro L U
    have lift1 : ∀ (P : link → Prop), (∃ b ∈ up, P b) → ∃ b ∈ a :: up, P b :=
      fun P ⟨b, hb, hP⟩ => ⟨b, List.mem_cons_of_mem a hb, hP⟩
    by_cases hv : a.v = v
    · by_cases hd : a.d = false
      · simp only [rg, hv, hd, if_true]
        by_cases hc : toInt a.c ≤ U
        · rw [if_pos hc]
          obtain ⟨h1, h2⟩ := ih L (toInt (pred64 a.c))
          refine ⟨h1.imp id (lift1 _), ?_⟩
          rcases h2 with e | e
          · exact Or.inr ⟨a, List.mem_cons_self a up, hv, hd, e⟩
          · exact Or.inr (lift1 _ e)
        · rw [if_neg hc]
          obtain ⟨h1, h2⟩ := ih L U
          exact ⟨h1.imp id (lift1 _), h2.imp id (lift1 _)⟩
      · have hd1 : a.d = true := by simpa using hd
        simp only [rg, hv, hd1, if_true, Bool.true_eq_false, if_false]
        by_cases hc : toInt a.c ≥ L
        · rw [if_pos hc]
          obtain ⟨h1, h2⟩ := ih (toInt (succ64 a.c)) U
          refine ⟨?_, h2.imp id (lift1 _)⟩
          rcases h1 with e | e
          · exact Or.inr ⟨a, List.mem_cons_self a up, hv, hd1, e⟩
          · exact Or.inr (lift1 _ e)
        · rw [if_neg hc]
          obtain ⟨h1, h2⟩ := ih L U
          exact ⟨h1.imp id (lift1 _), h2.imp id (lift1 _)⟩
    · simp only [rg, hv, if_false]
      obtain ⟨h1, h2⟩ := ih L U
      exact ⟨h1.imp id (lift1 _), h2.imp id (lift1 _)⟩

/-- Every ancestor of the node that `bn` returns was passed on the side on which the
input lies: its rule could be read, and the input is below its cutpoint above a left
child and not below it above a right child. -/
theorem bn_linksFrom : ∀ (t : tree) (x : List ℚ) (xi : xinfo) (b : tree_p) (up : List link),
    t.bn x xi = some b → ∀ a ∈ t.linksFrom b up, a ∈ up ∨
      ∃ xv cut, x[a.v]? = some xv ∧ xi.cut a.v a.c = some cut ∧
        (a.d = false → xv < cut) ∧ (a.d = true → cut ≤ xv) := by
  intro t
  induction t with
  | bot theta v c =>
    intro x xi b up h a ha
    simp only [tree.bn, Option.some.injEq] at h
    subst h
    exact Or.inl (by simpa [tree.linksFrom] using ha)
  | node theta v c l r ihl ihr =>
    intro x xi b up h a ha
    cases hx : x[v]? with
    | none => simp [tree.bn, hx] at h
    | some xv =>
      cases hc : xi.cut v c with
      | none => simp [tree.bn, hx, hc] at h
      | some cut =>
        rw [bn_node_eq theta v c l r x xi xv cut hx hc] at h
        by_cases hlt : xv < cut
        · rw [if_pos hlt] at h
          cases hq : l.bn x xi with
          | none => simp [hq] at h
          | some q =>
            simp only [hq, Option.map_some', Option.some.injEq] at h
            subst h
            simp only [tree.linksFrom] at ha
            rcases ihl x xi q _ hq a ha with e | e
            · simp only [List.mem_cons] at e
              rcases e with e | e
              · subst e
                exact Or.inr ⟨xv, cut, hx, hc, fun _ => hlt, fun hd => by simp at hd⟩
              · exact Or.inl e
            · exact Or.inr e
        · rw [if_neg hlt] at h
          cases hq : r.bn x xi with
          | none => simp [hq] at h
          | some q =>
            simp only [hq, Option.map_some', Option.some.injEq] at h
            subst h
            simp only [tree.linksFrom] at ha
            rcases ihr x xi q _ hq a ha with e | e
            · simp only [List.mem_cons] at e
              rcases e with e | e
              · subst e
                exact Or.inr ⟨xv, cut, hx, hc, fun hd => by simp at hd,
                  fun _ => not_lt.mp hlt⟩
              · exact Or.inl e
            · exact Or.inr e

theorem toInt_pred64_length {n : Nat} (h : n ≤ 2 ^ 31) : toInt (pred64 n) = (n : Int) - 1 := by
  rcases Nat.lt_or_ge n (2 ^ 31) with h1 | h1
  · exact toInt_pred64 h1
  · have : n = 2 ^ 31 := le_antisymm h h1
    subst this
    decide

/-- C21. The admissible range agrees with routing. The bounds of `rg` are `int`s, so
the starting value `xi[v].size() - 1` is the value of an `int` (less than `2^31`; it is
then also what the conversion of the `size_t` expression gives). If `bn(x, xi)` called
on the root returns the node `n` (a bottom node), and `rg(v, &L, &U)` called on `n` with
`L = 0`, `U = xi[v].size() - 1` ends with `(L, U)`, then `L > 0` implies that `x[v]` and
`xi[v][L-1]` exist and `x[v] >= xi[v][L-1]`, and `U < xi[v].size() - 1` implies that
`U + 1 >= 0`, that `x[v]` and `xi[v][U+1]` exist and `x[v] < xi[v][U+1]`. -/
theorem rg_routing (t : tree) (xi : xinfo) (x : List ℚ) (v : Nat) (cuts : List ℚ) (b : tree_p)
    (L U : Int) (hcuts : xi[v]? = some cuts) (hint : (cuts.length : Int) - 1 < 2 ^ 31)
    (hb : t.bn x xi = some b)
    (hrg : rg v (t.links b) (0, (cuts.length : Int) - 1) = (L, U)) :
    toInt (pred64 cuts.length) = (cuts.length : Int) - 1 ∧
    (∃ theta v0 c0, t.sub b = some (tree.bot theta v0 c0)) ∧
    (0 < L → ∃ xv cut, x[v]? = some xv ∧ cuts[(L - 1).toNat]? = some cut ∧ cut ≤ xv) ∧
    (U < (cuts.length : Int) - 1 →
      0 ≤ U + 1 ∧ ∃ xv cut, x[v]? = some xv ∧ cuts[(U + 1).toNat]? = some cut ∧ xv < cut) := by
  have hlen31 : cuts.length ≤ 2 ^ 31 := by
    have : (2 : Int) ^ 31 = 2147483648 := by norm_num
    have : (2 : Nat) ^ 31 = 2147483648 := by norm_num
    omega
  have hstart := toInt_pred64_length hlen31
  have hroute : ∀ a ∈ t.links b, a.v = v → ∃ xv cut, x[v]? = some xv ∧
      cuts[a.c]? = some cut ∧ a.c < cuts.length ∧ (a.d = false → xv < cut) ∧
      (a.d = true → cut ≤ xv) := by
    intro a ha hav
    rcases bn_linksFrom t x xi b [] hb a ha with e | e
    · simp at e
    · obtain ⟨xv, cut, hx, hc, hl, hr⟩ := e
      rw [hav] at hx hc
      simp only [xinfo.cut, hcuts] at hc
      have hlen : a.c < cuts.length := by
        by_contra hn
        rw [List.getElem?_eq_none (by omega)] at hc
        simp at hc
      exact ⟨xv, cut, hx, hc, hlen, hl, hr⟩
  obtain ⟨hL, hU⟩ := rg_origin v (t.links b) 0 ((cuts.length : Int) - 1)
  rw [hrg] at hL hU
  simp only at hL hU
  refine ⟨hstart, bn_sub_bot t x xi b hb, ?_, ?_⟩
  · intro hpos
    rcases hL with e | ⟨a, ha, hav, had, e⟩
    · omega
    · obtain ⟨xv, cut, hx, hc, hlen, _, hr⟩ := hroute a ha hav
      rcases Nat.lt_or_ge (a.c + 1) (2 ^ 31) with h1 | h1
      · rw [toInt_succ64 h1] at e
        refine ⟨xv, cut, hx, ?_, hr had⟩
        have : (L - 1).toNat = a.c := by omega
        rw [this]
        exact hc
      · have h2 : a.c = 2147483647 := by
          have : (2 : Nat) ^ 31 = 2147483648 := by norm_num
          omega
        rw [h2] at e
        have h3 : toInt (succ64 2147483647) = -2147483648 := by decide
        rw [h3] at e
        omega
  · intro hlt
    rcases hU with e | ⟨a, ha, hav, had, e⟩
    · omega
    · obtain ⟨xv, cut, hx, hc, hlen, hl, _⟩ := hroute a ha hav
      have hc31 : a.c < 2 ^ 31 := by omega
      rw [toInt_pred64 hc31] at e
      refine ⟨by omega, xv, cut, hx, ?_, hl had⟩
      have : (U + 1).toNat = a.c := by omega
      rw [this]
      exact hc
/-- C21, instance: in the scenario tree after `birth(3, 0, 2, 21, 22)`, the input
`x = [2.5]` reaches the leaf with value 21 (node id 6); `rg` for variable 0 ends there
with `L = 2`, `U = 1`; indeed `x[0] = 2.5 >= xi[0][1] = 2` and `x[0] < xi[0][2] = 3`. -/
theorem rg_routing_witness :
    scen_xi[0]? = some [1, 2, 3] ∧ scen_grown.bn [5/2] scen_xi = some [true, false] ∧
    rg 0 (scen_grown.links [true, false]) (0, 3 - 1) = (2, 1) ∧
    (∃ xv cut, ([5/2] : List ℚ)[0]? = some xv ∧ ([1, 2, 3] : List ℚ)[1]? = some cut ∧
      cut ≤ xv) ∧
    (∃ xv cut, ([5/2] : List ℚ)[0]? = some xv ∧ ([1, 2, 3] : List ℚ)[2]? = some cut ∧
      xv < cut) := by
  have hg : scen_grown = tree.node 0 0 1 (tree.bot 10 0 0)
      (tree.node 20 0 2 (tree.bot 21 0 0) (tree.bot 22 0 0)) := by rfl
  have hb : scen_grown.bn [5/2] scen_xi = some [true, false] := by
    rw [hg]
    norm_num [scen_xi, tree.bn, xinfo.cut]
  have hrg : rg 0 (scen_grown.links [true, false])
      (0, ((([1, 2, 3] : List ℚ).length : Nat) : Int) - 1) = (2, 1) := by decide
  obtain ⟨_, _, h1, h2⟩ := rg_routing scen_grown scen_xi [5/2] 0 [1, 2, 3] [true, false] 2 1 rfl
    (by norm_num) hb hrg
  exact ⟨rfl, hb, hrg, h1 (by decide), (h2 (by decide)).2⟩
/-! ## Node ids as binary-heap addresses -/

theorem sub_append : ∀ (t : tree) (p q : tree_p) (s : tree), t.sub p = some s →
    t.sub (p ++ q) = s.sub q := by
  intro t
  induction t with
  | bot theta v c =>
    intro p q s h
    cases p with
    | nil =>
      simp only [sub_nil, Option.some.injEq] at h
      subst h
      rfl
    | cons d p => simp [tree.sub] at h
  | node theta v c l r ihl ihr =>
    intro p q s h
    cases p with
    | nil =>
      simp only [sub_nil, Option.some.injEq] at h
      subst h
      rfl
    | cons d p =>
      cases d with
      | false => simpa [tree.sub] using ihl p q s (by simpa [tree.sub] using h)
      | true => simpa [tree.sub] using ihr p q s (by simpa [tree.sub] using h)

/-- The parent chain of a node below the node `s` at `p` continues the chain of `s`. -/
theorem linksFrom_append : ∀ (t : tree) (p q : tree_p) (s : tree) (up : List link),
    t.sub p = some s → t.linksFrom (p ++ q) up = s.linksFrom q (t.linksFrom p up) := by
  intro t
  induction t with
  | bot theta v c =>
    intro p q s up h
    cases p with
    | nil =>
      simp only [sub_nil, Option.some.injEq] at h
      subst h
      simp [linksFrom_nil]
    | cons d p => simp [tree.sub] at h
  | node theta v c l r ihl ihr =>
    intro p q s up h
    cases p with
    | nil =>
      simp only [sub_nil, Option.some.injEq] at h
      subst h
      simp [linksFrom_nil]
    | cons d p =>
      cases d with
      | false => simpa [tree.linksFrom] using ihl p q s _ (by simpa [tree.sub] using h)
      | true => simpa [tree.linksFrom] using ihr p q s _ (by simpa [tree.sub] using h)

/-- The parent chain of a child: the link to the parent, then the parent's chain. -/
theorem links_child (t : tree) (p : tree_p) (theta : ℚ) (v c : Nat) (l r : tree) (d : Bool)
    (h : t.sub p = some (tree.node theta v c l r)) :
    t.links (p ++ [d]) = ⟨d, v, c⟩ :: t.links p := by
  unfold tree.links
  rw [linksFrom_append t p [d] _ [] h]
  cases d <;> simp [tree.linksFrom, linksFrom_nil]

/-- Every node other than the root is a child of a node with children. -/
theorem sub_parent (t : tree) (q : tree_p) (hq : (t.sub q).isSome) :
    q = [] ∨ ∃ p d theta v c l r, q = p ++ [d] ∧ t.sub p = some (tree.node theta v c l r) := by
  rcases List.eq_nil_or_concat q with e | ⟨p, d, e⟩
  · exact Or.inl e
  · right
    rw [List.concat_eq_append] at e
    subst e
    cases hp : t.sub p with
    | none =>
      exfalso
      have : ∀ (t : tree) (p q : tree_p), t.sub p = none → t.sub (p ++ q) = none := by
        intro t
        induction t with
        | bot theta v c =>
          intro p q h
          cases p with
          | nil => simp [sub_nil] at h
          | cons d p => rfl
        | node theta v c l r ihl ihr =>
          intro p q h
          cases p with
          | nil => simp [sub_nil] at h
          | cons d p =>
            cases d with
            | false => simpa [tree.sub] using ihl p q (by simpa [tree.sub] using h)
            | true => simpa [tree.sub] using ihr p q (by simpa [tree.sub] using h)
      rw [this t p [d] hp] at hq
      simp at hq
    | some s =>
      rw [sub_append t p [d] s hp] at hq
      cases s with
      | bot theta v c => simp [tree.sub] at hq
      | node theta v c l r => exact ⟨p, d, theta, v, c, l, r, rfl, hp⟩

theorem depth_eq_length : ∀ up : List link, up.length < 2 ^ 64 → depth up = up.length := by
  intro up
  induction up with
  | nil => intro _; rfl
  | cons a up ih =>
    intro h
    simp only [List.length_cons] at h
    simp only [depth, List.length_cons, ih (by omega)]
    rw [Nat.mod_eq_of_lt (by omega)]
    omega

/-- C22. Node ids are binary-heap addresses consistent with depth. In a tree of depth
less than 64: the root has `nid() = 1`; every other node is the left or the right child
of a node with children, its parent, and its `nid()` is `2 * parent.nid()` for a left
child and `2 * parent.nid() + 1` for a right child; for every node, `depth()` is the
number of its ancestors (the length of its parent chain, which is the number of child
steps from the root), and `2^depth() <= nid() < 2^(depth()+1)`. -/
theorem nid_heap_address (t : tree) (h : t.height < 64) :
    nid (t.links []) = 1 ∧
    (∀ q, (t.sub q).isSome → q = [] ∨
      ∃ p d theta v c l r, q = p ++ [d] ∧ t.sub p = some (tree.node theta v c l r)) ∧
    (∀ p theta v c l r, t.sub p = some (tree.node theta v c l r) →
      t.links (p ++ [false]) = ⟨false, v, c⟩ :: t.links p ∧
      t.links (p ++ [true]) = ⟨true, v, c⟩ :: t.links p ∧
      nid (t.links (p ++ [false])) = 2 * nid (t.links p) ∧
      nid (t.links (p ++ [true])) = 2 * nid (t.links p) + 1) ∧
    (∀ p, (t.sub p).isSome →
      (t.links p).length = p.length ∧ depth (t.links p) = (t.links p).length ∧
      2 ^ depth (t.links p) ≤ nid (t.links p) ∧
      nid (t.links p) < 2 ^ (depth (t.links p) + 1)) := by
  have hlen : ∀ p, (t.sub p).isSome → (t.links p).length = p.length ∧ p.length < 64 := by
    intro p hp
    have h1 := linksFrom_length t p [] hp
    have h2 := sub_length_le t p hp
    simp only [List.length_nil, Nat.add_zero] at h1
    exact ⟨h1, by omega⟩
  refine ⟨by simp [tree.links, linksFrom_nil, nid], fun q hq => sub_parent t q hq, ?_, ?_⟩
  · intro p theta v c l r hp
    have hl : (t.sub (p ++ [false])).isSome := by
      rw [sub_append t p [false] _ hp]; simp [tree.sub, sub_nil]
    have hr : (t.sub (p ++ [true])).isSome := by
      rw [sub_append t p [true] _ hp]; simp [tree.sub, sub_nil]
    have e1 := links_child t p theta v c l r false hp
    have e2 := links_child t p theta v c l r true hp
    have hp0 := hlen p (by simp [hp])
    have n1 := nid_eq_eid (t.links (p ++ [false])) (by rw [(hlen _ hl).1]; exact (hlen _ hl).2)
    have n2 := nid_eq_eid (t.links (p ++ [true])) (by rw [(hlen _ hr).1]; exact (hlen _ hr).2)
    have n0 := nid_eq_eid (t.links p) (by rw [hp0.1]; exact hp0.2)
    refine ⟨e1, e2, ?_, ?_⟩
    · rw [n1, n0, e1]; simp [eid]
    · rw [n2, n0, e2]; simp [eid]
  · intro p hp
    obtain ⟨h1, h2⟩ := hlen p hp
    have hd : depth (t.links p) = (t.links p).length :=
      depth_eq_length _ (by
        rw [h1]
        exact lt_trans h2 (by norm_num))
    have hn := nid_eq_eid (t.links p) (by rw [h1]; exact h2)
    have hb := eid_bounds (t.links p)
    rw [hd, hn]
    exact ⟨h1, rfl, hb.1, hb.2⟩

/-- C22, instance: in the scenario tree after `birth(3, 0, 2, 21, 22)` the ids are 1 at
the root, 2 and 3 at its children, 6 and 7 at the children of node 3; node 6 has depth
2 and `2^2 <= 6 < 2^3`. -/
theorem nid_heap_address_witness :
    scen_grown.height < 64 ∧
    nid (scen_grown.links []) = 1 ∧
    nid (scen_grown.links [false]) = 2 ∧ nid (scen_grown.links [true]) = 3 ∧
    nid (scen_grown.links [true, false]) = 2 * nid (scen_grown.links [true]) ∧
    nid (scen_grown.links [true, true]) = 2 * nid (scen_grown.links [true]) + 1 ∧
    nid (scen_grown.links [true, false]) = 6 ∧
    depth (scen_grown.links [true, false]) = 2 ∧
    2 ^ depth (scen_grown.links [true, false]) ≤ nid (scen_grown.links [true, false]) ∧
    nid (scen_grown.links [true, false]) < 2 ^ (depth (scen_grown.links [true, false]) + 1) := by
  have hh : scen_grown.height < 64 := by decide
  obtain ⟨h1, _, h3, h4⟩ := nid_heap_address scen_grown hh
  have hs : scen_grown.sub [true] = some (tree.node 20 0 2 (tree.bot 21 0 0) (tree.bot 22 0 0)) := by
    rfl
  obtain ⟨_, _, e1, e2⟩ := h3 [true] 20 0 2 _ _ hs
  obtain ⟨_, _, b1, b2⟩ := h4 [true, false] (by rfl)
  exact ⟨hh, h1, by decide, by decide, e1, e2, by decide, by decide, b1, b2⟩

end SBMtrees
